import Mathlib

/-!
# persistent_set: a path-copying binary search tree

Shallow embedding of `src/persistent_set.h`.

* The free store is a list of value nodes; the address of a node is its index.
  `std::make_shared` appends a node, so a fresh address is the length of the list.
  Reference counts are not modelled: a node is never reclaimed, so a raw pointer
  that would dangle in C++ still reads the node it used to designate.
* A `node_ptr_t` (`std::shared_ptr<val_node_t>`) is `Option Nat`.
* A raw `node_t*` is `node_ptr`: null, the address of the sentinel `root` of the set
  at hand, or the address of a value node.
* Every loop takes a fuel argument and yields `none` when it is used up; `none` is also
  the result of reading through a null pointer or reading the key of the sentinel.
* `size_` is a `size_t`: arithmetic on it wraps modulo `2 ^ 64`.
* In `copy_path`, `insert` and `erase` no construction of a node throws. The definitions
  named `..._throwing` embed the same members with a budget of constructions that succeed
  before one throws; their result is `Except.error` with the store and the set at the moment
  the exception leaves the call.
* The comparison `operator<` of `src/tuple.h` is embedded at the end of the definitions: a
  tuple is the list of its elements, all of one linearly ordered type. `less<I>` is a
  function template, so its embedding says first whether the instantiation is well-formed
  and only then which value the call returns; it takes a bound on the nesting of
  instantiations.
-/

namespace PersistentSet

/-- Modulus of `size_t` arithmetic. -/
def SIZE_MOD : Nat := 2 ^ 64

/-- The type `node_ptr_t = std::shared_ptr<val_node_t>`: empty, or the address of a value node. -/
abbrev node_ptr_t := Option Nat

/-- A raw pointer `node_t*`. -/
inductive node_ptr where
  | null
  | root
  | val (a : Nat)
  deriving DecidableEq, Repr

/-- The call `p.get()` on a shared pointer. -/
def sp_get : node_ptr_t → node_ptr
  | none => .null
  | some a => .val a

/-- The struct `node_t`: the two owning child references. The sentinel is a bare `node_t`. -/
structure node_t where
  left : node_ptr_t := none
  right : node_ptr_t := none
  deriving DecidableEq, Repr

/-- The struct `val_node_t`: the members of its base `node_t`, and the key. -/
structure val_node_t (T : Type) where
  left : node_ptr_t := none
  right : node_ptr_t := none
  value : T
  deriving DecidableEq, Repr

/-- The base-class part of a value node. -/
def val_node_t.base {T : Type} (nd : val_node_t T) : node_t :=
  ⟨nd.left, nd.right⟩

/-- The free store of value nodes. -/
abbrev Heap (T : Type) := List (val_node_t T)

/-- The data members of `persistent_set`: the sentinel `root` (held by value) and `size_`. -/
structure persistent_set where
  root : node_t := {}
  size_ : Nat := 0
  deriving DecidableEq, Repr

/-- The data members of `persistent_set::iterator`. -/
structure iterator where
  ptr : node_ptr
  root : node_ptr
  deriving DecidableEq, Repr

variable {T : Type} [LinearOrder T]

/-- The call `std::make_shared<val_node_t>(...)`: the new node gets the next free address. -/
def make_shared (h : Heap T) (nd : val_node_t T) : Heap T × Nat :=
  (h ++ [nd], h.length)

/-- Read the `node_t` part behind a raw pointer (`root` is the sentinel of the set at hand). -/
def deref (h : Heap T) (root : node_t) : node_ptr → Option node_t
  | .null => none
  | .root => some root
  | .val a => (h[a]?).map (fun nd => nd.base)

/-- The member `node_t::left_ptr`. -/
def left_ptr (h : Heap T) (root : node_t) (p : node_ptr) : Option node_ptr :=
  (deref h root p).map (fun nd => sp_get nd.left)

/-- The member `node_t::right_ptr`. -/
def right_ptr (h : Heap T) (root : node_t) (p : node_ptr) : Option node_ptr :=
  (deref h root p).map (fun nd => sp_get nd.right)

/-- The function `persistent_set::get_value`: only a value node has a key. -/
def get_value (h : Heap T) : node_ptr → Option T
  | .val a => (h[a]?).map (fun nd => nd.value)
  | _ => none

/-- The function `node_t::link_left`: `if (parent) parent->left = left`. -/
def link_left (h : Heap T) (root : node_t) (parent : node_ptr) (l : node_ptr_t) :
    Heap T × node_t :=
  match parent with
  | .null => (h, root)
  | .root => (h, { root with left := l })
  | .val a =>
    match h[a]? with
    | none => (h, root)
    | some nd => (h.set a { nd with left := l }, root)

/-- The function `node_t::link_right`: `if (parent) parent->right = right`. -/
def link_right (h : Heap T) (root : node_t) (parent : node_ptr) (r : node_ptr_t) :
    Heap T × node_t :=
  match parent with
  | .null => (h, root)
  | .root => (h, { root with right := r })
  | .val a =>
    match h[a]? with
    | none => (h, root)
    | some nd => (h.set a { nd with right := r }, root)

/-- The function `node_t::link`: `side` false is left, true is right. -/
def link (h : Heap T) (root : node_t) (parent : node_ptr) (child : node_ptr_t) (side : Bool) :
    Heap T × node_t :=
  if side then link_right h root parent child else link_left h root parent child

/-- The member `node_t::is_leaf`. -/
def is_leaf (nd : node_t) : Bool :=
  nd.left.isNone && nd.right.isNone

/-- The member `node_t::has_one_child`. -/
def has_one_child (nd : node_t) : Bool :=
  (nd.left.isSome && nd.right.isNone) || (nd.left.isNone && nd.right.isSome)

/-- The member `node_t::get_only_child`: `left ? left : right`. -/
def get_only_child (nd : node_t) : node_ptr_t :=
  if nd.left.isSome then nd.left else nd.right

/-- The loop of `node_t::min_in_subtree`. -/
def min_in_subtree (h : Heap T) (root : node_t) : Nat → node_ptr → Option node_ptr
  | 0, _ => none
  | fuel + 1, p =>
    if p = .null then some p
    else
      match left_ptr h root p with
      | none => none
      | some q => if q = .null then some p else min_in_subtree h root fuel q

/-- The loop of `node_t::next`, for the key of `p`. -/
def next_loop (h : Heap T) (key : T) : Nat → node_ptr → node_ptr → Option node_ptr
  | 0, _, _ => none
  | _ + 1, .null, successor => some successor
  | _ + 1, .root, _ => none
  | fuel + 1, .val a, successor =>
    match h[a]? with
    | none => none
    | some nd =>
      if key < nd.value then next_loop h key fuel (sp_get nd.left) (.val a)
      else next_loop h key fuel (sp_get nd.right) successor

/-- The function `node_t::next(p, root)`. -/
def next (fuel : Nat) (h : Heap T) (root : node_t) (p : node_ptr) (rootp : node_ptr) :
    Option node_ptr :=
  match get_value h p, left_ptr h root rootp with
  | some key, some cur => next_loop h key fuel cur rootp
  | _, _ => none

/-- The member `persistent_set::make_iterator`. -/
def make_iterator (p : node_ptr) : iterator :=
  ⟨p, .root⟩

/-- The member `persistent_set::end`. -/
def persistent_set.end_ (_s : persistent_set) : iterator :=
  make_iterator .root

/-- The member `persistent_set::begin`. -/
def persistent_set.begin_ (fuel : Nat) (h : Heap T) (s : persistent_set) : Option iterator :=
  (min_in_subtree h s.root fuel .root).map make_iterator

/-- The member `persistent_set::size`. -/
def persistent_set.size (s : persistent_set) : Nat :=
  s.size_

/-- The operator `==` on iterators: only `ptr` is compared. -/
def iterator.eq (a b : iterator) : Bool :=
  decide (a.ptr = b.ptr)

/-- The operator `*` on an iterator. -/
def iterator.star (h : Heap T) (it : iterator) : Option T :=
  get_value h it.ptr

/-- The operator `++` (prefix) on an iterator into the set `s`. -/
def iterator.incr (fuel : Nat) (h : Heap T) (s : persistent_set) (it : iterator) :
    Option iterator :=
  if it.ptr ≠ it.root then
    (next fuel h s.root it.ptr it.root).map (fun p => { it with ptr := p })
  else some it

/-- The loop of `persistent_set::find`. -/
def find_loop (h : Heap T) (key : T) : Nat → node_ptr → Option node_ptr
  | 0, _ => none
  | _ + 1, .null => some .root
  | _ + 1, .root => none
  | fuel + 1, .val a =>
    match h[a]? with
    | none => none
    | some nd =>
      if nd.value < key then find_loop h key fuel (sp_get nd.right)
      else if key < nd.value then find_loop h key fuel (sp_get nd.left)
      else some (.val a)

/-- The member `persistent_set::find`. -/
def persistent_set.find (fuel : Nat) (h : Heap T) (s : persistent_set) (key : T) :
    Option iterator :=
  (find_loop h key fuel (sp_get s.root.left)).map make_iterator

/-- The last three statements of `copy_path`: link `replace` below `successor`, then
overwrite both children of `replace`. -/
def copy_path_finish (h : Heap T) (root : node_t) (replace left_end right_end : node_ptr_t)
    (successor : node_ptr) (side : Bool) : Heap T × node_t :=
  let w1 := link h root successor replace side
  let w2 := link_left w1.1 w1.2 (sp_get replace) left_end
  link_right w2.1 w2.2 (sp_get replace) right_end

/-- The loop of `persistent_set::copy_path`. The clone `cur_copy` has the fields of `*cur`, so
the key and the children read through `cur_copy` are those of `nd`. -/
def copy_path_loop (key : T) (replace left_end right_end : node_ptr_t) :
    Nat → Heap T → node_t → node_ptr → node_ptr → Bool → Option (Heap T × node_t)
  | 0, _, _, _, _, _ => none
  | _ + 1, h, root, .null, successor, side =>
    some (copy_path_finish h root replace left_end right_end successor side)
  | _ + 1, _, _, .root, _, _ => none
  | fuel + 1, h, root, .val a, successor, side =>
    match h[a]? with
    | none => none
    | some nd =>
      if nd.value = key then
        some (copy_path_finish h root replace left_end right_end successor side)
      else
        let a1 := make_shared h nd
        let w := link a1.1 root successor (some a1.2) side
        if nd.value < key then
          copy_path_loop key replace left_end right_end fuel w.1 w.2 (sp_get nd.right)
            (.val a1.2) true
        else if key < nd.value then
          copy_path_loop key replace left_end right_end fuel w.1 w.2 (sp_get nd.left)
            (.val a1.2) false
        else
          copy_path_loop key replace left_end right_end fuel w.1 w.2 (.val a) successor side

/-- The member `persistent_set::copy_path`. -/
def persistent_set.copy_path (fuel : Nat) (h : Heap T) (s : persistent_set) (key : T)
    (replace left_end right_end : node_ptr_t) : Option (Heap T × persistent_set) :=
  (copy_path_loop key replace left_end right_end fuel h s.root (sp_get s.root.left) .root
    false).map (fun w => (w.1, { s with root := w.2 }))

/-- The statement `++size_`. -/
def size_inc (n : Nat) : Nat := (n + 1) % SIZE_MOD

/-- The statement `--size_`. -/
def size_dec (n : Nat) : Nat := (n + SIZE_MOD - 1) % SIZE_MOD

/-- The member `persistent_set::insert`. -/
def persistent_set.insert (fuel : Nat) (h : Heap T) (s : persistent_set) (key : T) :
    Option (Heap T × persistent_set × iterator × Bool) :=
  match s.find fuel h key with
  | none => none
  | some it =>
    if it.eq s.end_ = false then some (h, s, s.end_, false)
    else
      let a1 := make_shared h (⟨none, none, key⟩ : val_node_t T)
      match s.copy_path fuel a1.1 key (some a1.2) none none with
      | none => none
      | some w =>
        some (w.1, { w.2 with size_ := size_inc w.2.size_ }, make_iterator (.val a1.2), true)

/-- The member `persistent_set::erase`. -/
def persistent_set.erase : Nat → Heap T → persistent_set → iterator →
    Option (Heap T × persistent_set × iterator)
  | 0, _, _, _ => none
  | fuel + 1, h, s, it =>
    if it.eq s.end_ then some (h, s, s.end_)
    else
      match it.ptr with
      | .val a =>
        match h[a]? with
        | none => none
        | some node =>
          if is_leaf node.base || has_one_child node.base then
            match it.incr fuel h s with
            | none => none
            | some res =>
              match s.copy_path fuel h node.value (get_only_child node.base) none none with
              | none => none
              | some w => some (w.1, { w.2 with size_ := size_dec w.2.size_ }, res)
          else
            match next fuel h s.root (.val a) .root with
            | some (.val n) =>
              match h[n]? with
              | none => none
              | some nn =>
                let a1 := make_shared h nn
                match persistent_set.erase fuel a1.1 s (make_iterator (.val n)) with
                | none => none
                | some w1 =>
                  let s2 := { w1.2.1 with size_ := size_inc w1.2.1.size_ }
                  match s2.copy_path fuel w1.1 node.value (some a1.2) node.left node.right with
                  | none => none
                  | some w2 =>
                    some (w2.1, { w2.2 with size_ := size_dec w2.2.size_ },
                      make_iterator (.val a1.2))
            | _ => none
      | _ => none

/-- The copy constructor: `root(other.root)`; `size_` keeps its default initialiser `0`. -/
def persistent_set.copy_construct (other : persistent_set) : persistent_set :=
  { root := other.root, size_ := 0 }

/-- The copy assignment `this = other`: `root = other.root`; `size_` is not assigned. -/
def persistent_set.copy_assign (this other : persistent_set) : persistent_set :=
  { this with root := other.root }

/-- The client loop `for (it = start; it != s.end(); ++it) out.push_back(*it)`. -/
def traverse_loop (fuel : Nat) (h : Heap T) (s : persistent_set) :
    Nat → iterator → Option (List T)
  | 0, _ => none
  | n + 1, it =>
    if it.eq s.end_ then some []
    else
      match it.star h, it.incr fuel h s with
      | some v, some it1 => (traverse_loop fuel h s n it1).map (fun vs => v :: vs)
      | _, _ => none

/-- The keys met when stepping from `s.begin()` to `s.end()`. -/
def persistent_set.traverse (fuel : Nat) (h : Heap T) (s : persistent_set) : Option (List T) :=
  match s.begin_ fuel h with
  | none => none
  | some it => traverse_loop fuel h s fuel it

/-- Insert the keys of a list, first to last, into the set `w.2` living in the store `w.1`. -/
def insert_all (fuel : Nat) : Heap T × persistent_set → List T → Option (Heap T × persistent_set)
  | w, [] => some w
  | w, k :: ks =>
    match w.2.insert fuel w.1 k with
    | none => none
    | some r => insert_all fuel (r.1, r.2.1) ks

/-- A default-constructed set on an empty store, followed by `insert` of each key in turn. -/
def build (fuel : Nat) (keys : List T) : Option (Heap T × persistent_set) :=
  insert_all fuel ([], {}) keys

/-! ## The abstract tree laid out in the store -/

/-- A tree of value nodes as laid out in the store: every node with its address and its key. -/
inductive Tree (T : Type) where
  | leaf : Tree T
  | node (l : Tree T) (a : Nat) (v : T) (r : Tree T) : Tree T

namespace Tree

/-- The shared pointer that designates the tree. -/
def ptr : Tree T → node_ptr_t
  | leaf => none
  | node _ a _ _ => some a

/-- The keys of the tree, in order. -/
def keys : Tree T → List T
  | leaf => []
  | node l _ v r => l.keys ++ v :: r.keys

/-- The nodes of the tree, address and key, in order. -/
def nodes : Tree T → List (Nat × T)
  | leaf => []
  | node l a v r => l.nodes ++ (a, v) :: r.nodes

/-- The addresses of the nodes of the tree. -/
def addrs : Tree T → List Nat
  | leaf => []
  | node l a _ r => a :: (l.addrs ++ r.addrs)

/-- The height of the tree. -/
def height : Tree T → Nat
  | leaf => 0
  | node l _ _ r => max l.height r.height + 1

/-- The descent of `find` on a tree: the node holding `key`, or the sentinel. -/
def lookup : Tree T → T → node_ptr
  | leaf, _ => .root
  | node l a v r, key =>
    if v < key then r.lookup key else if key < v then l.lookup key else .val a

/-- The descent of `next` on a tree, with the candidate found so far. -/
def succ : Tree T → T → node_ptr → node_ptr
  | leaf, _, s => s
  | node l a v r, key, s => if key < v then l.succ key (.val a) else r.succ key s

/-- The search-tree ordering: keys on the left are smaller, keys on the right are larger. -/
def BST : Tree T → Prop
  | leaf => True
  | node l _ v r => l.BST ∧ r.BST ∧ (∀ x ∈ l.keys, x < v) ∧ (∀ x ∈ r.keys, v < x)

/-- The tree built by `copy_path`: the search path for `key` is cloned at the fresh
addresses `n`, `n + 1`, ... and ends in the tree `R`; everything off the path is shared. -/
def copy_path : Tree T → T → Tree T → Nat → Tree T
  | leaf, _, R, _ => R
  | node l _ v r, key, R, n =>
    if v = key then R
    else if v < key then node l n v (r.copy_path key R (n + 1))
    else node (l.copy_path key R (n + 1)) n v r

/-- The addresses of the nodes off the search path for `key`. -/
def off_path : Tree T → T → List Nat
  | leaf, _ => []
  | node l _ v r, key =>
    if v = key then []
    else if v < key then l.addrs ++ r.off_path key
    else r.addrs ++ l.off_path key

/-- The pointer that `copy_path` links below the node it starts from. -/
def entry : Tree T → T → node_ptr_t → Nat → node_ptr_t
  | leaf, _, replace, _ => replace
  | node _ _ v _, key, replace, n => if v = key then replace else some n

end Tree

/-- The tree is laid out in the store: every node sits at its address with its key and with
the pointers to its two subtrees. -/
def Stored (h : Heap T) : Tree T → Prop
  | .leaf => True
  | .node l a v r => h[a]? = some ⟨l.ptr, r.ptr, v⟩ ∧ Stored h l ∧ Stored h r

/-- The node `nd` after one of its child pointers is overwritten. -/
def set_child (side : Bool) (q : node_ptr_t) (nd : val_node_t T) : val_node_t T :=
  if side then { nd with right := q } else { nd with left := q }


/-- The sentinel after `link`: it changes only when it is the parent. -/
def link_root (rc : node_t) (p : node_ptr) (q : node_ptr_t) (side : Bool) : node_t :=
  match p with
  | .root => if side then { rc with right := q } else { rc with left := q }
  | _ => rc


/-- The search path for `key` in the tree is laid out in the store. -/
def StoredOn (h : Heap T) (key : T) : Tree T → Prop
  | .leaf => True
  | .node l a v r =>
    h[a]? = some ⟨l.ptr, r.ptr, v⟩ ∧ (v < key → StoredOn h key r) ∧ (key < v → StoredOn h key l)


/-- The set `s` in the store `h` holds the search tree `t`. -/
structure Holds (h : Heap T) (s : persistent_set) (t : Tree T) : Prop where
  stored : Stored h t
  left : s.root.left = t.ptr
  bst : t.BST

/-- The descent of `min_in_subtree` on a tree hanging on the left of the node `d`. -/
def Tree.min_ptr : Tree T → node_ptr → node_ptr
  | .leaf, d => d
  | .node l a _ _, _ => l.min_ptr (.val a)

/-- The pointer to the first node of a list of nodes, the sentinel when there is none. -/
def first_ptr (ns : List (Nat × T)) : node_ptr :=
  match ns with
  | [] => .root
  | p :: _ => .val p.1

/-- The client call `s.erase(s.find(k))`. -/
def persistent_set.erase_key (fuel : Nat) (h : Heap T) (s : persistent_set) (k : T) :
    Option (Heap T × persistent_set × iterator) :=
  match s.find fuel h k with
  | none => none
  | some it => s.erase fuel h it

/-- The subtree rooted at the node where the descent of `copy_path` for `key` stops. -/
def Tree.subtree_at : Tree T → T → Tree T
  | .leaf, _ => .leaf
  | .node l a v r, key =>
    if v = key then .node l a v r
    else if v < key then r.subtree_at key
    else l.subtree_at key

/-- The subtree rooted at the leftmost node. -/
def Tree.min_node : Tree T → Tree T
  | .leaf => .leaf
  | .node .leaf a v r => .node .leaf a v r
  | .node (.node ll la lv lr) _ _ _ => (Tree.node ll la lv lr).min_node

/-- The root node alone, both children cut off. -/
def Tree.leafify : Tree T → Tree T
  | .leaf => .leaf
  | .node _ a v _ => .node .leaf a v .leaf

/-- The tree behind `get_only_child`: the left subtree unless it is empty. -/
def Tree.only_child : Tree T → Tree T → Tree T
  | .leaf, r => r
  | .node ll la lv lr, _ => .node ll la lv lr

/-- The loop of `persistent_set::lower_bound`. -/
def lower_bound_loop (h : Heap T) (key : T) : Nat → node_ptr → node_ptr → Option node_ptr
  | 0, _, _ => none
  | _ + 1, .null, res => some res
  | _ + 1, .root, _ => none
  | fuel + 1, .val a, res =>
    match h[a]? with
    | none => none
    | some nd =>
      if nd.value < key then lower_bound_loop h key fuel (sp_get nd.right) res
      else lower_bound_loop h key fuel (sp_get nd.left) (.val a)

/-- The member `persistent_set::lower_bound`. -/
def persistent_set.lower_bound (fuel : Nat) (h : Heap T) (s : persistent_set) (key : T) :
    Option iterator :=
  (lower_bound_loop h key fuel (sp_get s.root.left) .root).map make_iterator

/-- The loop of `persistent_set::upper_bound`. -/
def upper_bound_loop (h : Heap T) (key : T) : Nat → node_ptr → node_ptr → Option node_ptr
  | 0, _, _ => none
  | _ + 1, .null, res => some res
  | _ + 1, .root, _ => none
  | fuel + 1, .val a, res =>
    match h[a]? with
    | none => none
    | some nd =>
      if key < nd.value then upper_bound_loop h key fuel (sp_get nd.left) (.val a)
      else upper_bound_loop h key fuel (sp_get nd.right) res

/-- The member `persistent_set::upper_bound`. -/
def persistent_set.upper_bound (fuel : Nat) (h : Heap T) (s : persistent_set) (key : T) :
    Option iterator :=
  (upper_bound_loop h key fuel (sp_get s.root.left) .root).map make_iterator

/-- The descent of `lower_bound` on a tree, with the candidate found so far. -/
def Tree.lb : Tree T → T → node_ptr → node_ptr
  | .leaf, _, s => s
  | .node l a v r, key, s => if v < key then r.lb key s else l.lb key (.val a)

/-- The member `persistent_set::clear`: `root.left.reset()`; `size_` is not assigned. -/
def persistent_set.clear (s : persistent_set) : persistent_set :=
  { s with root := { s.root with left := none } }

/-- The member `persistent_set::empty`: `!root.left && !root.right`. -/
def persistent_set.empty (s : persistent_set) : Bool :=
  s.root.left.isNone && s.root.right.isNone

/-- The loop of `node_t::max_in_subtree`. -/
def max_in_subtree (h : Heap T) (root : node_t) : Nat → node_ptr → Option node_ptr
  | 0, _ => none
  | fuel + 1, p =>
    if p = .null then some p
    else
      match right_ptr h root p with
      | none => none
      | some q => if q = .null then some p else max_in_subtree h root fuel q

/-- The loop of `node_t::prev`, for the key of `p`. -/
def prev_loop (h : Heap T) (key : T) : Nat → node_ptr → node_ptr → Option node_ptr
  | 0, _, _ => none
  | _ + 1, .null, successor => some successor
  | _ + 1, .root, _ => none
  | fuel + 1, .val a, successor =>
    match h[a]? with
    | none => none
    | some nd =>
      if nd.value < key then prev_loop h key fuel (sp_get nd.right) (.val a)
      else prev_loop h key fuel (sp_get nd.left) successor

/-- The function `node_t::prev(p, root)`. -/
def prev (fuel : Nat) (h : Heap T) (root : node_t) (p : node_ptr) (rootp : node_ptr) :
    Option node_ptr :=
  match get_value h p, left_ptr h root rootp with
  | some key, some cur => prev_loop h key fuel cur rootp
  | _, _ => none

/-- The operator `--` (prefix) on an iterator into the set `s`. -/
def iterator.decr (fuel : Nat) (h : Heap T) (s : persistent_set) (it : iterator) :
    Option iterator :=
  if it.ptr ≠ it.root then
    (prev fuel h s.root it.ptr it.root).map (fun p => { it with ptr := p })
  else
    match left_ptr h s.root it.root with
    | none => none
    | some q => (max_in_subtree h s.root fuel q).map (fun p => { it with ptr := p })

/-- Modelled from the spec: the reverse-iterator adapter `std::reverse_iterator<iterator>`,
which is not part of the sources; it is built solely from the retreat, dereference and equality
of the iterator it wraps. This is its data member. -/
structure reverse_iterator where
  current : iterator
  deriving DecidableEq, Repr

/-- Modelled from the spec: the operator `*` of the reverse-iterator adapter, which is not part
of the sources: `tmp = current; --tmp; return *tmp`. -/
def reverse_iterator.star (fuel : Nat) (h : Heap T) (s : persistent_set)
    (r : reverse_iterator) : Option T :=
  match r.current.decr fuel h s with
  | none => none
  | some tmp => tmp.star h

/-- Modelled from the spec: the operator `++` of the reverse-iterator adapter, which is not part
of the sources: `--current`. -/
def reverse_iterator.incr (fuel : Nat) (h : Heap T) (s : persistent_set)
    (r : reverse_iterator) : Option reverse_iterator :=
  (r.current.decr fuel h s).map (fun it => ⟨it⟩)

/-- Modelled from the spec: the operator `==` of the reverse-iterator adapter, which is not part
of the sources: the wrapped iterators are compared. -/
def reverse_iterator.eq (a b : reverse_iterator) : Bool :=
  a.current.eq b.current

/-- The member `persistent_set::rbegin`. -/
def persistent_set.rbegin (s : persistent_set) : reverse_iterator :=
  ⟨s.end_⟩

/-- The member `persistent_set::rend`. -/
def persistent_set.rend (fuel : Nat) (h : Heap T) (s : persistent_set) :
    Option reverse_iterator :=
  (s.begin_ fuel h).map (fun it => ⟨it⟩)

/-- The client loop `for (r = start; r != s.rend(); ++r) out.push_back(*r)`. -/
def rtraverse_loop (fuel : Nat) (h : Heap T) (s : persistent_set) (rend : reverse_iterator) :
    Nat → reverse_iterator → Option (List T)
  | 0, _ => none
  | n + 1, r =>
    if r.eq rend then some []
    else
      match r.star fuel h s, r.incr fuel h s with
      | some v, some r1 => (rtraverse_loop fuel h s rend n r1).map (fun vs => v :: vs)
      | _, _ => none

/-- The keys met when stepping from `s.rbegin()` to `s.rend()`. -/
def persistent_set.rtraverse (fuel : Nat) (h : Heap T) (s : persistent_set) :
    Option (List T) :=
  match s.rend fuel h with
  | none => none
  | some rend => rtraverse_loop fuel h s rend fuel s.rbegin

/-- The descent of `prev` on a tree, with the candidate found so far. -/
def Tree.pred : Tree T → T → node_ptr → node_ptr
  | .leaf, _, s => s
  | .node l a v r, key, s => if v < key then r.pred key (.val a) else l.pred key s

/-- The descent of `max_in_subtree` on a tree hanging on the right of the node `d`. -/
def Tree.max_ptr : Tree T → node_ptr → node_ptr
  | .leaf, d => d
  | .node _ a _ r, _ => r.max_ptr (.val a)

/-- The loop of `persistent_set::copy_path` when the construction of a node can throw: `b`
counts the constructions (allocation and key copy) that still succeed. When
`std::make_shared` throws, the catch block resets the local `replace` and rethrows, so the
store and the sentinel stay as the loop has left them: `Except.error`. A normal return also
hands back what is left of `b`. -/
def copy_path_loop_throwing (key : T) (replace left_end right_end : node_ptr_t) :
    Nat → Nat → Heap T → node_t → node_ptr → node_ptr → Bool →
      Option (Except (Heap T × node_t) ((Heap T × node_t) × Nat))
  | 0, _, _, _, _, _, _ => none
  | _ + 1, b, h, root, .null, successor, side =>
    some (.ok (copy_path_finish h root replace left_end right_end successor side, b))
  | _ + 1, _, _, _, .root, _, _ => none
  | fuel + 1, b, h, root, .val a, successor, side =>
    match h[a]? with
    | none => none
    | some nd =>
      if nd.value = key then
        some (.ok (copy_path_finish h root replace left_end right_end successor side, b))
      else
        match b with
        | 0 => some (.error (h, root))
        | b1 + 1 =>
          let a1 := make_shared h nd
          let w := link a1.1 root successor (some a1.2) side
          if nd.value < key then
            copy_path_loop_throwing key replace left_end right_end fuel b1 w.1 w.2
              (sp_get nd.right) (.val a1.2) true
          else if key < nd.value then
            copy_path_loop_throwing key replace left_end right_end fuel b1 w.1 w.2
              (sp_get nd.left) (.val a1.2) false
          else
            copy_path_loop_throwing key replace left_end right_end fuel b1 w.1 w.2 (.val a)
              successor side

/-- The member `persistent_set::copy_path` when the construction of a node can throw. -/
def persistent_set.copy_path_throwing (fuel b : Nat) (h : Heap T) (s : persistent_set) (key : T)
    (replace left_end right_end : node_ptr_t) :
    Option (Except (Heap T × persistent_set) ((Heap T × persistent_set) × Nat)) :=
  match copy_path_loop_throwing key replace left_end right_end fuel b h s.root
      (sp_get s.root.left) .root false with
  | none => none
  | some (.error w) => some (.error (w.1, { s with root := w.2 }))
  | some (.ok w) => some (.ok ((w.1.1, { s with root := w.1.2 }), w.2))

/-- The member `persistent_set::insert` when the construction of a node can throw: the new
node is the first construction, the clones of `copy_path` follow. -/
def persistent_set.insert_throwing (fuel b : Nat) (h : Heap T) (s : persistent_set) (key : T) :
    Option (Except (Heap T × persistent_set) (Heap T × persistent_set × iterator × Bool)) :=
  match s.find fuel h key with
  | none => none
  | some it =>
    if it.eq s.end_ = false then some (.ok (h, s, s.end_, false))
    else
      match b with
      | 0 => some (.error (h, s))
      | b1 + 1 =>
        let a1 := make_shared h (⟨none, none, key⟩ : val_node_t T)
        match s.copy_path_throwing fuel b1 a1.1 key (some a1.2) none none with
        | none => none
        | some (.error w) => some (.error w)
        | some (.ok w) =>
          some (.ok (w.1.1, { w.1.2 with size_ := size_inc w.1.2.size_ },
            make_iterator (.val a1.2), true))

/-- The member `persistent_set::erase` when the copy of a key and the construction of a node
can throw. The throwing steps are, in order: `auto key = get_value(node)`, in the two-child
branch the construction of `next_copy`, the inner `erase`, and the clones of `copy_path`. -/
def persistent_set.erase_throwing : Nat → Nat → Heap T → persistent_set → iterator →
    Option (Except (Heap T × persistent_set) ((Heap T × persistent_set × iterator) × Nat))
  | 0, _, _, _, _ => none
  | fuel + 1, b, h, s, it =>
    if it.eq s.end_ then some (.ok ((h, s, s.end_), b))
    else
      match it.ptr with
      | .val a =>
        match h[a]? with
        | none => none
        | some node =>
          if is_leaf node.base || has_one_child node.base then
            match it.incr fuel h s with
            | none => none
            | some res =>
              match b with
              | 0 => some (.error (h, s))
              | b1 + 1 =>
                match s.copy_path_throwing fuel b1 h node.value (get_only_child node.base)
                    none none with
                | none => none
                | some (.error w) => some (.error w)
                | some (.ok w) =>
                  some (.ok ((w.1.1, { w.1.2 with size_ := size_dec w.1.2.size_ }, res), w.2))
          else
            match next fuel h s.root (.val a) .root with
            | some (.val n) =>
              match h[n]? with
              | none => none
              | some nn =>
                match b with
                | 0 => some (.error (h, s))
                | 1 => some (.error (h, s))
                | b2 + 2 =>
                  let a1 := make_shared h nn
                  match persistent_set.erase_throwing fuel b2 a1.1 s (make_iterator (.val n)) with
                  | none => none
                  | some (.error w) => some (.error w)
                  | some (.ok w1) =>
                    let s2 := { w1.1.2.1 with size_ := size_inc w1.1.2.1.size_ }
                    match s2.copy_path_throwing fuel w1.2 w1.1.1 node.value (some a1.2)
                        node.left node.right with
                    | none => none
                    | some (.error w) => some (.error w)
                    | some (.ok w2) =>
                      some (.ok ((w2.1.1, { w2.1.2 with size_ := size_dec w2.1.2.size_ },
                        make_iterator (.val a1.2)), w2.2))
            | _ => none
      | _ => none

/-- The tree left behind when `copy_path` throws at its clone number `b + 1`: the first `b`
nodes of the search path for `key` are clones at the fresh addresses `n`, `n + 1`, ..., the
rest is the tree as it was. -/
def Tree.copy_prefix : Tree T → T → Nat → Nat → Tree T
  | .leaf, _, _, _ => .leaf
  | .node l a v r, key, n, b =>
    if v = key then .node l a v r
    else
      match b with
      | 0 => .node l a v r
      | b1 + 1 =>
        if v < key then .node l n v (r.copy_prefix key (n + 1) b1)
        else .node (l.copy_prefix key (n + 1) b1) n v r

/-- The move constructor of `node_t`: both references are moved out of `other`, which is left
with two empty references. The result is the new node and `other` afterwards. -/
def node_t.move_construct (other : node_t) : node_t × node_t :=
  (⟨other.left, other.right⟩, ⟨none, none⟩)

/-- The member `node_t::copy_from`: `link_left(this, other.left); link_right(this, other.right)`. -/
def node_t.copy_from (_this other : node_t) : node_t :=
  ⟨other.left, other.right⟩

/-- The member `node_t::move_from`: `copy_from(other)`, then both references of `other` are
reset. The result is `this` and `other` afterwards. -/
def node_t.move_from (this other : node_t) : node_t × node_t :=
  (this.copy_from other, ⟨none, none⟩)

/-- The move constructor of `persistent_set`: `root(std::move(other.root))`; `size_` keeps its
default initialiser `0`, and `other.size_` is not touched. The result is the new set and
`other` afterwards. -/
def persistent_set.move_construct (other : persistent_set) : persistent_set × persistent_set :=
  let r := node_t.move_construct other.root
  ({ root := r.1, size_ := 0 }, { other with root := r.2 })

/-- The move assignment `this = std::move(other)` between two distinct sets:
`root = std::move(other.root)`; neither `size_` is assigned. The result is `this` and `other`
afterwards. -/
def persistent_set.move_assign (this other : persistent_set) : persistent_set × persistent_set :=
  let r := this.root.move_from other.root
  ({ this with root := r.1 }, { other with root := r.2 })

/-- The member `persistent_set::swap` on two distinct sets: `std::swap(root, other.root)`, that
is `tmp(std::move(root)); root = std::move(other.root); other.root = std::move(tmp)`; neither
`size_` is touched. The result is `this` and `other` afterwards. -/
def persistent_set.swap (this other : persistent_set) : persistent_set × persistent_set :=
  let r1 := node_t.move_construct this.root
  let r2 := r1.2.move_from other.root
  let r3 := r2.2.move_from r1.1
  ({ this with root := r2.1 }, { other with root := r3.1 })

/-- The keys of the value nodes reachable from a reference, left subtree first. -/
def inorder_keys (h : Heap T) : Nat → node_ptr_t → Option (List T)
  | 0, _ => none
  | _ + 1, none => some []
  | fuel + 1, some a =>
    match h[a]? with
    | none => none
    | some nd =>
      match inorder_keys h fuel nd.left, inorder_keys h fuel nd.right with
      | some l, some r => some (l ++ nd.value :: r)
      | _, _ => none

/-- Whether every value node reachable from a reference has only smaller keys in its left
subtree and only larger keys in its right subtree. -/
def ordered_below (h : Heap T) : Nat → node_ptr_t → Option Bool
  | 0, _ => none
  | _ + 1, none => some true
  | fuel + 1, some a =>
    match h[a]? with
    | none => none
    | some nd =>
      match inorder_keys h fuel nd.left, inorder_keys h fuel nd.right,
        ordered_below h fuel nd.left, ordered_below h fuel nd.right with
      | some l, some r, some bl, some br =>
        some (l.all (fun x => decide (x < nd.value)) && r.all (fun x => decide (nd.value < x))
          && bl && br)
      | _, _, _, _ => none

/-- A `tuple` whose element types are all `T`: the list of the values `get<0>`, `get<1>`, ... -/
abbrev tuple (T : Type) := List T

/-- What the use of a function template at given template arguments comes to: either the
instantiation is ill-formed, so that the program does not compile, or the call returns a
value. -/
inductive instantiated (α : Type) where
  | ill_formed
  | value (v : α)
  deriving DecidableEq, Repr

/-- The function `get<N>` of `tuple.h`: ill-formed when `static_assert(N < sizeof...(Types))`
fails. -/
def tuple_get (N : Nat) (t : tuple T) : instantiated T :=
  match t[N]? with
  | some v => .value v
  | none => .ill_formed

/-- The function `less<I>` of `tuple.h`. The `return` statement that follows the
`if constexpr` statement is not a substatement of it, so it is instantiated whatever the
condition is: `less<I>` needs `get<I>` on both tuples and `less<I + 1>`. The first argument
bounds the nesting of the instantiations, and the result is `none` when it is used up.
`sizeof...(TTypes) - 1` is computed in `size_t`. -/
def less (first second : tuple T) : Nat → Nat → Option (instantiated Bool)
  | 0, _ => none
  | depth + 1, I =>
    match tuple_get I first, tuple_get I second with
    | .value a, .value b =>
      match less first second depth (I + 1) with
      | none => none
      | some .ill_formed => some .ill_formed
      | some (.value rest) =>
        if I ≥ (first.length + SIZE_MOD - 1) % SIZE_MOD then some (.value false)
        else some (.value (decide (a < b) || (decide (b = a) && rest)))
    | _, _ => some .ill_formed

/-- The operator `<` on tuples: `static_assert` on equal sizes, then `less<0>`. -/
def tuple_lt (depth : Nat) (first second : tuple T) : Option (instantiated Bool) :=
  if first.length = second.length then less first second depth 0 else some .ill_formed

/-- The keys of the nodes that `copy_path` clones: the search path for `key` from the top
down, without the node of `key` itself. -/
def Tree.path_keys : Tree T → T → List T
  | .leaf, _ => []
  | .node l _ v r, key =>
    if v = key then []
    else if v < key then v :: r.path_keys key
    else v :: l.path_keys key

/-- The subtrees hanging off the search path for `key`, from the top down. -/
def Tree.off_trees : Tree T → T → List (Tree T)
  | .leaf, _ => []
  | .node l _ v r, key =>
    if v = key then []
    else if v < key then l :: r.off_trees key
    else r :: l.off_trees key

/-! ## Lemmas -/

set_option linter.unusedSectionVars false

theorem Tree.keys_eq_map_nodes (t : Tree T) : t.keys = t.nodes.map Prod.snd := by
  induction t with
  | leaf => rfl
  | node l a v r ihl ihr => simp [Tree.keys, Tree.nodes, ihl, ihr]

theorem Tree.height_le_length_keys (t : Tree T) : t.height ≤ t.keys.length := by
  induction t with
  | leaf => simp [Tree.height, Tree.keys]
  | node l a v r ihl ihr =>
    simp only [Tree.height, Tree.keys, List.length_append, List.length_cons]
    omega

theorem Stored.addr_lt {h : Heap T} {t : Tree T} (hs : Stored h t) :
    ∀ a ∈ t.addrs, a < h.length := by
  induction t with
  | leaf => simp [Tree.addrs]
  | node l a v r ihl ihr =>
    obtain ⟨h1, h2, h3⟩ := hs
    intro x hx
    simp only [Tree.addrs, List.mem_cons, List.mem_append] at hx
    rcases hx with rfl | hx | hx
    · by_contra hc
      rw [List.getElem?_eq_none (by omega)] at h1
      cases h1
    · exact ihl h2 x hx
    · exact ihr h3 x hx

theorem Stored.congr {h h1 : Heap T} {t : Tree T} (hs : Stored h t)
    (heq : ∀ a ∈ t.addrs, h1[a]? = h[a]?) : Stored h1 t := by
  induction t with
  | leaf => trivial
  | node l a v r ihl ihr =>
    obtain ⟨h1', h2, h3⟩ := hs
    refine ⟨?_, ihl h2 ?_, ihr h3 ?_⟩
    · rw [heq a (by simp [Tree.addrs])]; exact h1'
    · intro x hx; exact heq x (by simp [Tree.addrs, hx])
    · intro x hx; exact heq x (by simp [Tree.addrs, hx])

theorem next_loop_stored {h : Heap T} (key : T) {t : Tree T} (hs : Stored h t) :
    ∀ fuel s, t.height < fuel →
      next_loop h key fuel (sp_get t.ptr) s = some (t.succ key s) := by
  induction t with
  | leaf =>
    intro fuel s hf
    cases fuel with
    | zero => omega
    | succ n => rfl
  | node l a v r ihl ihr =>
    intro fuel s hf
    obtain ⟨h1, h2, h3⟩ := hs
    cases fuel with
    | zero => omega
    | succ n =>
      simp only [Tree.height] at hf
      simp only [Tree.ptr, sp_get, next_loop, h1, Tree.succ]
      split
      · exact ihl h2 n _ (by omega)
      · exact ihr h3 n _ (by omega)

theorem link_left_getElem? (h : Heap T) (rc : node_t) (p : node_ptr) (q : node_ptr_t) (i : Nat) :
    (link_left h rc p q).1[i]? =
      if p = .val i then (h[i]?).map (set_child false q) else h[i]? := by
  cases p with
  | null => simp [link_left]
  | root => simp [link_left]
  | val a =>
    by_cases hai : a = i
    · subst hai
      rcases hx : h[a]? with _ | nd
      · simp [link_left, hx]
      · have hlt : a < h.length := by
          by_contra hc
          rw [List.getElem?_eq_none (by omega)] at hx
          cases hx
        simp [link_left, List.getElem?_set, hlt, hx, set_child]
    · rcases hx : h[a]? with _ | nd
      · simp [link_left, hx, hai]
      · simp [link_left, hx, List.getElem?_set, hai]

theorem link_right_getElem? (h : Heap T) (rc : node_t) (p : node_ptr) (q : node_ptr_t) (i : Nat) :
    (link_right h rc p q).1[i]? =
      if p = .val i then (h[i]?).map (set_child true q) else h[i]? := by
  cases p with
  | null => simp [link_right]
  | root => simp [link_right]
  | val a =>
    by_cases hai : a = i
    · subst hai
      rcases hx : h[a]? with _ | nd
      · simp [link_right, hx]
      · have hlt : a < h.length := by
          by_contra hc
          rw [List.getElem?_eq_none (by omega)] at hx
          cases hx
        simp [link_right, List.getElem?_set, hlt, hx, set_child]
    · rcases hx : h[a]? with _ | nd
      · simp [link_right, hx, hai]
      · simp [link_right, hx, List.getElem?_set, hai]

theorem link_getElem? (h : Heap T) (rc : node_t) (p : node_ptr) (q : node_ptr_t) (side : Bool)
    (i : Nat) :
    (link h rc p q side).1[i]? =
      if p = .val i then (h[i]?).map (set_child side q) else h[i]? := by
  unfold link
  cases side
  · simp [link_left_getElem?]
  · simp [link_right_getElem?]

theorem link_left_length (h : Heap T) (rc : node_t) (p : node_ptr) (q : node_ptr_t) :
    (link_left h rc p q).1.length = h.length := by
  cases p with
  | null => rfl
  | root => rfl
  | val a => rcases hx : h[a]? with _ | nd <;> simp [link_left, hx]

theorem link_right_length (h : Heap T) (rc : node_t) (p : node_ptr) (q : node_ptr_t) :
    (link_right h rc p q).1.length = h.length := by
  cases p with
  | null => rfl
  | root => rfl
  | val a => rcases hx : h[a]? with _ | nd <;> simp [link_right, hx]

theorem link_length (h : Heap T) (rc : node_t) (p : node_ptr) (q : node_ptr_t) (side : Bool) :
    (link h rc p q side).1.length = h.length := by
  unfold link
  cases side
  · simp [link_left_length]
  · simp [link_right_length]

theorem link_left_snd (h : Heap T) (rc : node_t) (p : node_ptr) (q : node_ptr_t) :
    (link_left h rc p q).2 = link_root rc p q false := by
  cases p with
  | null => rfl
  | root => rfl
  | val a => rcases hx : h[a]? with _ | nd <;> simp [link_left, hx, link_root]

theorem link_right_snd (h : Heap T) (rc : node_t) (p : node_ptr) (q : node_ptr_t) :
    (link_right h rc p q).2 = link_root rc p q true := by
  cases p with
  | null => rfl
  | root => rfl
  | val a => rcases hx : h[a]? with _ | nd <;> simp [link_right, hx, link_root]

theorem link_snd (h : Heap T) (rc : node_t) (p : node_ptr) (q : node_ptr_t) (side : Bool) :
    (link h rc p q side).2 = link_root rc p q side := by
  unfold link
  cases side
  · simp [link_left_snd]
  · simp [link_right_snd]

theorem copy_path_finish_length (h : Heap T) (rc : node_t) (replace le re : node_ptr_t)
    (succ : node_ptr) (side : Bool) :
    (copy_path_finish h rc replace le re succ side).1.length = h.length := by
  simp [copy_path_finish, link_right_length, link_left_length, link_length]

theorem copy_path_finish_snd (h : Heap T) (rc : node_t) (replace le re : node_ptr_t)
    (succ : node_ptr) (side : Bool) :
    (copy_path_finish h rc replace le re succ side).2 = link_root rc succ replace side := by
  simp only [copy_path_finish, link_right_snd, link_left_snd, link_snd]
  cases replace <;> rfl

theorem copy_path_finish_getElem?_ne (h : Heap T) (rc : node_t) (replace le re : node_ptr_t)
    (succ : node_ptr) (side : Bool) (i : Nat) (hi : replace ≠ some i) :
    (copy_path_finish h rc replace le re succ side).1[i]? =
      (link h rc succ replace side).1[i]? := by
  have : sp_get replace ≠ .val i := by
    cases replace with
    | none => simp [sp_get]
    | some m =>
      simp only [sp_get, ne_eq, node_ptr.val.injEq]
      intro hm; exact hi (by rw [hm])
  simp only [copy_path_finish, link_right_getElem?, link_left_getElem?, this, if_false]

theorem copy_path_finish_getElem?_eq (h : Heap T) (rc : node_t) (le re : node_ptr_t)
    (succ : node_ptr) (side : Bool) (m : Nat) (hm : succ ≠ .val m) :
    (copy_path_finish h rc (some m) le re succ side).1[m]? =
      (h[m]?).map (fun nd => ⟨le, re, nd.value⟩) := by
  simp only [copy_path_finish, link_right_getElem?, link_left_getElem?, link_getElem?, sp_get,
    if_true, hm, if_false]
  cases h[m]? <;> simp [set_child]

theorem Stored.on {h : Heap T} {t : Tree T} (hs : Stored h t) (key : T) : StoredOn h key t := by
  induction t with
  | leaf => trivial
  | node l a v r ihl ihr => exact ⟨hs.1, fun _ => ihr hs.2.2, fun _ => ihl hs.2.1⟩

theorem find_loop_stored_on {h : Heap T} (key : T) {t : Tree T} (hs : StoredOn h key t) :
    ∀ fuel, t.height < fuel → find_loop h key fuel (sp_get t.ptr) = some (t.lookup key) := by
  induction t with
  | leaf =>
    intro fuel hf
    cases fuel with
    | zero => omega
    | succ n => rfl
  | node l a v r ihl ihr =>
    intro fuel hf
    obtain ⟨h1, h2, h3⟩ := hs
    cases fuel with
    | zero => omega
    | succ n =>
      simp only [Tree.height] at hf
      simp only [Tree.ptr, sp_get, find_loop, h1, Tree.lookup]
      split
      · next hlt => exact ihr (h2 hlt) n (by omega)
      · split
        · next hgt => exact ihl (h3 hgt) n (by omega)
        · rfl

theorem find_loop_stored {h : Heap T} (key : T) {t : Tree T} (hs : Stored h t) :
    ∀ fuel, t.height < fuel → find_loop h key fuel (sp_get t.ptr) = some (t.lookup key) :=
  find_loop_stored_on key (hs.on key)

theorem link_append_getElem? (hc : Heap T) (cell : val_node_t T) (rc : node_t) (succ : node_ptr)
    (q : node_ptr_t) (side : Bool) (i : Nat) (hi : i < hc.length) :
    (link (hc ++ [cell]) rc succ q side).1[i]? = (link hc rc succ q side).1[i]? := by
  simp only [link_getElem?, List.getElem?_append_left hi]

theorem link_append_getElem?_new (hc : Heap T) (cell : val_node_t T) (rc : node_t)
    (succ : node_ptr) (q : node_ptr_t) (side : Bool) (hs : succ ≠ .val hc.length) :
    (link (hc ++ [cell]) rc succ q side).1[hc.length]? = some cell := by
  simp [link_getElem?, hs]

theorem Tree.ptr_copy_path (t : Tree T) (key : T) (R : Tree T) (n : Nat) :
    (t.copy_path key R n).ptr = t.entry key R.ptr n := by
  cases t with
  | leaf => rfl
  | node l a v r =>
    simp only [Tree.copy_path, Tree.entry]
    split
    · rfl
    · split <;> rfl

theorem succ_ne_of_not_mem {succ : node_ptr} {n : Nat} {l : List Nat}
    (hs : succ = .root ∨ ∃ c, succ = .val c ∧ c < n ∧ c ∉ l) (x : Nat) (hx : x ∈ l) :
    succ ≠ .val x := by
  rcases hs with rfl | ⟨c, rfl, _, hc⟩
  · simp
  · intro h
    cases h
    exact hc hx

theorem succ_ne_of_le {succ : node_ptr} {n : Nat} {l : List Nat}
    (hs : succ = .root ∨ ∃ c, succ = .val c ∧ c < n ∧ c ∉ l) (x : Nat) (hx : n ≤ x) :
    succ ≠ .val x := by
  rcases hs with rfl | ⟨c, rfl, hc, _⟩
  · simp
  · intro h
    cases h
    omega

theorem copy_path_loop_spec (key : T) (replace le re : node_ptr_t) (t : Tree T) :
    ∀ (fuel : Nat) (hc : Heap T) (rc : node_t) (succ : node_ptr) (side : Bool),
      Stored hc t → t.height < fuel →
      (succ = .root ∨ ∃ c, succ = .val c ∧ c < hc.length ∧ c ∉ t.addrs) →
      (∀ m, replace = some m → m < hc.length ∧ succ ≠ .val m) →
      ∃ w, copy_path_loop key replace le re fuel hc rc (sp_get t.ptr) succ side = some w ∧
        hc.length ≤ w.1.length ∧
        w.2 = link_root rc succ (t.entry key replace hc.length) side ∧
        (∀ i, i < hc.length → replace ≠ some i →
          w.1[i]? = (link hc rc succ (t.entry key replace hc.length) side).1[i]?) ∧
        (∀ m, replace = some m → w.1[m]? = (hc[m]?).map (fun nd => ⟨le, re, nd.value⟩)) ∧
        (∀ R : Tree T, R.ptr = replace → StoredOn w.1 key R →
          StoredOn w.1 key (t.copy_path key R hc.length)) ∧
        ((∀ m, replace = some m → m ∉ t.off_path key) →
          ∀ R : Tree T, R.ptr = replace → Stored w.1 R →
            Stored w.1 (t.copy_path key R hc.length)) := by
  induction t with
  | leaf =>
    intro fuel hc rc succ side _ hf _ hrep
    cases fuel with
    | zero => simp [Tree.height] at hf
    | succ n =>
      refine ⟨_, rfl, ?_, ?_, ?_, ?_, ?_, ?_⟩
      · rw [copy_path_finish_length]
      · rw [copy_path_finish_snd]; rfl
      · intro i _ hi
        exact copy_path_finish_getElem?_ne _ _ _ _ _ _ _ _ hi
      · intro m hm
        subst hm
        exact copy_path_finish_getElem?_eq _ _ _ _ _ _ _ (hrep m rfl).2
      · intro R _ hR
        exact hR
      · intro _ R _ hR
        exact hR
  | node l a v r ihl ihr =>
    intro fuel hc rc succ side hst hf hsucc hrep
    obtain ⟨h1, h2, h3⟩ := hst
    cases fuel with
    | zero => simp [Tree.height] at hf
    | succ n =>
      simp only [Tree.height] at hf
      rw [show sp_get (Tree.node l a v r).ptr = .val a from rfl]
      simp only [copy_path_loop, h1]
      by_cases hv : v = key
      · simp only [hv, if_true]
        refine ⟨_, rfl, ?_, ?_, ?_, ?_, ?_, ?_⟩
        · rw [copy_path_finish_length]
        · rw [copy_path_finish_snd]; simp [Tree.entry, hv]
        · intro i _ hi
          simp only [Tree.entry, hv, if_true]
          exact copy_path_finish_getElem?_ne _ _ _ _ _ _ _ _ hi
        · intro m hm
          subst hm
          exact copy_path_finish_getElem?_eq _ _ _ _ _ _ _ (hrep m rfl).2
        · intro R _ hR
          simpa [Tree.copy_path, hv] using hR
        · intro _ R _ hR
          simpa [Tree.copy_path, hv] using hR
      · have haddr : ∀ x ∈ (Tree.node l a v r).addrs, x < hc.length :=
          Stored.addr_lt (t := Tree.node l a v r) ⟨h1, h2, h3⟩
        have hold : ∀ x ∈ (Tree.node l a v r).addrs, ∀ q sd,
            (link (hc ++ [(⟨l.ptr, r.ptr, v⟩ : val_node_t T)]) rc succ q sd).1[x]? = hc[x]? := by
          intro x hx q sd
          rw [link_append_getElem? _ _ _ _ _ _ _ (haddr x hx), link_getElem?,
            if_neg (succ_ne_of_not_mem hsucc x hx)]
        have hnew : ∀ q sd,
            (link (hc ++ [(⟨l.ptr, r.ptr, v⟩ : val_node_t T)]) rc succ q sd).1[hc.length]? =
              some ⟨l.ptr, r.ptr, v⟩ := by
          intro q sd
          exact link_append_getElem?_new _ _ _ _ _ _ (succ_ne_of_le hsucc _ (le_refl _))
        have hlen2 : ∀ q sd,
            (link (hc ++ [(⟨l.ptr, r.ptr, v⟩ : val_node_t T)]) rc succ q sd).1.length =
              hc.length + 1 := by
          intro q sd
          rw [link_length]; simp
        have hrepne : ∀ m, replace = some m → m ≠ hc.length := by
          intro m hm
          have := (hrep m hm).1
          omega
        rcases lt_or_gt_of_ne hv with hlt | hgt
        · simp only [hv, hlt, if_true, if_false, make_shared]
          have hrA : ∀ x ∈ r.addrs, x ∈ (Tree.node l a v r).addrs := by
            intro x hx; simp [Tree.addrs, hx]
          have hlA : ∀ x ∈ l.addrs, x ∈ (Tree.node l a v r).addrs := by
            intro x hx; simp [Tree.addrs, hx]
          obtain ⟨w, hw, hwlen, hwroot, hwframe, hwrep, hwon, hwst⟩ :=
            ihr n (link (hc ++ [⟨l.ptr, r.ptr, v⟩]) rc succ (some hc.length) side).1
              (link (hc ++ [⟨l.ptr, r.ptr, v⟩]) rc succ (some hc.length) side).2
              (.val hc.length) true
              (h3.congr (fun x hx => hold x (hrA x hx) _ _))
              (by omega)
              (Or.inr ⟨hc.length, rfl, by rw [hlen2]; omega,
                fun hx => absurd (haddr _ (hrA _ hx)) (lt_irrefl _)⟩)
              (by
                intro m hm
                obtain ⟨hm1, hm2⟩ := hrep m hm
                refine ⟨by rw [hlen2]; omega, ?_⟩
                intro h; cases h; omega)
          rw [hlen2] at hwlen hwframe hwst hwon
          refine ⟨w, hw, by omega, ?_, ?_, ?_, ?_, ?_⟩
          · rw [hwroot, link_snd]
            simp [link_root, Tree.entry, hv]
          · intro i hi hne
            rw [hwframe i (by omega) hne, link_getElem?, if_neg (by intro h; cases h; omega),
              link_append_getElem? _ _ _ _ _ _ _ hi]
            simp [Tree.entry, hv]
          · intro m hm
            obtain ⟨hm1, hm2⟩ := hrep m hm
            rw [hwrep m hm, link_append_getElem? _ _ _ _ _ _ _ hm1, link_getElem?, if_neg hm2]
          · intro R hR hSR
            simp only [Tree.copy_path, hv, hlt, if_true, if_false]
            refine ⟨?_, fun _ => hwon R hR hSR, fun hk => absurd hk (not_lt.mpr (le_of_lt hlt))⟩
            rw [hwframe hc.length (by omega) (fun hm => hrepne _ hm rfl), link_getElem?,
              if_pos rfl, hnew]
            rw [Tree.ptr_copy_path, hR]
            simp [set_child]
          · intro hoff R hR hSR
            simp only [Tree.copy_path, hv, hlt, if_true, if_false]
            refine ⟨?_, ?_, hwst ?_ R hR hSR⟩
            · rw [hwframe hc.length (by omega) (fun hm => hrepne _ hm rfl), link_getElem?,
                if_pos rfl, hnew]
              rw [Tree.ptr_copy_path, hR]
              simp [set_child]
            · refine h2.congr (fun x hx => ?_)
              have hxlt := haddr x (hlA x hx)
              rw [hwframe x (by omega) ?_, link_getElem?, if_neg (by intro h; cases h; omega),
                hold x (hlA x hx)]
              intro hm
              apply hoff x hm
              simp [Tree.off_path, hv, hlt, hx]
            · intro m hm hx
              apply hoff m hm
              simp [Tree.off_path, hv, hlt, hx]
        · have hnlt : ¬ v < key := not_lt.mpr (le_of_lt hgt)
          simp only [hv, hnlt, hgt, if_true, if_false, make_shared]
          have hrA : ∀ x ∈ r.addrs, x ∈ (Tree.node l a v r).addrs := by
            intro x hx; simp [Tree.addrs, hx]
          have hlA : ∀ x ∈ l.addrs, x ∈ (Tree.node l a v r).addrs := by
            intro x hx; simp [Tree.addrs, hx]
          obtain ⟨w, hw, hwlen, hwroot, hwframe, hwrep, hwon, hwst⟩ :=
            ihl n (link (hc ++ [⟨l.ptr, r.ptr, v⟩]) rc succ (some hc.length) side).1
              (link (hc ++ [⟨l.ptr, r.ptr, v⟩]) rc succ (some hc.length) side).2
              (.val hc.length) false
              (h2.congr (fun x hx => hold x (hlA x hx) _ _))
              (by omega)
              (Or.inr ⟨hc.length, rfl, by rw [hlen2]; omega,
                fun hx => absurd (haddr _ (hlA _ hx)) (lt_irrefl _)⟩)
              (by
                intro m hm
                obtain ⟨hm1, hm2⟩ := hrep m hm
                refine ⟨by rw [hlen2]; omega, ?_⟩
                intro h; cases h; omega)
          rw [hlen2] at hwlen hwframe hwst hwon
          refine ⟨w, hw, by omega, ?_, ?_, ?_, ?_, ?_⟩
          · rw [hwroot, link_snd]
            simp [link_root, Tree.entry, hv]
          · intro i hi hne
            rw [hwframe i (by omega) hne, link_getElem?, if_neg (by intro h; cases h; omega),
              link_append_getElem? _ _ _ _ _ _ _ hi]
            simp [Tree.entry, hv]
          · intro m hm
            obtain ⟨hm1, hm2⟩ := hrep m hm
            rw [hwrep m hm, link_append_getElem? _ _ _ _ _ _ _ hm1, link_getElem?, if_neg hm2]
          · intro R hR hSR
            simp only [Tree.copy_path, hv, hnlt, if_true, if_false]
            refine ⟨?_, fun hk => absurd hk hnlt, fun _ => hwon R hR hSR⟩
            rw [hwframe hc.length (by omega) (fun hm => hrepne _ hm rfl), link_getElem?,
              if_pos rfl, hnew]
            rw [Tree.ptr_copy_path, hR]
            simp [set_child]
          · intro hoff R hR hSR
            simp only [Tree.copy_path, hv, hnlt, if_true, if_false]
            refine ⟨?_, hwst ?_ R hR hSR, ?_⟩
            · rw [hwframe hc.length (by omega) (fun hm => hrepne _ hm rfl), link_getElem?,
                if_pos rfl, hnew]
              rw [Tree.ptr_copy_path, hR]
              simp [set_child]
            · intro m hm hx
              apply hoff m hm
              simp [Tree.off_path, hv, hnlt, hx]
            · refine h3.congr (fun x hx => ?_)
              have hxlt := haddr x (hrA x hx)
              rw [hwframe x (by omega) ?_, link_getElem?, if_neg (by intro h; cases h; omega),
                hold x (hrA x hx)]
              intro hm
              apply hoff x hm
              simp [Tree.off_path, hv, hnlt, hx]

theorem Tree.lookup_eq_root_iff {t : Tree T} (hb : t.BST) (key : T) :
    t.lookup key = .root ↔ key ∉ t.keys := by
  induction t with
  | leaf => simp [Tree.lookup, Tree.keys]
  | node l a v r ihl ihr =>
    obtain ⟨hl, hr, hlv, hrv⟩ := hb
    simp only [Tree.lookup, Tree.keys, List.mem_append, List.mem_cons, not_or]
    split
    · next hlt =>
      rw [ihr hr]
      constructor
      · intro h
        exact ⟨fun hx => absurd (lt_trans (hlv _ hx) hlt) (lt_irrefl _), ne_of_gt hlt, h⟩
      · intro h; exact h.2.2
    · split
      · next hnlt hgt =>
        rw [ihl hl]
        constructor
        · intro h
          exact ⟨h, ne_of_lt hgt, fun hx => absurd (lt_trans hgt (hrv _ hx)) (lt_irrefl _)⟩
        · intro h; exact h.1
      · next hnlt hngt =>
        have : key = v := le_antisymm (not_lt.mp hnlt) (not_lt.mp hngt)
        simp [this]

theorem Tree.lookup_val_mem {t : Tree T} {key : T} {a : Nat} (h : t.lookup key = .val a) :
    (a, key) ∈ t.nodes := by
  induction t with
  | leaf => simp [Tree.lookup] at h
  | node l b v r ihl ihr =>
    simp only [Tree.lookup] at h
    simp only [Tree.nodes, List.mem_append, List.mem_cons]
    split at h
    · exact Or.inr (Or.inr (ihr h))
    · split at h
      · exact Or.inl (ihl h)
      · next hnlt hngt =>
        have : key = v := le_antisymm (not_lt.mp hnlt) (not_lt.mp hngt)
        cases h
        exact Or.inr (Or.inl (by rw [this]))

theorem Stored.cell_of_mem_nodes {h : Heap T} {t : Tree T} (hs : Stored h t) {a : Nat} {k : T}
    (hm : (a, k) ∈ t.nodes) : ∃ p q, h[a]? = some ⟨p, q, k⟩ := by
  induction t with
  | leaf => simp [Tree.nodes] at hm
  | node l b v r ihl ihr =>
    obtain ⟨h1, h2, h3⟩ := hs
    simp only [Tree.nodes, List.mem_append, List.mem_cons, Prod.mk.injEq] at hm
    rcases hm with hm | ⟨rfl, rfl⟩ | hm
    · exact ihl h2 hm
    · exact ⟨_, _, h1⟩
    · exact ihr h3 hm

theorem Stored.get_value_of_mem_nodes {h : Heap T} {t : Tree T} (hs : Stored h t) {a : Nat}
    {k : T} (hm : (a, k) ∈ t.nodes) : get_value h (.val a) = some k := by
  obtain ⟨p, q, hc⟩ := hs.cell_of_mem_nodes hm
  simp [get_value, hc]

theorem Tree.lookup_copy_path (t : Tree T) (key : T) (R : Tree T) (n : Nat) :
    (t.copy_path key R n).lookup key = R.lookup key := by
  induction t generalizing n with
  | leaf => rfl
  | node l a v r ihl ihr =>
    simp only [Tree.copy_path]
    split
    · rfl
    · next hv =>
      split
      · next hlt => simp only [Tree.lookup, hlt, if_true]; exact ihr _
      · next hnlt =>
        have hgt : key < v := lt_of_le_of_ne (not_lt.mp hnlt) (Ne.symm hv)
        simp only [Tree.lookup, hnlt, hgt, if_true, if_false]; exact ihl _

theorem Tree.mem_keys_copy_path {t : Tree T} {key : T} (hk : key ∉ t.keys) (R : Tree T) (n : Nat)
    (x : T) : x ∈ (t.copy_path key R n).keys ↔ x ∈ R.keys ∨ x ∈ t.keys := by
  induction t generalizing n with
  | leaf => simp [Tree.copy_path, Tree.keys]
  | node l a v r ihl ihr =>
    simp only [Tree.keys, List.mem_append, List.mem_cons, not_or] at hk
    have hv : ¬ v = key := fun h => hk.2.1 h.symm
    simp only [Tree.copy_path, hv, if_false]
    split
    · simp only [Tree.keys, List.mem_append, List.mem_cons, ihr hk.2.2]
      tauto
    · simp only [Tree.keys, List.mem_append, List.mem_cons, ihl hk.1]
      tauto

theorem Tree.length_keys_copy_path {t : Tree T} {key : T} (hk : key ∉ t.keys) (R : Tree T)
    (n : Nat) : (t.copy_path key R n).keys.length = R.keys.length + t.keys.length := by
  induction t generalizing n with
  | leaf => simp [Tree.copy_path, Tree.keys]
  | node l a v r ihl ihr =>
    simp only [Tree.keys, List.mem_append, List.mem_cons, not_or] at hk
    have hv : ¬ v = key := fun h => hk.2.1 h.symm
    simp only [Tree.copy_path, hv, if_false]
    split
    · simp only [Tree.keys, List.length_append, List.length_cons, ihr hk.2.2]
      omega
    · simp only [Tree.keys, List.length_append, List.length_cons, ihl hk.1]
      omega

theorem Tree.height_copy_path_le (t : Tree T) (key : T) (R : Tree T) (n : Nat) :
    (t.copy_path key R n).height ≤ t.height + R.height := by
  induction t generalizing n with
  | leaf => simp [Tree.copy_path, Tree.height]
  | node l a v r ihl ihr =>
    simp only [Tree.copy_path]
    split
    · omega
    · split
      · have := ihr (n + 1)
        simp only [Tree.height]
        omega
      · have := ihl (n + 1)
        simp only [Tree.height]
        omega

theorem Tree.BST_copy_path_insert {t : Tree T} (hb : t.BST) {key : T} (hk : key ∉ t.keys)
    (m n : Nat) : (t.copy_path key (.node .leaf m key .leaf) n).BST := by
  induction t generalizing n with
  | leaf => simp [Tree.copy_path, Tree.BST, Tree.keys]
  | node l a v r ihl ihr =>
    obtain ⟨hl, hr, hlv, hrv⟩ := hb
    simp only [Tree.keys, List.mem_append, List.mem_cons, not_or] at hk
    have hv : ¬ v = key := fun h => hk.2.1 h.symm
    simp only [Tree.copy_path, hv, if_false]
    split
    · next hlt =>
      refine ⟨hl, ihr hr hk.2.2 _, hlv, ?_⟩
      intro x hx
      rw [Tree.mem_keys_copy_path hk.2.2] at hx
      rcases hx with hx | hx
      · simp only [Tree.keys, List.nil_append, List.mem_singleton] at hx
        rw [hx]; exact hlt
      · exact hrv x hx
    · next hnlt =>
      have hgt : key < v := lt_of_le_of_ne (not_lt.mp hnlt) (Ne.symm hv)
      refine ⟨ihl hl hk.1 _, hr, ?_, hrv⟩
      intro x hx
      rw [Tree.mem_keys_copy_path hk.1] at hx
      rcases hx with hx | hx
      · simp only [Tree.keys, List.nil_append, List.mem_singleton] at hx
        rw [hx]; exact hgt
      · exact hlv x hx

theorem Tree.BST.sorted_keys {t : Tree T} (hb : t.BST) : t.keys.Sorted (· < ·) := by
  induction t with
  | leaf => simp [Tree.keys]
  | node l a v r ihl ihr =>
    obtain ⟨hl, hr, hlv, hrv⟩ := hb
    simp only [Tree.keys, List.Sorted, List.pairwise_append, List.pairwise_cons]
    refine ⟨ihl hl, ⟨hrv, ihr hr⟩, ?_⟩
    intro x hx y hy
    simp only [List.mem_cons] at hy
    rcases hy with rfl | hy
    · exact hlv x hx
    · exact lt_trans (hlv x hx) (hrv y hy)

theorem Tree.off_path_subset_addrs (t : Tree T) (key : T) :
    ∀ x, x ∈ t.off_path key → x ∈ t.addrs := by
  induction t with
  | leaf => simp [Tree.off_path]
  | node l a v r ihl ihr =>
    intro x hx
    simp only [Tree.off_path] at hx
    simp only [Tree.addrs, List.mem_cons, List.mem_append]
    split at hx
    · simp at hx
    · split at hx
      · rcases List.mem_append.mp hx with h | h
        · exact Or.inr (Or.inl h)
        · exact Or.inr (Or.inr (ihr x h))
      · rcases List.mem_append.mp hx with h | h
        · exact Or.inr (Or.inr h)
        · exact Or.inr (Or.inl (ihl x h))

theorem Holds.of_root_eq {h : Heap T} {s b : persistent_set} {t : Tree T} (hh : Holds h s t)
    (hb : b.root = s.root) : Holds h b t :=
  ⟨hh.stored, by rw [hb]; exact hh.left, hh.bst⟩

theorem Holds.frame {h h1 : Heap T} {s : persistent_set} {t : Tree T} (hh : Holds h s t)
    (hf : ∀ i, i < h.length → h1[i]? = h[i]?) : Holds h1 s t :=
  ⟨hh.stored.congr (fun a ha => hf a (hh.stored.addr_lt a ha)), hh.left, hh.bst⟩

theorem persistent_set.find_spec {h : Heap T} {s : persistent_set} {t : Tree T}
    (hh : Holds h s t) (key : T) (fuel : Nat) (hf : t.height < fuel) :
    s.find fuel h key = some (make_iterator (t.lookup key)) := by
  simp only [persistent_set.find, hh.left, find_loop_stored key hh.stored fuel hf, Option.map_some']

theorem persistent_set.copy_path_spec {h : Heap T} {s : persistent_set} {t : Tree T}
    (hst : Stored h t) (hl : s.root.left = t.ptr) (key : T) (replace le re : node_ptr_t)
    (fuel : Nat) (hf : t.height < fuel) (hrep : ∀ m, replace = some m → m < h.length) :
    ∃ w, s.copy_path fuel h key replace le re = some w ∧
      h.length ≤ w.1.length ∧
      w.2.root = { s.root with left := t.entry key replace h.length } ∧
      w.2.size_ = s.size_ ∧
      (∀ i, i < h.length → replace ≠ some i → w.1[i]? = h[i]?) ∧
      (∀ m, replace = some m → w.1[m]? = (h[m]?).map (fun nd => ⟨le, re, nd.value⟩)) ∧
      (∀ R : Tree T, R.ptr = replace → StoredOn w.1 key R →
        StoredOn w.1 key (t.copy_path key R h.length)) ∧
      ((∀ m, replace = some m → m ∉ t.off_path key) →
        ∀ R : Tree T, R.ptr = replace → Stored w.1 R →
          Stored w.1 (t.copy_path key R h.length)) := by
  obtain ⟨w, hw, h1, h2, h3, h4, h5, h6⟩ :=
    copy_path_loop_spec key replace le re t fuel h s.root .root false hst hf (Or.inl rfl)
      (fun m hm => ⟨hrep m hm, by simp⟩)
  refine ⟨(w.1, { s with root := w.2 }), ?_, h1, ?_, rfl, ?_, h4, h5, h6⟩
  · simp only [persistent_set.copy_path, hl, hw, Option.map_some']
  · simp only [h2, link_root]; rfl
  · intro i hi hne
    rw [h3 i hi hne, link_getElem?]
    simp

theorem persistent_set.insert_dup {h : Heap T} {s : persistent_set} {t : Tree T}
    (hh : Holds h s t) {key : T} (hk : key ∈ t.keys) (fuel : Nat) (hf : t.height < fuel) :
    s.insert fuel h key = some (h, s, s.end_, false) := by
  have hne : t.lookup key ≠ .root := by
    rw [Ne, Tree.lookup_eq_root_iff hh.bst]; exact not_not.mpr hk
  simp only [persistent_set.insert, persistent_set.find_spec hh key fuel hf]
  have : (make_iterator (t.lookup key)).eq s.end_ = false := by
    simp only [iterator.eq, persistent_set.end_, make_iterator, decide_eq_false_iff_not]
    exact hne
  rw [if_pos this]

theorem persistent_set.insert_new {h : Heap T} {s : persistent_set} {t : Tree T}
    (hh : Holds h s t) {key : T} (hk : key ∉ t.keys) (fuel : Nat) (hf : t.height < fuel) :
    ∃ h1 s1, s.insert fuel h key = some (h1, s1, make_iterator (.val h.length), true) ∧
      Holds h1 s1 (t.copy_path key (.node .leaf h.length key .leaf) (h.length + 1)) ∧
      s1.root.right = s.root.right ∧
      s1.size_ = size_inc s.size_ ∧
      h.length < h1.length ∧
      (∀ i, i < h.length → h1[i]? = h[i]?) := by
  have heq : t.lookup key = .root := (Tree.lookup_eq_root_iff hh.bst key).mpr hk
  have hst1 : Stored (h ++ [(⟨none, none, key⟩ : val_node_t T)]) t :=
    hh.stored.congr (fun a ha => List.getElem?_append_left (hh.stored.addr_lt a ha))
  obtain ⟨w, hw, h1, h2, h3, h4, h5, _, h7⟩ :=
    persistent_set.copy_path_spec (s := s) hst1 hh.left key (some h.length) none none fuel hf
      (by intro m hm; cases hm; simp)
  simp only [List.length_append, List.length_singleton] at h1 h2 h4 h7
  have hcell : w.1[h.length]? = some ⟨none, none, key⟩ := by
    rw [h5 _ rfl]; simp
  have hoff : ∀ m, some h.length = some m → m ∉ t.off_path key := by
    intro m hm hx
    cases hm
    exact absurd (hh.stored.addr_lt _ (Tree.off_path_subset_addrs t key _ hx)) (lt_irrefl _)
  refine ⟨w.1, { w.2 with size_ := size_inc w.2.size_ }, ?_, ⟨?_, ?_, ?_⟩, ?_, ?_, by omega, ?_⟩
  · simp only [persistent_set.insert, persistent_set.find_spec hh key fuel hf, heq]
    have : (make_iterator node_ptr.root).eq s.end_ = true := by
      simp [iterator.eq, persistent_set.end_]
    simp only [this, Bool.true_eq_false, if_false, make_shared, hw]
  · exact h7 hoff (.node .leaf h.length key .leaf) rfl ⟨hcell, trivial, trivial⟩
  · show w.2.root.left = _
    rw [h2, Tree.ptr_copy_path]; rfl
  · exact Tree.BST_copy_path_insert hh.bst hk _ _
  · show w.2.root.right = _
    rw [h2]
  · show size_inc w.2.size_ = _
    rw [h3]
  · intro i hi
    rw [h4 i (by omega) (by intro hc; cases hc; omega)]
    exact List.getElem?_append_left hi


theorem size_inc_mod (n : Nat) : size_inc (n % SIZE_MOD) = (n + 1) % SIZE_MOD := by
  simp [size_inc, Nat.add_mod]

theorem insert_all_spec (fuel : Nat) (ks : List T) :
    ∀ (h : Heap T) (s : persistent_set) (t : Tree T) (done : List T),
      Holds h s t → s.root.right = none → (∀ x, x ∈ t.keys ↔ x ∈ done) →
      s.size_ = t.keys.length % SIZE_MOD → t.keys.length ≤ done.length →
      (done.Nodup → t.keys.length = done.length) →
      done.length + ks.length < fuel →
      ∃ h1 s1 t1, insert_all fuel (h, s) ks = some (h1, s1) ∧ Holds h1 s1 t1 ∧
        s1.root.right = none ∧
        (∀ x, x ∈ t1.keys ↔ x ∈ done ++ ks) ∧
        s1.size_ = t1.keys.length % SIZE_MOD ∧
        t1.keys.length ≤ (done ++ ks).length ∧
        ((done ++ ks).Nodup → t1.keys.length = (done ++ ks).length) := by
  induction ks with
  | nil =>
    intro h s t done hh hr hm hs hl hn _
    exact ⟨h, s, t, rfl, hh, hr, by simpa using hm, hs, by simpa using hl, by simpa using hn⟩
  | cons k ks ih =>
    intro h s t done hh hr hm hs hl hn hf
    simp only [List.length_cons] at hf
    have hht : t.height < fuel := by
      have := t.height_le_length_keys
      omega
    by_cases hk : k ∈ t.keys
    · have hstep := persistent_set.insert_dup hh hk fuel hht
      obtain ⟨h1, s1, t1, he, hh1, hr1, hm1, hs1, hl1, hn1⟩ :=
        ih h s t (done ++ [k]) hh hr
          (by intro x; simp only [List.mem_append, List.mem_singleton, hm]
              constructor
              · intro hx; exact Or.inl hx
              · rintro (hx | rfl)
                · exact hx
                · exact (hm _).mp hk)
          hs (by simp only [List.length_append, List.length_singleton]; omega)
          (by intro hnd
              have : k ∉ done := by
                have := List.nodup_append.mp hnd
                intro hkd
                exact this.2.2 hkd (List.mem_singleton.mpr rfl)
              exact absurd ((hm _).mp hk) this)
          (by simp only [List.length_append, List.length_singleton]; omega)
      refine ⟨h1, s1, t1, ?_, hh1, hr1, ?_, hs1, ?_, ?_⟩
      · simp only [insert_all, hstep]; exact he
      · simpa using hm1
      · simpa using hl1
      · simpa using hn1
    · obtain ⟨h2, s2, hstep, hh2, hr2, hs2, _, _⟩ := persistent_set.insert_new hh hk fuel hht
      have hlen2 := Tree.length_keys_copy_path hk (.node .leaf h.length k .leaf) (h.length + 1)
      simp only [Tree.keys, List.nil_append, List.length_singleton] at hlen2
      obtain ⟨h1, s1, t1, he, hh1, hr1, hm1, hs1, hl1, hn1⟩ :=
        ih h2 s2 _ (done ++ [k]) hh2 (by rw [hr2, hr])
          (by intro x
              rw [Tree.mem_keys_copy_path hk]
              simp only [Tree.keys, List.nil_append, List.mem_singleton, List.mem_append, hm]
              tauto)
          (by rw [hs2, hs, size_inc_mod, hlen2, Nat.add_comm])
          (by simp only [List.length_append, List.length_singleton]; omega)
          (by intro hnd
              have := hn (List.nodup_append.mp hnd).1
              simp only [List.length_append, List.length_singleton]; omega)
          (by simp only [List.length_append, List.length_singleton]; omega)
      refine ⟨h1, s1, t1, ?_, hh1, hr1, ?_, hs1, ?_, ?_⟩
      · simp only [insert_all, hstep]; exact he
      · simpa using hm1
      · simpa using hl1
      · simpa using hn1

theorem build_spec (fuel : Nat) (ks : List T) (hf : ks.length < fuel) :
    ∃ h s t, build fuel ks = some (h, s) ∧ Holds h s t ∧ s.root.right = none ∧
      (∀ x, x ∈ t.keys ↔ x ∈ ks) ∧
      s.size_ = t.keys.length % SIZE_MOD ∧
      t.keys.length ≤ ks.length ∧
      (ks.Nodup → t.keys.length = ks.length) := by
  have := insert_all_spec fuel ks ([] : Heap T) {} Tree.leaf [] ⟨trivial, rfl, trivial⟩ rfl
    (by simp [Tree.keys]) (by simp [Tree.keys, SIZE_MOD]) (by simp [Tree.keys])
    (by simp [Tree.keys]) (by simpa using hf)
  simpa [build] using this

theorem Tree.min_ptr_eq (t : Tree T) (d : node_ptr) :
    t.min_ptr d = match t.nodes with
      | [] => d
      | p :: _ => .val p.1 := by
  induction t generalizing d with
  | leaf => rfl
  | node l a v r ihl ihr =>
    simp only [Tree.min_ptr, Tree.nodes]
    rw [ihl (.val a)]
    cases l.nodes <;> rfl

theorem Tree.min_ptr_root (t : Tree T) : t.min_ptr .root = first_ptr t.nodes := by
  rw [Tree.min_ptr_eq]
  cases t.nodes <;> rfl

theorem min_in_subtree_stored {h : Heap T} (root : node_t) (l : Tree T) :
    ∀ (p : node_ptr) (fuel : Nat), Stored h l → left_ptr h root p = some (sp_get l.ptr) →
      p ≠ .null → l.height < fuel → min_in_subtree h root fuel p = some (l.min_ptr p) := by
  induction l with
  | leaf =>
    intro p fuel _ hp hn hf
    cases fuel with
    | zero => omega
    | succ n => simp [min_in_subtree, hn, hp, sp_get, Tree.ptr, Tree.min_ptr]
  | node ll a v lr ihl _ =>
    intro p fuel hst hp hn hf
    obtain ⟨h1, h2, _⟩ := hst
    cases fuel with
    | zero => omega
    | succ n =>
      simp only [Tree.height] at hf
      have hrec := ihl (.val a) n h2 (by simp [left_ptr, deref, h1, val_node_t.base]) (by simp)
        (by omega)
      simp [min_in_subtree, hn, hp, sp_get, Tree.ptr, Tree.min_ptr, hrec]

theorem persistent_set.begin_spec {h : Heap T} {s : persistent_set} {t : Tree T}
    (hh : Holds h s t) (fuel : Nat) (hf : t.height < fuel) :
    s.begin_ fuel h = some (make_iterator (first_ptr t.nodes)) := by
  have := min_in_subtree_stored s.root t .root fuel hh.stored
    (by simp [left_ptr, deref, hh.left]) (by simp) hf
  simp [persistent_set.begin_, this, Tree.min_ptr_root]

theorem Tree.succ_eq {t : Tree T} (hb : t.BST) (key : T) (s : node_ptr) :
    t.succ key s = match t.nodes.find? (fun p => decide (key < p.2)) with
      | some p => .val p.1
      | none => s := by
  induction t generalizing s with
  | leaf => simp [Tree.succ, Tree.nodes]
  | node l a v r ihl ihr =>
    obtain ⟨hl, hr, hlv, hrv⟩ := hb
    simp only [Tree.succ, Tree.nodes, List.find?_append, List.find?_cons]
    split
    · next hlt =>
      rw [ihl hl]
      cases l.nodes.find? (fun p => decide (key < p.2)) <;> simp [hlt]
    · next hnlt =>
      have hnone : l.nodes.find? (fun p => decide (key < p.2)) = none := by
        rw [List.find?_eq_none]
        intro p hp
        have hpk : p.2 ∈ l.keys := by
          rw [Tree.keys_eq_map_nodes]; exact List.mem_map_of_mem _ hp
        simp only [decide_eq_true_eq]
        intro hk
        exact hnlt (lt_trans hk (hlv _ hpk))
      rw [ihr hr, hnone]
      simp [hnlt]

theorem find?_succ_sorted (pre post : List (Nat × T)) (a : Nat) (k : T)
    (hs : ((pre ++ (a, k) :: post).map Prod.snd).Sorted (· < ·)) :
    (pre ++ (a, k) :: post).find? (fun p => decide (k < p.2)) = post.head? := by
  simp only [List.map_append, List.map_cons, List.Sorted, List.pairwise_append,
    List.pairwise_cons, List.mem_map, List.mem_cons, forall_exists_index, and_imp] at hs
  obtain ⟨_, ⟨hpost, _⟩, hpre⟩ := hs
  have hnone : pre.find? (fun p => decide (k < p.2)) = none := by
    rw [List.find?_eq_none]
    intro p hp
    simp only [decide_eq_true_eq]
    intro hk
    exact lt_irrefl _ (lt_trans hk (hpre p.2 p hp rfl k (Or.inl rfl)))
  rw [List.find?_append, hnone]
  simp only [Option.none_or, List.find?_cons, lt_self_iff_false, decide_False]
  cases post with
  | nil => rfl
  | cons q qs =>
    have : k < q.2 := hpost q.2 q (List.mem_cons_self _ _) rfl
    simp [this]

theorem iterator.incr_spec {h : Heap T} {s : persistent_set} {t : Tree T} (hh : Holds h s t)
    (fuel : Nat) (hf : t.height < fuel) (pre post : List (Nat × T)) (a : Nat) (k : T)
    (hn : t.nodes = pre ++ (a, k) :: post) :
    (make_iterator (.val a)).incr fuel h s = some (make_iterator (first_ptr post)) := by
  have hv : get_value h (.val a) = some k :=
    hh.stored.get_value_of_mem_nodes (by rw [hn]; simp)
  have hsorted : ((pre ++ (a, k) :: post).map Prod.snd).Sorted (· < ·) := by
    rw [← hn, ← Tree.keys_eq_map_nodes]; exact hh.bst.sorted_keys
  have hsucc : t.succ k .root = first_ptr post := by
    rw [Tree.succ_eq hh.bst, hn, find?_succ_sorted pre post a k hsorted]
    cases post <;> rfl
  simp [iterator.incr, make_iterator, next, hv, left_ptr, deref, hh.left,
    next_loop_stored k hh.stored fuel .root hf, hsucc]

theorem traverse_loop_spec {h : Heap T} {s : persistent_set} {t : Tree T} (hh : Holds h s t)
    (fuel : Nat) (hf : t.height < fuel) :
    ∀ (post pre : List (Nat × T)) (n : Nat), t.nodes = pre ++ post → post.length < n →
      traverse_loop fuel h s n (make_iterator (first_ptr post)) = some (post.map Prod.snd) := by
  intro post
  induction post with
  | nil =>
    intro pre n _ hlen
    cases n with
    | zero => simp at hlen
    | succ n => simp [traverse_loop, first_ptr, iterator.eq, persistent_set.end_]
  | cons p post ih =>
    intro pre n hn hlen
    obtain ⟨a, k⟩ := p
    cases n with
    | zero => simp at hlen
    | succ n =>
      have hv : get_value h (.val a) = some k :=
        hh.stored.get_value_of_mem_nodes (by rw [hn]; simp)
      have hrec := ih (pre ++ [(a, k)]) n (by rw [hn]; simp)
        (by simp only [List.length_cons] at hlen; omega)
      have hinc := iterator.incr_spec hh fuel hf pre post a k hn
      show traverse_loop fuel h s (n + 1) (make_iterator (.val a)) = _
      have hne : (make_iterator (node_ptr.val a)).eq s.end_ = false := by
        simp [iterator.eq, persistent_set.end_, make_iterator]
      have hstar : (make_iterator (node_ptr.val a)).star h = some k := hv
      simp only [traverse_loop, hne, hstar, hinc, hrec]
      simp

theorem persistent_set.traverse_spec {h : Heap T} {s : persistent_set} {t : Tree T}
    (hh : Holds h s t) (fuel : Nat) (hf : t.keys.length < fuel) :
    s.traverse fuel h = some t.keys := by
  have hht : t.height < fuel := lt_of_le_of_lt t.height_le_length_keys hf
  have hlen : t.nodes.length < fuel := by
    have : t.nodes.length = t.keys.length := by rw [Tree.keys_eq_map_nodes]; simp
    omega
  simp only [persistent_set.traverse, persistent_set.begin_spec hh fuel hht,
    traverse_loop_spec hh fuel hht t.nodes [] fuel rfl hlen, Tree.keys_eq_map_nodes]

theorem iterator_eq_end_iff (s : persistent_set) (p : node_ptr) :
    (make_iterator p).eq s.end_ = true ↔ p = .root := by
  simp [iterator.eq, persistent_set.end_, make_iterator]

theorem iterator_eq_end_false_iff (s : persistent_set) (p : node_ptr) :
    (make_iterator p).eq s.end_ = false ↔ p ≠ .root := by
  simp [iterator.eq, persistent_set.end_, make_iterator]

theorem Holds.find_star {h : Heap T} {s : persistent_set} {t : Tree T} (hh : Holds h s t)
    {q : T} (hq : q ∈ t.keys) : (make_iterator (t.lookup q)).star h = some q := by
  have hne : t.lookup q ≠ .root := by
    rw [Ne, Tree.lookup_eq_root_iff hh.bst]; exact not_not.mpr hq
  cases hl : t.lookup q with
  | null =>
    exfalso
    have : ∀ (t : Tree T), t.lookup q ≠ .null := by
      intro t
      induction t with
      | leaf => simp [Tree.lookup]
      | node l a v r ihl ihr =>
        simp only [Tree.lookup]
        split
        · exact ihr
        · split
          · exact ihl
          · simp
    exact this t hl
  | root => exact absurd hl hne
  | val a => exact hh.stored.get_value_of_mem_nodes (Tree.lookup_val_mem hl)

theorem copy_root_eq {a b : persistent_set}
    (hb : b = a.copy_construct ∨ ∃ b0 : persistent_set, b = b0.copy_assign a) :
    b.root = a.root := by
  rcases hb with rfl | ⟨b0, rfl⟩ <;> rfl

theorem Tree.lookup_eq_subtree_at (t : Tree T) (key : T) :
    t.lookup key = match (t.subtree_at key).ptr with
      | none => .root
      | some a => .val a := by
  induction t with
  | leaf => rfl
  | node l a v r ihl ihr =>
    simp only [Tree.lookup, Tree.subtree_at]
    by_cases hv : v = key
    · subst hv
      simp [Tree.ptr]
    · rcases lt_or_gt_of_ne hv with hlt | hgt
      · simp only [hv, hlt, if_true, if_false]; exact ihr
      · have hnlt : ¬ v < key := not_lt.mpr (le_of_lt hgt)
        simp only [hv, hnlt, hgt, if_true, if_false]; exact ihl

theorem Tree.subtree_at_value {t : Tree T} {key : T} {l r : Tree T} {a : Nat} {v : T}
    (h : t.subtree_at key = .node l a v r) : v = key := by
  induction t with
  | leaf => simp [Tree.subtree_at] at h
  | node l' a' v' r' ihl ihr =>
    simp only [Tree.subtree_at] at h
    split at h
    · next hv => cases h; exact hv
    · split at h
      · exact ihr h
      · exact ihl h

theorem Stored.stored_subtree_at {h : Heap T} {t : Tree T} (hs : Stored h t) (key : T) :
    Stored h (t.subtree_at key) := by
  induction t with
  | leaf => trivial
  | node l a v r ihl ihr =>
    simp only [Tree.subtree_at]
    split
    · exact hs
    · split
      · exact ihr hs.2.2
      · exact ihl hs.2.1

theorem Tree.BST.bst_subtree_at {t : Tree T} (hb : t.BST) (key : T) : (t.subtree_at key).BST := by
  induction t with
  | leaf => trivial
  | node l a v r ihl ihr =>
    simp only [Tree.subtree_at]
    split
    · exact hb
    · split
      · exact ihr hb.2.1
      · exact ihl hb.1

theorem Tree.keys_subtree_at_subset (t : Tree T) (key : T) :
    ∀ x, x ∈ (t.subtree_at key).keys → x ∈ t.keys := by
  induction t with
  | leaf => simp [Tree.subtree_at, Tree.keys]
  | node l a v r ihl ihr =>
    intro x hx
    simp only [Tree.subtree_at] at hx
    simp only [Tree.keys, List.mem_append, List.mem_cons]
    split at hx
    · simpa [Tree.keys] using hx
    · split at hx
      · exact Or.inr (Or.inr (ihr x hx))
      · exact Or.inl (ihl x hx)

theorem Tree.addrs_subtree_at_subset (t : Tree T) (key : T) :
    ∀ x, x ∈ (t.subtree_at key).addrs → x ∈ t.addrs := by
  induction t with
  | leaf => simp [Tree.subtree_at, Tree.addrs]
  | node l a v r ihl ihr =>
    intro x hx
    simp only [Tree.subtree_at] at hx
    simp only [Tree.addrs, List.mem_append, List.mem_cons]
    split at hx
    · simpa [Tree.addrs] using hx
    · split at hx
      · exact Or.inr (Or.inr (ihr x hx))
      · exact Or.inr (Or.inl (ihl x hx))

theorem Tree.subtree_at_of_mem {t : Tree T} (hb : t.BST) {key : T} (hk : key ∈ t.keys) :
    ∃ l a r, t.subtree_at key = .node l a key r := by
  have hne : t.lookup key ≠ .root := by
    rw [Ne, Tree.lookup_eq_root_iff hb]; exact not_not.mpr hk
  rw [Tree.lookup_eq_subtree_at] at hne
  cases hs : t.subtree_at key with
  | leaf => rw [hs] at hne; simp [Tree.ptr] at hne
  | node l a v r =>
    have := Tree.subtree_at_value hs
    subst this
    exact ⟨l, a, r, rfl⟩

theorem Stored.value_mem_keys {h : Heap T} {t : Tree T} (hs : Stored h t) :
    ∀ x ∈ t.addrs, ∃ nd, h[x]? = some nd ∧ nd.value ∈ t.keys := by
  induction t with
  | leaf => simp [Tree.addrs]
  | node l a v r ihl ihr =>
    obtain ⟨h1, h2, h3⟩ := hs
    intro x hx
    simp only [Tree.addrs, List.mem_cons, List.mem_append] at hx
    simp only [Tree.keys, List.mem_append, List.mem_cons]
    rcases hx with rfl | hx | hx
    · exact ⟨_, h1, Or.inr (Or.inl rfl)⟩
    · obtain ⟨nd, hn, hv⟩ := ihl h2 x hx
      exact ⟨nd, hn, Or.inl hv⟩
    · obtain ⟨nd, hn, hv⟩ := ihr h3 x hx
      exact ⟨nd, hn, Or.inr (Or.inr hv)⟩

theorem Stored.not_mem_addrs_of_value {h : Heap T} {t : Tree T} (hs : Stored h t) {x : Nat}
    {nd : val_node_t T} (hx : h[x]? = some nd) (hv : nd.value ∉ t.keys) : x ∉ t.addrs := by
  intro hm
  obtain ⟨nd', hn, hv'⟩ := hs.value_mem_keys x hm
  rw [hx] at hn
  cases hn
  exact hv hv'

theorem Stored.subtree_not_off_path {h : Heap T} {t : Tree T} (hs : Stored h t) (hb : t.BST)
    (key : T) : ∀ x, x ∈ (t.subtree_at key).addrs → x ∉ t.off_path key := by
  induction t with
  | leaf => simp [Tree.off_path]
  | node l a v r ihl ihr =>
    obtain ⟨h1, h2, h3⟩ := hs
    obtain ⟨hl, hr, hlv, hrv⟩ := hb
    intro x hx
    simp only [Tree.subtree_at] at hx
    simp only [Tree.off_path]
    split
    · simp
    · split
      · next hv hlt =>
        simp only [hv, hlt, if_true, if_false] at hx
        simp only [List.mem_append, not_or]
        refine ⟨?_, ihr h3 hr x hx⟩
        obtain ⟨nd, hn, hval⟩ := h3.value_mem_keys x (Tree.addrs_subtree_at_subset r key x hx)
        exact h2.not_mem_addrs_of_value hn
          (fun hc => lt_irrefl _ (lt_trans (hlv _ hc) (hrv _ hval)))
      · next hv hnlt =>
        simp only [hv, hnlt, if_false] at hx
        simp only [List.mem_append, not_or]
        refine ⟨?_, ihl h2 hl x hx⟩
        obtain ⟨nd, hn, hval⟩ := h2.value_mem_keys x (Tree.addrs_subtree_at_subset l key x hx)
        exact h3.not_mem_addrs_of_value hn
          (fun hc => lt_irrefl _ (lt_trans (hlv _ hval) (hrv _ hc)))

theorem Tree.min_node_of_ne_leaf {r : Tree T} (hr : r ≠ .leaf) :
    ∃ na vn rc, r.min_node = .node .leaf na vn rc := by
  induction r with
  | leaf => exact absurd rfl hr
  | node l a v r' ihl _ =>
    cases l with
    | leaf => exact ⟨a, v, r', rfl⟩
    | node ll la lv lr =>
      simp only [Tree.min_node]
      exact ihl (by simp)

theorem Stored.min_node {h : Heap T} {t : Tree T} (hs : Stored h t) : Stored h t.min_node := by
  induction t with
  | leaf => trivial
  | node l a v r ihl _ =>
    cases l with
    | leaf => exact hs
    | node ll la lv lr =>
      simp only [Tree.min_node]
      exact ihl hs.2.1

theorem Tree.keys_min_node_subset (t : Tree T) : ∀ x, x ∈ t.min_node.keys → x ∈ t.keys := by
  induction t with
  | leaf => simp [Tree.min_node]
  | node l a v r ihl _ =>
    cases l with
    | leaf => simp [Tree.min_node]
    | node ll la lv lr =>
      intro x hx
      simp only [Tree.min_node] at hx
      have := ihl x hx
      simp only [Tree.keys, List.mem_append, List.mem_cons] at this ⊢
      exact Or.inl this

theorem Tree.addrs_min_node_subset (t : Tree T) : ∀ x, x ∈ t.min_node.addrs → x ∈ t.addrs := by
  induction t with
  | leaf => simp [Tree.min_node]
  | node l a v r ihl _ =>
    cases l with
    | leaf => simp [Tree.min_node]
    | node ll la lv lr =>
      intro x hx
      simp only [Tree.min_node] at hx
      have := ihl x hx
      simp only [Tree.addrs, List.mem_append, List.mem_cons] at this ⊢
      exact Or.inr (Or.inl this)

theorem Tree.min_ptr_of_min_node {r : Tree T} {na : Nat} {vn : T} {rc : Tree T}
    (hm : r.min_node = .node .leaf na vn rc) (d : node_ptr) : r.min_ptr d = .val na := by
  induction r generalizing d with
  | leaf => simp [Tree.min_node] at hm
  | node l a v r' ihl _ =>
    cases l with
    | leaf =>
      simp only [Tree.min_node] at hm
      cases hm
      rfl
    | node ll la lv lr =>
      simp only [Tree.min_node] at hm
      simp only [Tree.min_ptr]
      exact ihl hm (.val a)

theorem Tree.succ_eq_min_ptr {r : Tree T} {k : T} (hk : ∀ x ∈ r.keys, k < x) (s : node_ptr) :
    r.succ k s = r.min_ptr s := by
  induction r generalizing s with
  | leaf => rfl
  | node l a v r' ihl _ =>
    have hv : k < v := hk v (by simp [Tree.keys])
    simp only [Tree.succ, hv, if_true, Tree.min_ptr]
    exact ihl (fun x hx => hk x (by simp [Tree.keys, hx])) _

theorem Tree.succ_of_subtree_at {t : Tree T} (hb : t.BST) {k : T} {l r : Tree T} {a : Nat}
    (hs : t.subtree_at k = .node l a k r) {na : Nat} {vn : T} {rc : Tree T}
    (hm : r.min_node = .node .leaf na vn rc) (s : node_ptr) : t.succ k s = .val na := by
  induction t generalizing s with
  | leaf => simp [Tree.subtree_at] at hs
  | node L b v R ihl ihr =>
    obtain ⟨hL, hR, hLv, hRv⟩ := hb
    simp only [Tree.subtree_at] at hs
    by_cases hv : v = k
    · subst hv
      simp only [if_true] at hs
      cases hs
      simp only [Tree.succ, lt_irrefl, if_false]
      rw [Tree.succ_eq_min_ptr hRv]
      exact Tree.min_ptr_of_min_node hm _
    · rcases lt_or_gt_of_ne hv with hlt | hgt
      · simp only [hv, hlt, if_true, if_false] at hs
        have hnk : ¬ k < v := not_lt.mpr (le_of_lt hlt)
        simp only [Tree.succ, hnk, if_false]
        exact ihr hR hs _
      · have hnlt : ¬ v < k := not_lt.mpr (le_of_lt hgt)
        simp only [hv, hnlt, if_false] at hs
        simp only [Tree.succ, hgt, if_true]
        exact ihl hL hs _

theorem Tree.subtree_at_min_node {r : Tree T} (hb : r.BST) {na : Nat} {vn : T} {rc : Tree T}
    (hm : r.min_node = .node .leaf na vn rc) : r.subtree_at vn = .node .leaf na vn rc := by
  induction r with
  | leaf => simp [Tree.min_node] at hm
  | node l a v r' ihl _ =>
    cases l with
    | leaf =>
      simp only [Tree.min_node] at hm
      cases hm
      simp [Tree.subtree_at]
    | node ll la lv lr =>
      simp only [Tree.min_node] at hm
      have hmem : vn ∈ (Tree.node ll la lv lr).keys :=
        Tree.keys_min_node_subset _ vn (by
          show vn ∈ (Tree.node ll la lv lr).min_node.keys
          rw [hm]; simp [Tree.keys])
      have hlt : vn < v := hb.2.2.1 vn hmem
      have hv : ¬ v = vn := fun h => lt_irrefl _ (h ▸ hlt)
      have hnlt : ¬ v < vn := not_lt.mpr (le_of_lt hlt)
      simp only [Tree.subtree_at, hv, hnlt, if_false]
      exact ihl hb.1 hm

theorem Tree.subtree_at_succ {t : Tree T} (hb : t.BST) {k : T} {l r : Tree T} {a : Nat}
    (hs : t.subtree_at k = .node l a k r) {na : Nat} {vn : T} {rc : Tree T}
    (hm : r.min_node = .node .leaf na vn rc) : t.subtree_at vn = .node .leaf na vn rc := by
  have hvn_r : vn ∈ r.keys := Tree.keys_min_node_subset _ vn (by rw [hm]; simp [Tree.keys])
  induction t with
  | leaf => simp [Tree.subtree_at] at hs
  | node L b v R ihl ihr =>
    obtain ⟨hL, hR, hLv, hRv⟩ := hb
    have hsub := Tree.keys_subtree_at_subset (Tree.node L b v R) k vn
      (by rw [hs]; simp [Tree.keys, hvn_r])
    simp only [Tree.subtree_at] at hs
    by_cases hv : v = k
    · subst hv
      simp only [if_true] at hs
      cases hs
      have hlt : v < vn := hRv vn hvn_r
      have hne : ¬ v = vn := ne_of_lt hlt
      simp only [Tree.subtree_at, hne, hlt, if_true, if_false]
      exact Tree.subtree_at_min_node hR hm
    · rcases lt_or_gt_of_ne hv with hlt | hgt
      · simp only [hv, hlt, if_true, if_false] at hs
        have hvnR : vn ∈ R.keys := Tree.keys_subtree_at_subset R k vn
          (by rw [hs]; simp [Tree.keys, hvn_r])
        have hlt2 : v < vn := hRv vn hvnR
        have hne : ¬ v = vn := ne_of_lt hlt2
        simp only [Tree.subtree_at, hne, hlt2, if_true, if_false]
        exact ihr hR hs
      · have hnlt : ¬ v < k := not_lt.mpr (le_of_lt hgt)
        simp only [hv, hnlt, if_false] at hs
        have hvnL : vn ∈ L.keys := Tree.keys_subtree_at_subset L k vn
          (by rw [hs]; simp [Tree.keys, hvn_r])
        have hlt2 : vn < v := hLv vn hvnL
        have hne : ¬ v = vn := fun h => lt_irrefl _ (h ▸ hlt2)
        have hnlt2 : ¬ v < vn := not_lt.mpr (le_of_lt hlt2)
        simp only [Tree.subtree_at, hne, hnlt2, if_false]
        exact ihl hL hs

theorem Tree.ptr_only_child (l r : Tree T) :
    (Tree.only_child l r).ptr = get_only_child ⟨l.ptr, r.ptr⟩ := by
  cases l <;> simp [Tree.only_child, get_only_child, Tree.ptr]

theorem Tree.only_child_cases (l r : Tree T) :
    Tree.only_child l r = l ∨ Tree.only_child l r = r := by
  cases l
  · exact Or.inr rfl
  · exact Or.inl rfl

theorem Tree.ptr_leafify (t : Tree T) : t.leafify.ptr = t.ptr := by
  cases t <;> rfl

theorem Tree.height_leafify_le (t : Tree T) : t.leafify.height ≤ 1 := by
  cases t <;> simp [Tree.leafify, Tree.height]

theorem persistent_set.erase_simple {h : Heap T} {s : persistent_set} {a : Nat}
    {nd : val_node_t T} {fuel : Nat} {res : iterator} {w : Heap T × persistent_set}
    (ha : h[a]? = some nd) (hc : (is_leaf nd.base || has_one_child nd.base) = true)
    (hinc : (make_iterator (.val a)).incr fuel h s = some res)
    (hcp : s.copy_path fuel h nd.value (get_only_child nd.base) none none = some w) :
    s.erase (fuel + 1) h (make_iterator (.val a)) =
      some (w.1, { w.2 with size_ := size_dec w.2.size_ }, res) := by
  have hne : (make_iterator (node_ptr.val a)).eq s.end_ = false := by
    simp [iterator.eq, persistent_set.end_, make_iterator]
  have hptr : (make_iterator (node_ptr.val a)).ptr = .val a := rfl
  simp only [persistent_set.erase, hne, hptr, ha, hc, hinc, hcp, Bool.false_eq_true, if_false,
    if_true]

theorem persistent_set.erase_two {h : Heap T} {s : persistent_set} {a n : Nat}
    {nd nn : val_node_t T} {fuel : Nat} {w1 : Heap T × persistent_set × iterator}
    {w2 : Heap T × persistent_set}
    (ha : h[a]? = some nd) (hc : (is_leaf nd.base || has_one_child nd.base) = false)
    (hn : next fuel h s.root (.val a) .root = some (.val n)) (hnn : h[n]? = some nn)
    (he : s.erase fuel (h ++ [nn]) (make_iterator (.val n)) = some w1)
    (hcp : persistent_set.copy_path fuel w1.1
      { w1.2.1 with size_ := size_inc w1.2.1.size_ } nd.value (some h.length) nd.left nd.right
        = some w2) :
    s.erase (fuel + 1) h (make_iterator (.val a)) =
      some (w2.1, { w2.2 with size_ := size_dec w2.2.size_ }, make_iterator (.val h.length)) := by
  have hne : (make_iterator (node_ptr.val a)).eq s.end_ = false := by
    simp [iterator.eq, persistent_set.end_, make_iterator]
  have hptr : (make_iterator (node_ptr.val a)).ptr = .val a := rfl
  simp only [persistent_set.erase, hne, hptr, ha, hc, hn, hnn, make_shared, he, hcp,
    Bool.false_eq_true, if_false]

theorem next_spec {h : Heap T} {s : persistent_set} {t : Tree T} (hh : Holds h s t)
    {a : Nat} {k : T} (hv : get_value h (.val a) = some k) (fuel : Nat) (hf : t.height < fuel) :
    next fuel h s.root (.val a) .root = some (t.succ k .root) := by
  simp [next, hv, left_ptr, deref, hh.left, next_loop_stored k hh.stored fuel .root hf]

theorem iterator.incr_some {h : Heap T} {s : persistent_set} {t : Tree T} (hh : Holds h s t)
    {a : Nat} {k : T} (hv : get_value h (.val a) = some k) (fuel : Nat) (hf : t.height < fuel) :
    (make_iterator (.val a)).incr fuel h s = some (make_iterator (t.succ k .root)) := by
  simp [iterator.incr, make_iterator, next_spec hh hv fuel hf]

theorem size_dec_of_pos {n : Nat} (h0 : 0 < n) (h1 : n < SIZE_MOD) : size_dec n = n - 1 := by
  unfold size_dec
  have : n + SIZE_MOD - 1 = (n - 1) + SIZE_MOD := by omega
  rw [this, Nat.add_mod_right, Nat.mod_eq_of_lt (by omega)]

theorem size_inc_of_lt {n : Nat} (h1 : n + 1 < SIZE_MOD) : size_inc n = n + 1 := by
  unfold size_inc
  exact Nat.mod_eq_of_lt h1

theorem erase_simple_spec {h : Heap T} {s : persistent_set} {t : Tree T} (hh : Holds h s t)
    {key : T} {l r : Tree T} {a : Nat} (hsub : t.subtree_at key = .node l a key r)
    (hlr : l = .leaf ∨ r = .leaf) (fuel : Nat) (hf : t.height < fuel) :
    ∃ h1 s1 res, s.erase (fuel + 1) h (make_iterator (.val a)) = some (h1, s1, res) ∧
      s1.size_ = size_dec s.size_ ∧
      (∀ fuel1, t.height + 1 < fuel1 → s1.find fuel1 h1 key = some s1.end_) ∧
      h.length ≤ h1.length ∧
      (∀ i, i < h.length → (Tree.only_child l r).ptr ≠ some i → h1[i]? = h[i]?) ∧
      Stored h1 (t.copy_path key (Tree.only_child l r).leafify h.length) ∧
      s1.root.left = (t.copy_path key (Tree.only_child l r).leafify h.length).ptr := by
  have hsubst : Stored h (.node l a key r) := by
    rw [← hsub]; exact hh.stored.stored_subtree_at key
  have hsubb : (Tree.node l a key r).BST := by
    rw [← hsub]; exact hh.bst.bst_subtree_at key
  obtain ⟨ha, hsl, hsr⟩ := hsubst
  have hc : (is_leaf (⟨l.ptr, r.ptr, key⟩ : val_node_t T).base ||
      has_one_child (⟨l.ptr, r.ptr, key⟩ : val_node_t T).base) = true := by
    rcases hlr with rfl | rfl
    · cases r <;> simp [is_leaf, has_one_child, val_node_t.base, Tree.ptr]
    · cases l <;> simp [is_leaf, has_one_child, val_node_t.base, Tree.ptr]
  have hv : get_value h (.val a) = some key := by simp [get_value, ha]
  have hinc := iterator.incr_some hh hv fuel hf
  have hCst : Stored h (Tree.only_child l r) := by
    rcases Tree.only_child_cases l r with hC | hC <;> rw [hC] <;> assumption
  have hCaddr : ∀ x ∈ (Tree.only_child l r).addrs, x ∈ (t.subtree_at key).addrs := by
    intro x hx
    rw [hsub]
    simp only [Tree.addrs, List.mem_cons, List.mem_append]
    rcases Tree.only_child_cases l r with hC | hC <;> rw [hC] at hx
    · exact Or.inr (Or.inl hx)
    · exact Or.inr (Or.inr hx)
  have hCkey : ∀ x ∈ (Tree.only_child l r).keys, x ≠ key := by
    intro x hx
    rcases Tree.only_child_cases l r with hC | hC <;> rw [hC] at hx
    · exact ne_of_lt (hsubb.2.2.1 x hx)
    · exact ne_of_gt (hsubb.2.2.2 x hx)
  obtain ⟨w, hw, h1, h2, h3, h4, h5, h6, h7⟩ :=
    persistent_set.copy_path_spec (s := s) hh.stored hh.left key (Tree.only_child l r).ptr
      none none fuel hf (by
        intro m hm
        apply hCst.addr_lt
        cases hC : Tree.only_child l r with
        | leaf => rw [hC] at hm; cases hm
        | node cl c vc cr => rw [hC] at hm; cases hm; simp [Tree.addrs])
  have hleaf : Stored w.1 (Tree.only_child l r).leafify := by
    cases hC : Tree.only_child l r with
    | leaf => trivial
    | node cl c vc cr =>
      rw [hC] at hCst h5
      refine ⟨?_, trivial, trivial⟩
      rw [h5 c rfl, hCst.1]
      rfl
  have hoff : ∀ m, (Tree.only_child l r).ptr = some m → m ∉ t.off_path key := by
    intro m hm
    apply hh.stored.subtree_not_off_path hh.bst key
    apply hCaddr
    cases hC : Tree.only_child l r with
    | leaf => rw [hC] at hm; cases hm
    | node cl c vc cr => rw [hC] at hm; cases hm; simp [Tree.addrs]
  have hst1 := h7 hoff (Tree.only_child l r).leafify (Tree.ptr_leafify _) hleaf
  have hleft : w.2.root.left = (t.copy_path key (Tree.only_child l r).leafify h.length).ptr := by
    rw [h2, Tree.ptr_copy_path, Tree.ptr_leafify]
  have hw1 : s.copy_path fuel h (⟨l.ptr, r.ptr, key⟩ : val_node_t T).value
      (get_only_child (⟨l.ptr, r.ptr, key⟩ : val_node_t T).base) none none = some w := by
    rw [← hw, Tree.ptr_only_child]; rfl
  have herase := persistent_set.erase_simple ha hc hinc hw1
  refine ⟨w.1, { w.2 with size_ := size_dec w.2.size_ }, _, herase, ?_, ?_, h1, h4, hst1, hleft⟩
  · show size_dec w.2.size_ = _
    rw [h3]
  · intro fuel1 hf1
    have hheight : (t.copy_path key (Tree.only_child l r).leafify h.length).height < fuel1 := by
      have := Tree.height_copy_path_le t key (Tree.only_child l r).leafify h.length
      have := Tree.height_leafify_le (Tree.only_child l r)
      omega
    have hfind := find_loop_stored key hst1 fuel1 hheight
    rw [← hleft] at hfind
    simp only [persistent_set.find]
    show (find_loop w.1 key fuel1 (sp_get w.2.root.left)).map make_iterator = _
    rw [hfind, Tree.lookup_copy_path]
    cases hC : Tree.only_child l r with
    | leaf => rfl
    | node cl c vc cr =>
      have hne : vc ≠ key := hCkey vc (by rw [hC]; simp [Tree.keys])
      rcases lt_or_gt_of_ne hne with hlt | hgt
      · simp [Tree.leafify, Tree.lookup, hlt, persistent_set.end_]
      · have hnlt : ¬ vc < key := not_lt.mpr (le_of_lt hgt)
        simp [Tree.leafify, Tree.lookup, hnlt, hgt, persistent_set.end_]

theorem Tree.height_subtree_at_le (t : Tree T) (key : T) :
    (t.subtree_at key).height ≤ t.height := by
  induction t with
  | leaf => simp [Tree.subtree_at]
  | node l a v r ihl ihr =>
    simp only [Tree.subtree_at]
    split
    · exact le_refl _
    · split
      · simp only [Tree.height]; omega
      · simp only [Tree.height]; omega

theorem Holds.append {h : Heap T} {s : persistent_set} {t : Tree T} (hh : Holds h s t)
    (x : val_node_t T) : Holds (h ++ [x]) s t :=
  hh.frame (fun _ hi => List.getElem?_append_left hi)

theorem erase_two_spec {h : Heap T} {s : persistent_set} {t : Tree T} (hh : Holds h s t)
    {k : T} {l r : Tree T} {a : Nat} (hsub : t.subtree_at k = .node l a k r)
    (hl : l ≠ .leaf) (hr : r ≠ .leaf) (fuel : Nat) (hf : t.height < fuel) :
    ∃ h3 s3 res, s.erase (fuel + 2) h (make_iterator (.val a)) = some (h3, s3, res) ∧
      s3.size_ = size_dec (size_inc (size_dec s.size_)) ∧
      (∀ fuel1, 2 * t.height + 1 < fuel1 → s3.find fuel1 h3 k = some s3.end_) := by
  have hsubst : Stored h (.node l a k r) := by
    rw [← hsub]; exact hh.stored.stored_subtree_at k
  have hsubb : (Tree.node l a k r).BST := by
    rw [← hsub]; exact hh.bst.bst_subtree_at k
  obtain ⟨ha, hsl, hsr⟩ := hsubst
  obtain ⟨hbl, hbr, hlk, hrk⟩ := hsubb
  have hc : (is_leaf (⟨l.ptr, r.ptr, k⟩ : val_node_t T).base ||
      has_one_child (⟨l.ptr, r.ptr, k⟩ : val_node_t T).base) = false := by
    cases l with
    | leaf => exact absurd rfl hl
    | node ll la lv lr =>
      cases r with
      | leaf => exact absurd rfl hr
      | node rl ra rv rr => simp [is_leaf, has_one_child, val_node_t.base, Tree.ptr]
  obtain ⟨na, vn, rc, hm⟩ := Tree.min_node_of_ne_leaf hr
  have hv : get_value h (.val a) = some k := by simp [get_value, ha]
  have hn : next (fuel + 1) h s.root (.val a) .root = some (.val na) := by
    rw [next_spec hh hv (fuel + 1) (by omega), Tree.succ_of_subtree_at hh.bst hsub hm]
  have hsub2 := Tree.subtree_at_succ hh.bst hsub hm
  have hst2 : Stored h (.node .leaf na vn rc) := by
    rw [← hsub2]; exact hh.stored.stored_subtree_at vn
  obtain ⟨hnn, _, hsrc⟩ := hst2
  have hvn_r : vn ∈ r.keys := Tree.keys_min_node_subset _ vn (by rw [hm]; simp [Tree.keys])
  have hkvn : k < vn := hrk vn hvn_r
  have hrc_r : ∀ x ∈ rc.keys, x ∈ r.keys := by
    intro x hx
    exact Tree.keys_min_node_subset _ x (by rw [hm]; simp [Tree.keys, hx])
  -- the inner erase of the successor
  obtain ⟨h2, s2, res, he, hs2, _, hlen2, hframe2, hst1, hleft2⟩ :=
    erase_simple_spec (hh.append (⟨none, rc.ptr, vn⟩ : val_node_t T)) hsub2 (Or.inl rfl) fuel hf
  simp only [Tree.only_child, List.length_append, List.length_singleton] at hlen2 hframe2
  simp only [Tree.only_child, List.length_append, List.length_singleton] at hst1 hleft2
  have hrcne : ∀ i, rc.ptr = some i → i < h.length := by
    intro i hi
    apply hsrc.addr_lt
    cases rc with
    | leaf => cases hi
    | node cl c vc cr => cases hi; simp [Tree.addrs]
  -- the second call of copy_path
  have hheight1 : (t.copy_path vn rc.leafify (h.length + 1)).height < fuel + 1 := by
    have := Tree.height_copy_path_le t vn rc.leafify (h.length + 1)
    have := Tree.height_leafify_le rc
    omega
  obtain ⟨w2, hw2, _, hroot2, hsize2, hframe3, hcell3, hon3, _⟩ :=
    persistent_set.copy_path_spec (s := { s2 with size_ := size_inc s2.size_ }) hst1 hleft2 k
      (some h.length) l.ptr r.ptr (fuel + 1) hheight1 (by intro m hm; cases hm; omega)
  have herase := persistent_set.erase_two ha hc hn hnn he hw2
  refine ⟨w2.1, { w2.2 with size_ := size_dec w2.2.size_ }, _, herase, ?_, ?_⟩
  · show size_dec w2.2.size_ = _
    rw [hsize2]
    show size_dec (size_inc s2.size_) = _
    rw [hs2]
  · intro fuel1 hf1
    have hq : w2.1[h.length]? = some ⟨l.ptr, r.ptr, vn⟩ := by
      rw [hcell3 _ rfl, hframe2 h.length (by omega)
        (fun hc => absurd (hrcne _ hc) (lt_irrefl _))]
      simp
    have hl3 : Stored w2.1 l := by
      refine hsl.congr (fun i hi => ?_)
      have hilt := hsl.addr_lt i hi
      rw [hframe3 i (by omega) (by intro hc; cases hc; omega), hframe2 i (by omega) ?_]
      · exact List.getElem?_append_left hilt
      · intro hc
        cases hrc : rc with
        | leaf => rw [hrc] at hc; cases hc
        | node cl c vc cr =>
          rw [hrc] at hc hsrc hrc_r
          cases hc
          refine hsl.not_mem_addrs_of_value hsrc.1 ?_ hi
          intro hmem
          have h1 : k < vc := hrk vc (hrc_r vc (by simp [Tree.keys]))
          exact lt_irrefl _ (lt_trans h1 (hlk vc hmem))
    have hR2 : StoredOn w2.1 k (.node l h.length vn r) :=
      ⟨hq, fun hlt => absurd hlt (not_lt.mpr (le_of_lt hkvn)), fun _ => hl3.on k⟩
    have hon := hon3 (.node l h.length vn r) rfl hR2
    have hleft3 : w2.2.root.left =
        ((t.copy_path vn rc.leafify (h.length + 1)).copy_path k (.node l h.length vn r)
          h2.length).ptr := by
      rw [hroot2, Tree.ptr_copy_path]; rfl
    have hheight : (((t.copy_path vn rc.leafify (h.length + 1)).copy_path k
        (.node l h.length vn r) h2.length).height) < fuel1 := by
      have h1 := Tree.height_copy_path_le (t.copy_path vn rc.leafify (h.length + 1)) k
        (.node l h.length vn r) h2.length
      have h2' := Tree.height_copy_path_le t vn rc.leafify (h.length + 1)
      have h3 := Tree.height_leafify_le rc
      have h4 := Tree.height_subtree_at_le t k
      rw [hsub] at h4
      simp only [Tree.height] at h1 h4
      omega
    have hfind := find_loop_stored_on k hon fuel1 hheight
    rw [← hleft3] at hfind
    show (find_loop w2.1 k fuel1 (sp_get w2.2.root.left)).map make_iterator = _
    rw [hfind, Tree.lookup_copy_path]
    have hnlt : ¬ vn < k := not_lt.mpr (le_of_lt hkvn)
    have hlroot : l.lookup k = .root :=
      (Tree.lookup_eq_root_iff hbl k).mpr (fun hc => lt_irrefl _ (hlk k hc))
    simp [Tree.lookup, hnlt, hkvn, hlroot, persistent_set.end_]

theorem lower_bound_loop_stored {h : Heap T} (key : T) {t : Tree T} (hs : Stored h t) :
    ∀ fuel s, t.height < fuel →
      lower_bound_loop h key fuel (sp_get t.ptr) s = some (t.lb key s) := by
  induction t with
  | leaf =>
    intro fuel s hf
    cases fuel with
    | zero => omega
    | succ n => rfl
  | node l a v r ihl ihr =>
    intro fuel s hf
    obtain ⟨h1, h2, h3⟩ := hs
    cases fuel with
    | zero => omega
    | succ n =>
      simp only [Tree.height] at hf
      simp only [Tree.ptr, sp_get, lower_bound_loop, h1, Tree.lb]
      split
      · exact ihr h3 n _ (by omega)
      · exact ihl h2 n _ (by omega)

theorem upper_bound_loop_eq_next_loop (h : Heap T) (key : T) :
    ∀ fuel cur res, upper_bound_loop h key fuel cur res = next_loop h key fuel cur res := by
  intro fuel
  induction fuel with
  | zero => intro cur res; rfl
  | succ n ih =>
    intro cur res
    cases cur with
    | null => rfl
    | root => rfl
    | val a =>
      simp only [upper_bound_loop, next_loop]
      cases h[a]? with
      | none => rfl
      | some nd =>
        simp only
        split
        · exact ih _ _
        · exact ih _ _

theorem Tree.lb_eq {t : Tree T} (hb : t.BST) (key : T) (s : node_ptr) :
    t.lb key s = match t.nodes.find? (fun p => decide (key ≤ p.2)) with
      | some p => .val p.1
      | none => s := by
  induction t generalizing s with
  | leaf => simp [Tree.lb, Tree.nodes]
  | node l a v r ihl ihr =>
    obtain ⟨hl, hr, hlv, hrv⟩ := hb
    simp only [Tree.lb, Tree.nodes, List.find?_append, List.find?_cons]
    split
    · next hlt =>
      have hnone : l.nodes.find? (fun p => decide (key ≤ p.2)) = none := by
        rw [List.find?_eq_none]
        intro p hp
        have hpk : p.2 ∈ l.keys := by
          rw [Tree.keys_eq_map_nodes]; exact List.mem_map_of_mem _ hp
        simp only [decide_eq_true_eq, not_le]
        exact lt_trans (hlv _ hpk) hlt
      rw [ihr hr, hnone]
      simp [not_le.mpr hlt]
    · next hnlt =>
      rw [ihl hl]
      cases l.nodes.find? (fun p => decide (key ≤ p.2)) <;> simp [not_lt.mp hnlt]

theorem find?_sorted_least (P : T → Bool) :
    ∀ (L : List (Nat × T)), (L.map Prod.snd).Sorted (· < ·) → ∀ p,
      L.find? (fun x => P x.2) = some p → ∀ x ∈ L, P x.2 = true → p.2 ≤ x.2 := by
  intro L
  induction L with
  | nil => intro _ p hp; simp at hp
  | cons y ys ih =>
    intro hs p hp x hx hPx
    simp only [List.map_cons, List.sorted_cons, List.mem_map, forall_exists_index,
      and_imp] at hs
    simp only [List.find?_cons] at hp
    cases hy : P y.2 with
    | true =>
      rw [hy] at hp
      cases hp
      rcases List.mem_cons.mp hx with rfl | hx'
      · exact le_refl _
      · exact le_of_lt (hs.1 x.2 x hx' rfl)
    | false =>
      rw [hy] at hp
      rcases List.mem_cons.mp hx with rfl | hx'
      · rw [hy] at hPx; cases hPx
      · exact ih hs.2 p hp x hx' hPx

theorem Tree.lookup_of_mem_nodes {t : Tree T} (hb : t.BST) {a : Nat} {k : T}
    (hm : (a, k) ∈ t.nodes) : t.lookup k = .val a := by
  induction t with
  | leaf => simp [Tree.nodes] at hm
  | node l b v r ihl ihr =>
    obtain ⟨hl, hr, hlv, hrv⟩ := hb
    simp only [Tree.nodes, List.mem_append, List.mem_cons, Prod.mk.injEq] at hm
    simp only [Tree.lookup]
    rcases hm with hm | ⟨rfl, rfl⟩ | hm
    · have hk : k ∈ l.keys := by
        rw [Tree.keys_eq_map_nodes]; exact List.mem_map_of_mem Prod.snd hm
      have hlt := hlv k hk
      simp only [not_lt.mpr (le_of_lt hlt), hlt, if_true, if_false]
      exact ihl hl hm
    · simp
    · have hk : k ∈ r.keys := by
        rw [Tree.keys_eq_map_nodes]; exact List.mem_map_of_mem Prod.snd hm
      have hlt := hrv k hk
      simp only [hlt, if_true]
      exact ihr hr hm

/-- The node found by a bound search: when no stored key satisfies the monotone test `P` the
candidate is the sentinel; otherwise it is the node of the least stored key satisfying `P`. -/
theorem bound_of_find? {h : Heap T} {s : persistent_set} {t : Tree T} (hh : Holds h s t)
    (P : T → Bool) (res : node_ptr)
    (hres : res = match t.nodes.find? (fun p => P p.2) with
      | some p => .val p.1
      | none => .root) :
    ((∀ y ∈ t.keys, P y = false) → res = .root) ∧
    (∀ m ∈ t.keys, P m = true → (∀ y ∈ t.keys, P y = true → m ≤ y) →
      get_value h res = some m ∧ t.lookup m = res) := by
  constructor
  · intro hall
    have : t.nodes.find? (fun p => P p.2) = none := by
      rw [List.find?_eq_none]
      intro p hp
      have hpk : p.2 ∈ t.keys := by
        rw [Tree.keys_eq_map_nodes]; exact List.mem_map_of_mem _ hp
      simp [hall _ hpk]
    rw [hres, this]
  · intro m hm hPm hmin
    rw [Tree.keys_eq_map_nodes, List.mem_map] at hm
    obtain ⟨x, hx, rfl⟩ := hm
    cases hf : t.nodes.find? (fun p => P p.2) with
    | none =>
      rw [List.find?_eq_none] at hf
      exact absurd hPm (hf x hx)
    | some p =>
      have hpm : p ∈ t.nodes := List.mem_of_find?_eq_some hf
      have hPp : P p.2 = true := List.find?_some (p := fun x : Nat × T => P x.2) hf
      have hsorted : (t.nodes.map Prod.snd).Sorted (· < ·) := by
        rw [← Tree.keys_eq_map_nodes]; exact hh.bst.sorted_keys
      have h1 : p.2 ≤ x.2 := find?_sorted_least P t.nodes hsorted p hf x hx hPm
      have h2 : x.2 ≤ p.2 := hmin p.2
        (by rw [Tree.keys_eq_map_nodes]; exact List.mem_map_of_mem _ hpm) hPp
      have heq : x.2 = p.2 := le_antisymm h2 h1
      rw [hres, hf]
      simp only
      rw [heq]
      exact ⟨hh.stored.get_value_of_mem_nodes (show (p.1, p.2) ∈ t.nodes from hpm),
        Tree.lookup_of_mem_nodes hh.bst (show (p.1, p.2) ∈ t.nodes from hpm)⟩

theorem persistent_set.lower_bound_spec {h : Heap T} {s : persistent_set} {t : Tree T}
    (hh : Holds h s t) (key : T) (fuel : Nat) (hf : t.height < fuel) :
    s.lower_bound fuel h key = some (make_iterator (t.lb key .root)) := by
  simp only [persistent_set.lower_bound, hh.left,
    lower_bound_loop_stored key hh.stored fuel .root hf, Option.map_some']

theorem persistent_set.upper_bound_spec {h : Heap T} {s : persistent_set} {t : Tree T}
    (hh : Holds h s t) (key : T) (fuel : Nat) (hf : t.height < fuel) :
    s.upper_bound fuel h key = some (make_iterator (t.succ key .root)) := by
  simp only [persistent_set.upper_bound, hh.left, upper_bound_loop_eq_next_loop,
    next_loop_stored key hh.stored fuel .root hf, Option.map_some']

theorem prev_loop_stored {h : Heap T} (key : T) {t : Tree T} (hs : Stored h t) :
    ∀ fuel s, t.height < fuel →
      prev_loop h key fuel (sp_get t.ptr) s = some (t.pred key s) := by
  induction t with
  | leaf =>
    intro fuel s hf
    cases fuel with
    | zero => omega
    | succ n => rfl
  | node l a v r ihl ihr =>
    intro fuel s hf
    obtain ⟨h1, h2, h3⟩ := hs
    cases fuel with
    | zero => omega
    | succ n =>
      simp only [Tree.height] at hf
      simp only [Tree.ptr, sp_get, prev_loop, h1, Tree.pred]
      split
      · exact ihr h3 n _ (by omega)
      · exact ihl h2 n _ (by omega)

theorem max_in_subtree_stored {h : Heap T} (root : node_t) (r : Tree T) :
    ∀ (p : node_ptr) (fuel : Nat), Stored h r → right_ptr h root p = some (sp_get r.ptr) →
      p ≠ .null → r.height < fuel → max_in_subtree h root fuel p = some (r.max_ptr p) := by
  induction r with
  | leaf =>
    intro p fuel _ hp hn hf
    cases fuel with
    | zero => omega
    | succ n => simp [max_in_subtree, hn, hp, sp_get, Tree.ptr, Tree.max_ptr]
  | node rl a v rr _ ihr =>
    intro p fuel hst hp hn hf
    obtain ⟨h1, _, h3⟩ := hst
    cases fuel with
    | zero => omega
    | succ n =>
      simp only [Tree.height] at hf
      have hrec := ihr (.val a) n h3 (by simp [right_ptr, deref, h1, val_node_t.base]) (by simp)
        (by omega)
      simp [max_in_subtree, hn, hp, sp_get, Tree.ptr, Tree.max_ptr, hrec]

theorem Tree.max_ptr_eq (t : Tree T) (d : node_ptr) :
    t.max_ptr d = match t.nodes.reverse with
      | [] => d
      | p :: _ => .val p.1 := by
  induction t generalizing d with
  | leaf => rfl
  | node l a v r _ ihr =>
    simp only [Tree.max_ptr, Tree.nodes, List.reverse_append, List.reverse_cons,
      List.append_assoc]
    rw [ihr (.val a)]
    cases r.nodes.reverse <;> rfl

theorem Tree.pred_eq {t : Tree T} (hb : t.BST) (key : T) (s : node_ptr) :
    t.pred key s = match t.nodes.reverse.find? (fun p => decide (p.2 < key)) with
      | some p => .val p.1
      | none => s := by
  induction t generalizing s with
  | leaf => simp [Tree.pred, Tree.nodes]
  | node l a v r ihl ihr =>
    obtain ⟨hl, hr, hlv, hrv⟩ := hb
    simp only [Tree.pred, Tree.nodes, List.reverse_append, List.reverse_cons,
      List.append_assoc, List.singleton_append, List.find?_append, List.find?_cons]
    split
    · next hlt =>
      rw [ihr hr]
      cases r.nodes.reverse.find? (fun p => decide (p.2 < key)) <;> simp [hlt]
    · next hnlt =>
      have hnone : r.nodes.reverse.find? (fun p => decide (p.2 < key)) = none := by
        rw [List.find?_eq_none]
        intro p hp
        have hpk : p.2 ∈ r.keys := by
          rw [Tree.keys_eq_map_nodes]
          exact List.mem_map_of_mem _ (List.mem_reverse.mp hp)
        simp only [decide_eq_true_eq]
        intro hk
        exact hnlt (lt_trans (hrv _ hpk) hk)
      rw [ihl hl, hnone]
      simp [hnlt]

theorem find?_pred_sorted (pre post : List (Nat × T)) (a : Nat) (k : T)
    (hs : ((pre ++ (a, k) :: post).map Prod.snd).Sorted (· < ·)) :
    (pre ++ (a, k) :: post).reverse.find? (fun p => decide (p.2 < k)) = pre.reverse.head? := by
  simp only [List.map_append, List.map_cons, List.Sorted, List.pairwise_append,
    List.pairwise_cons, List.mem_map, List.mem_cons, forall_exists_index, and_imp] at hs
  obtain ⟨_, ⟨hpost, _⟩, hpre⟩ := hs
  have hnone : post.reverse.find? (fun p => decide (p.2 < k)) = none := by
    rw [List.find?_eq_none]
    intro p hp
    simp only [decide_eq_true_eq]
    intro hk
    exact lt_irrefl _ (lt_trans hk (hpost p.2 p (List.mem_reverse.mp hp) rfl))
  simp only [List.reverse_append, List.reverse_cons, List.append_assoc, List.singleton_append,
    List.find?_append, hnone, Option.none_or, List.find?_cons, lt_self_iff_false, decide_False]
  cases hr : pre.reverse with
  | nil => rfl
  | cons q qs =>
    have hq : q ∈ pre := List.mem_reverse.mp (by rw [hr]; exact List.mem_cons_self _ _)
    have : q.2 < k := hpre q.2 q hq rfl k (Or.inl rfl)
    simp [this]

theorem iterator.decr_spec {h : Heap T} {s : persistent_set} {t : Tree T} (hh : Holds h s t)
    (fuel : Nat) (hf : t.height < fuel) (rpre post : List (Nat × T)) (x : Nat × T)
    (hn : t.nodes = (x :: rpre).reverse ++ post) :
    (make_iterator (first_ptr post)).decr fuel h s = some (make_iterator (.val x.1)) := by
  cases post with
  | nil =>
    rw [List.append_nil] at hn
    have hrev : t.nodes.reverse = x :: rpre := by rw [hn, List.reverse_reverse]
    cases t with
    | leaf => simp [Tree.nodes] at hn
    | node l a v r =>
      obtain ⟨h1, _, h3⟩ := hh.stored
      simp only [Tree.height] at hf
      have hmax := max_in_subtree_stored s.root r (.val a) fuel h3
        (by simp [right_ptr, deref, h1, val_node_t.base]) (by simp) (by omega)
      have hptr : r.max_ptr (.val a) = .val x.1 := by
        have := Tree.max_ptr_eq (Tree.node l a v r) .root
        rw [hrev] at this
        exact this
      simp [iterator.decr, make_iterator, first_ptr, left_ptr, deref, hh.left, Tree.ptr, sp_get,
        hmax, hptr]
  | cons p post =>
    obtain ⟨a, k⟩ := p
    have hv : get_value h (.val a) = some k :=
      hh.stored.get_value_of_mem_nodes (by rw [hn]; simp)
    have hsorted : (((x :: rpre).reverse ++ (a, k) :: post).map Prod.snd).Sorted (· < ·) := by
      rw [← hn, ← Tree.keys_eq_map_nodes]; exact hh.bst.sorted_keys
    have hpred : t.pred k .root = .val x.1 := by
      rw [Tree.pred_eq hh.bst, hn, find?_pred_sorted _ post a k hsorted, List.reverse_reverse]
      rfl
    simp [iterator.decr, make_iterator, first_ptr, prev, hv, left_ptr, deref, hh.left,
      prev_loop_stored k hh.stored fuel .root hf, hpred]

theorem Holds.key_of_addr {h : Heap T} {s : persistent_set} {t : Tree T} (hh : Holds h s t)
    {a : Nat} {k k1 : T} (h1 : (a, k) ∈ t.nodes) (h2 : (a, k1) ∈ t.nodes) : k = k1 := by
  obtain ⟨p, q, hc⟩ := hh.stored.cell_of_mem_nodes h1
  obtain ⟨p1, q1, hc1⟩ := hh.stored.cell_of_mem_nodes h2
  rw [hc] at hc1
  cases hc1
  rfl

theorem first_ptr_ne_of_suffix {h : Heap T} {s : persistent_set} {t : Tree T} (hh : Holds h s t)
    (rpre post : List (Nat × T)) (x : Nat × T) (hn : t.nodes = (x :: rpre).reverse ++ post) :
    first_ptr post ≠ first_ptr t.nodes := by
  have hsorted : (t.nodes.map Prod.snd).Sorted (· < ·) := by
    rw [← Tree.keys_eq_map_nodes]; exact hh.bst.sorted_keys
  cases hpre : (x :: rpre).reverse with
  | nil => simp at hpre
  | cons y ys =>
    rw [hpre] at hn
    cases post with
    | nil => rw [hn]; simp [first_ptr]
    | cons p post =>
      rw [hn]
      simp only [first_ptr, List.cons_append, ne_eq, node_ptr.val.injEq]
      intro heq
      rw [hn] at hsorted
      simp only [List.cons_append, List.map_cons, List.map_append, List.sorted_cons,
        List.mem_append, List.mem_map, List.mem_cons] at hsorted
      have hlt : y.2 < p.2 := hsorted.1 p.2 (Or.inr (Or.inl rfl))
      have hy : (y.1, y.2) ∈ t.nodes := by rw [hn]; simp
      have hp : (y.1, p.2) ∈ t.nodes := by rw [hn, ← heq]; simp
      exact absurd (hh.key_of_addr hy hp) (ne_of_lt hlt)

theorem rtraverse_loop_spec {h : Heap T} {s : persistent_set} {t : Tree T} (hh : Holds h s t)
    (fuel : Nat) (hf : t.height < fuel) :
    ∀ (rpre post : List (Nat × T)) (n : Nat), t.nodes = rpre.reverse ++ post →
      rpre.length < n →
      rtraverse_loop fuel h s ⟨make_iterator (first_ptr t.nodes)⟩ n
        ⟨make_iterator (first_ptr post)⟩ = some (rpre.map Prod.snd) := by
  intro rpre
  induction rpre with
  | nil =>
    intro post n hn hlen
    cases n with
    | zero => simp at hlen
    | succ n =>
      simp only [List.reverse_nil, List.nil_append] at hn
      simp [rtraverse_loop, reverse_iterator.eq, iterator.eq, hn]
  | cons x rpre ih =>
    intro post n hn hlen
    cases n with
    | zero => simp at hlen
    | succ n =>
      have hne : (reverse_iterator.mk (make_iterator (first_ptr post))).eq
          ⟨make_iterator (first_ptr t.nodes)⟩ = false := by
        simp only [reverse_iterator.eq, iterator.eq, make_iterator, decide_eq_false_iff_not]
        exact first_ptr_ne_of_suffix hh rpre post x hn
      have hdec := iterator.decr_spec hh fuel hf rpre post x hn
      have hv : get_value h (.val x.1) = some x.2 :=
        hh.stored.get_value_of_mem_nodes (by rw [hn]; simp)
      have hstar : (reverse_iterator.mk (make_iterator (first_ptr post))).star fuel h s =
          some x.2 := by
        simp only [reverse_iterator.star, hdec]
        exact hv
      have hinc : (reverse_iterator.mk (make_iterator (first_ptr post))).incr fuel h s =
          some ⟨make_iterator (first_ptr (x :: post))⟩ := by
        simp only [reverse_iterator.incr, hdec, Option.map_some']
        rfl
      have hrec := ih (x :: post) n (by rw [hn]; simp)
        (by simp only [List.length_cons] at hlen; omega)
      simp only [rtraverse_loop, hne, hstar, hinc, hrec]
      simp

theorem persistent_set.rtraverse_spec {h : Heap T} {s : persistent_set} {t : Tree T}
    (hh : Holds h s t) (fuel : Nat) (hf : t.keys.length < fuel) :
    s.rtraverse fuel h = some t.keys.reverse := by
  have hht : t.height < fuel := lt_of_le_of_lt t.height_le_length_keys hf
  have hlen : t.nodes.reverse.length < fuel := by
    have : t.nodes.length = t.keys.length := by rw [Tree.keys_eq_map_nodes]; simp
    simp only [List.length_reverse]
    omega
  have := rtraverse_loop_spec hh fuel hht t.nodes.reverse [] fuel (by simp) hlen
  simp only [persistent_set.rtraverse, persistent_set.rend, persistent_set.begin_spec hh fuel hht,
    Option.map_some', persistent_set.rbegin, persistent_set.end_]
  rw [show make_iterator node_ptr.root = make_iterator (first_ptr ([] : List (Nat × T))) from rfl,
    this, Tree.keys_eq_map_nodes, List.map_reverse]

theorem Tree.keys_copy_prefix (t : Tree T) (key : T) :
    ∀ n b, (t.copy_prefix key n b).keys = t.keys := by
  induction t with
  | leaf => intro n b; rfl
  | node l a v r ihl ihr =>
    intro n b
    simp only [Tree.copy_prefix]
    split
    · rfl
    · cases b with
      | zero => rfl
      | succ b1 =>
        simp only
        split
        · simp only [Tree.keys, ihr]
        · simp only [Tree.keys, ihl]

theorem Tree.height_copy_prefix (t : Tree T) (key : T) :
    ∀ n b, (t.copy_prefix key n b).height = t.height := by
  induction t with
  | leaf => intro n b; rfl
  | node l a v r ihl ihr =>
    intro n b
    simp only [Tree.copy_prefix]
    split
    · rfl
    · cases b with
      | zero => rfl
      | succ b1 =>
        simp only
        split
        · simp only [Tree.height, ihr]
        · simp only [Tree.height, ihl]

theorem Tree.BST_copy_prefix {t : Tree T} (hb : t.BST) (key : T) :
    ∀ n b, (t.copy_prefix key n b).BST := by
  induction t with
  | leaf => intro n b; trivial
  | node l a v r ihl ihr =>
    intro n b
    obtain ⟨hl, hr, hlv, hrv⟩ := hb
    simp only [Tree.copy_prefix]
    split
    · exact ⟨hl, hr, hlv, hrv⟩
    · cases b with
      | zero => exact ⟨hl, hr, hlv, hrv⟩
      | succ b1 =>
        simp only
        split
        · exact ⟨hl, ihr hr _ _, hlv, by rw [Tree.keys_copy_prefix]; exact hrv⟩
        · exact ⟨ihl hl _ _, hr, by rw [Tree.keys_copy_prefix]; exact hlv, hrv⟩

theorem copy_path_loop_throwing_spec (key : T) (replace le re : node_ptr_t) (t : Tree T) :
    ∀ (fuel b : Nat) (hc : Heap T) (rc : node_t) (succ : node_ptr) (side : Bool),
      Stored hc t → t.height < fuel →
      (succ = .root ∨ ∃ c, succ = .val c ∧ c < hc.length ∧ c ∉ t.addrs) →
      ∃ out, copy_path_loop_throwing key replace le re fuel b hc rc (sp_get t.ptr) succ side
          = some out ∧
        ∀ w, out = .error w →
          hc.length ≤ w.1.length ∧
          (∀ i, i < hc.length → succ ≠ .val i → w.1[i]? = hc[i]?) ∧
          Stored w.1 (t.copy_prefix key hc.length b) ∧
          (((t.copy_prefix key hc.length b).ptr = t.ptr ∧ w = (hc, rc)) ∨
            (w.2 = link_root rc succ (t.copy_prefix key hc.length b).ptr side ∧
              ∀ c, succ = .val c →
                w.1[c]? = (hc[c]?).map
                  (set_child side (t.copy_prefix key hc.length b).ptr))) := by
  induction t with
  | leaf =>
    intro fuel b hc rc succ side _ hf _
    cases fuel with
    | zero => simp [Tree.height] at hf
    | succ n => exact ⟨_, rfl, fun w hw => by cases hw⟩
  | node l a v r ihl ihr =>
    intro fuel b hc rc succ side hst hf hsucc
    obtain ⟨h1, h2, h3⟩ := hst
    cases fuel with
    | zero => simp [Tree.height] at hf
    | succ n =>
      simp only [Tree.height] at hf
      rw [show sp_get (Tree.node l a v r).ptr = .val a from rfl]
      simp only [copy_path_loop_throwing, h1]
      by_cases hv : v = key
      · simp only [hv, if_true]
        exact ⟨_, rfl, fun w hw => by cases hw⟩
      · cases b with
        | zero =>
          simp only [hv, if_false]
          refine ⟨_, rfl, ?_⟩
          intro w hw
          cases hw
          refine ⟨le_refl _, fun _ _ _ => rfl, ?_, Or.inl ⟨?_, rfl⟩⟩
          · simp only [Tree.copy_prefix, hv, if_false]
            exact ⟨h1, h2, h3⟩
          · simp only [Tree.copy_prefix, hv, if_false]
        | succ b1 =>
          have haddr : ∀ x ∈ (Tree.node l a v r).addrs, x < hc.length :=
            Stored.addr_lt (t := Tree.node l a v r) ⟨h1, h2, h3⟩
          have hold : ∀ x ∈ (Tree.node l a v r).addrs, ∀ q sd,
              (link (hc ++ [(⟨l.ptr, r.ptr, v⟩ : val_node_t T)]) rc succ q sd).1[x]? =
                hc[x]? := by
            intro x hx q sd
            rw [link_append_getElem? _ _ _ _ _ _ _ (haddr x hx), link_getElem?,
              if_neg (succ_ne_of_not_mem hsucc x hx)]
          have hnew : ∀ q sd,
              (link (hc ++ [(⟨l.ptr, r.ptr, v⟩ : val_node_t T)]) rc succ q sd).1[hc.length]? =
                some ⟨l.ptr, r.ptr, v⟩ := by
            intro q sd
            exact link_append_getElem?_new _ _ _ _ _ _ (succ_ne_of_le hsucc _ (le_refl _))
          have hlen2 : ∀ q sd,
              (link (hc ++ [(⟨l.ptr, r.ptr, v⟩ : val_node_t T)]) rc succ q sd).1.length =
                hc.length + 1 := by
            intro q sd
            rw [link_length]; simp
          have hrA : ∀ x ∈ r.addrs, x ∈ (Tree.node l a v r).addrs := by
            intro x hx; simp [Tree.addrs, hx]
          have hlA : ∀ x ∈ l.addrs, x ∈ (Tree.node l a v r).addrs := by
            intro x hx; simp [Tree.addrs, hx]
          rcases lt_or_gt_of_ne hv with hlt | hgt
          · simp only [hv, hlt, if_true, if_false, make_shared]
            obtain ⟨out, hout, hspec⟩ :=
              ihr n b1 (link (hc ++ [⟨l.ptr, r.ptr, v⟩]) rc succ (some hc.length) side).1
                (link (hc ++ [⟨l.ptr, r.ptr, v⟩]) rc succ (some hc.length) side).2
                (.val hc.length) true
                (h3.congr (fun x hx => hold x (hrA x hx) _ _))
                (by omega)
                (Or.inr ⟨hc.length, rfl, by rw [hlen2]; omega,
                  fun hx => absurd (haddr _ (hrA _ hx)) (lt_irrefl _)⟩)
            refine ⟨out, hout, ?_⟩
            intro w hw
            obtain ⟨hwlen, hwframe, hwst, hwd⟩ := hspec w hw
            rw [hlen2] at hwlen hwframe hwst hwd
            have hcell : w.1[hc.length]? =
                some ⟨l.ptr, (r.copy_prefix key (hc.length + 1) b1).ptr, v⟩ := by
              rcases hwd with ⟨hp, rfl⟩ | ⟨_, hcl⟩
              · rw [hnew, hp]
              · rw [hcl _ rfl, hnew]; rfl
            have hframe : ∀ i, i < hc.length → succ ≠ .val i → w.1[i]? = hc[i]? := by
              intro i hi hne
              rw [hwframe i (by omega) (by intro h; cases h; omega),
                link_append_getElem? _ _ _ _ _ _ _ hi, link_getElem?, if_neg hne]
            refine ⟨by omega, hframe, ?_, Or.inr ⟨?_, ?_⟩⟩
            · simp only [Tree.copy_prefix, hv, hlt, if_true, if_false]
              refine ⟨hcell, ?_, hwst⟩
              exact h2.congr (fun x hx =>
                hframe x (haddr x (hlA x hx)) (succ_ne_of_not_mem hsucc x (hlA x hx)))
            · simp only [Tree.copy_prefix, hv, hlt, if_true, if_false, Tree.ptr]
              rcases hwd with ⟨_, rfl⟩ | ⟨hr2, _⟩
              · rw [link_snd]
              · rw [hr2, link_snd]; rfl
            · intro c hc'
              simp only [Tree.copy_prefix, hv, hlt, if_true, if_false, Tree.ptr]
              have hclt : c < hc.length := by
                rcases hsucc with h | ⟨c', h, hlt', _⟩
                · rw [h] at hc'; cases hc'
                · rw [h] at hc'; cases hc'; exact hlt'
              rw [hwframe c (by omega) (by intro h; cases h; omega),
                link_append_getElem? _ _ _ _ _ _ _ hclt, link_getElem?, if_pos hc']
          · have hnlt : ¬ v < key := not_lt.mpr (le_of_lt hgt)
            simp only [hv, hnlt, hgt, if_true, if_false, make_shared]
            obtain ⟨out, hout, hspec⟩ :=
              ihl n b1 (link (hc ++ [⟨l.ptr, r.ptr, v⟩]) rc succ (some hc.length) side).1
                (link (hc ++ [⟨l.ptr, r.ptr, v⟩]) rc succ (some hc.length) side).2
                (.val hc.length) false
                (h2.congr (fun x hx => hold x (hlA x hx) _ _))
                (by omega)
                (Or.inr ⟨hc.length, rfl, by rw [hlen2]; omega,
                  fun hx => absurd (haddr _ (hlA _ hx)) (lt_irrefl _)⟩)
            refine ⟨out, hout, ?_⟩
            intro w hw
            obtain ⟨hwlen, hwframe, hwst, hwd⟩ := hspec w hw
            rw [hlen2] at hwlen hwframe hwst hwd
            have hcell : w.1[hc.length]? =
                some ⟨(l.copy_prefix key (hc.length + 1) b1).ptr, r.ptr, v⟩ := by
              rcases hwd with ⟨hp, rfl⟩ | ⟨_, hcl⟩
              · rw [hnew, hp]
              · rw [hcl _ rfl, hnew]; rfl
            have hframe : ∀ i, i < hc.length → succ ≠ .val i → w.1[i]? = hc[i]? := by
              intro i hi hne
              rw [hwframe i (by omega) (by intro h; cases h; omega),
                link_append_getElem? _ _ _ _ _ _ _ hi, link_getElem?, if_neg hne]
            refine ⟨by omega, hframe, ?_, Or.inr ⟨?_, ?_⟩⟩
            · simp only [Tree.copy_prefix, hv, hnlt, if_false]
              refine ⟨hcell, hwst, ?_⟩
              exact h3.congr (fun x hx =>
                hframe x (haddr x (hrA x hx)) (succ_ne_of_not_mem hsucc x (hrA x hx)))
            · simp only [Tree.copy_prefix, hv, hnlt, if_false, Tree.ptr]
              rcases hwd with ⟨_, rfl⟩ | ⟨hr2, _⟩
              · rw [link_snd]
              · rw [hr2, link_snd]; rfl
            · intro c hc'
              simp only [Tree.copy_prefix, hv, hnlt, if_false, Tree.ptr]
              have hclt : c < hc.length := by
                rcases hsucc with h | ⟨c', h, hlt', _⟩
                · rw [h] at hc'; cases hc'
                · rw [h] at hc'; cases hc'; exact hlt'
              rw [hwframe c (by omega) (by intro h; cases h; omega),
                link_append_getElem? _ _ _ _ _ _ _ hclt, link_getElem?, if_pos hc']

theorem persistent_set.copy_path_throwing_spec {h : Heap T} {s : persistent_set} {t : Tree T}
    (hh : Holds h s t) (key : T) (replace le re : node_ptr_t) (fuel b : Nat)
    (hf : t.height < fuel) :
    ∃ out, s.copy_path_throwing fuel b h key replace le re = some out ∧
      ∀ w, out = .error w →
        Holds w.1 w.2 (t.copy_prefix key h.length b) ∧ w.2.size_ = s.size_ := by
  obtain ⟨out, hout, hspec⟩ :=
    copy_path_loop_throwing_spec key replace le re t fuel b h s.root .root false hh.stored hf
      (Or.inl rfl)
  rw [← hh.left] at hout
  cases out with
  | ok w =>
    refine ⟨.ok ((w.1.1, { s with root := w.1.2 }), w.2), ?_, fun w hw => by cases hw⟩
    simp only [persistent_set.copy_path_throwing, hout]
  | error w0 =>
    refine ⟨.error (w0.1, { s with root := w0.2 }), ?_, ?_⟩
    · simp only [persistent_set.copy_path_throwing, hout]
    intro w hw
    cases hw
    obtain ⟨_, _, hst, hd⟩ := hspec w0 rfl
    refine ⟨⟨hst, ?_, Tree.BST_copy_prefix hh.bst key _ _⟩, rfl⟩
    show w0.2.left = _
    rcases hd with ⟨hp, rfl⟩ | ⟨hr, _⟩
    · rw [hp]; exact hh.left
    · rw [hr]; rfl

theorem Holds.find_end_iff {h : Heap T} {s : persistent_set} {t : Tree T} (hh : Holds h s t)
    (q : T) (fuel : Nat) (hf : t.height < fuel) :
    ∃ it, s.find fuel h q = some it ∧ (it.eq s.end_ = true ↔ q ∉ t.keys) :=
  ⟨_, persistent_set.find_spec hh q fuel hf, by
    rw [iterator_eq_end_iff, Tree.lookup_eq_root_iff hh.bst]⟩

theorem copy_path_loop_throwing_of_budget (key : T) (replace le re : node_ptr_t) :
    ∀ (fuel b : Nat) (hc : Heap T) (rc : node_t) (cur succ : node_ptr) (side : Bool)
      (w : Heap T × node_t),
      copy_path_loop key replace le re fuel hc rc cur succ side = some w → fuel ≤ b →
      ∃ b1, copy_path_loop_throwing key replace le re fuel b hc rc cur succ side
        = some (.ok (w, b1)) := by
  intro fuel
  induction fuel with
  | zero => intro b hc rc cur succ side w hw; simp [copy_path_loop] at hw
  | succ n ih =>
    intro b hc rc cur succ side w hw hb
    cases cur with
    | null =>
      simp only [copy_path_loop, Option.some.injEq] at hw
      exact ⟨b, by simp only [copy_path_loop_throwing, hw]⟩
    | root => simp [copy_path_loop] at hw
    | val a =>
      simp only [copy_path_loop, copy_path_loop_throwing] at hw ⊢
      cases hcell : hc[a]? with
      | none => rw [hcell] at hw; simp at hw
      | some nd =>
        rw [hcell] at hw
        simp only at hw ⊢
        by_cases hv : nd.value = key
        · simp only [hv, if_true, Option.some.injEq] at hw ⊢
          exact ⟨b, by rw [hw]⟩
        · simp only [hv, if_false] at hw ⊢
          cases b with
          | zero => omega
          | succ b1 =>
            simp only
            split
            · next hlt =>
              simp only [hlt, if_true] at hw
              exact ih b1 _ _ _ _ _ w hw (by omega)
            · next hnlt =>
              simp only [hnlt, if_false] at hw
              split
              · next hgt =>
                simp only [hgt, if_true] at hw
                exact ih b1 _ _ _ _ _ w hw (by omega)
              · next hngt =>
                simp only [hngt, if_false] at hw
                exact ih b1 _ _ _ _ _ w hw (by omega)

/-- With a budget above the fuel no construction throws: `insert_throwing` returns what
`insert` returns. -/
theorem persistent_set.insert_throwing_of_budget (fuel b : Nat) (h : Heap T)
    (s : persistent_set) (key : T) (r : Heap T × persistent_set × iterator × Bool)
    (hr : s.insert fuel h key = some r) (hb : fuel < b) :
    s.insert_throwing fuel b h key = some (.ok r) := by
  simp only [persistent_set.insert, persistent_set.insert_throwing] at hr ⊢
  cases hfind : s.find fuel h key with
  | none => rw [hfind] at hr; simp at hr
  | some it =>
    rw [hfind] at hr
    simp only at hr ⊢
    by_cases hit : it.eq s.end_ = false
    · simp only [hit, if_true, Option.some.injEq] at hr ⊢
      rw [hr]
    · simp only [hit, if_false] at hr ⊢
      cases b with
      | zero => omega
      | succ b1 =>
        simp only [persistent_set.copy_path, persistent_set.copy_path_throwing] at hr ⊢
        cases hloop : copy_path_loop key (some (make_shared h ⟨none, none, key⟩).2) none none
            fuel (make_shared h ⟨none, none, key⟩).1 s.root (sp_get s.root.left) .root false with
        | none => rw [hloop] at hr; simp at hr
        | some w =>
          rw [hloop] at hr
          obtain ⟨b2, hthrow⟩ := copy_path_loop_throwing_of_budget key _ none none fuel b1 _ _ _
            _ _ w hloop (by omega)
          rw [hthrow]
          simp only [Option.map_some', Bool.true_eq_false, if_false, Option.some.injEq] at hr ⊢
          rw [← hr]

theorem Tree.path_keys_length_le_height (t : Tree T) (key : T) :
    (t.path_keys key).length ≤ t.height := by
  induction t with
  | leaf => simp [Tree.path_keys]
  | node l a v r ihl ihr =>
    simp only [Tree.path_keys, Tree.height]
    split
    · simp
    · split
      · simp only [List.length_cons]; omega
      · simp only [List.length_cons]; omega

theorem copy_path_loop_length (key : T) (replace le re : node_ptr_t) (t : Tree T) :
    ∀ (fuel : Nat) (hc : Heap T) (rc : node_t) (succ : node_ptr) (side : Bool),
      Stored hc t →
      (succ = .root ∨ ∃ c, succ = .val c ∧ c < hc.length ∧ c ∉ t.addrs) →
      ∀ w, copy_path_loop key replace le re fuel hc rc (sp_get t.ptr) succ side = some w →
        w.1.length = hc.length + (t.path_keys key).length := by
  induction t with
  | leaf =>
    intro fuel hc rc succ side _ _ w hw
    cases fuel with
    | zero => simp [copy_path_loop] at hw
    | succ n =>
      rw [show sp_get (Tree.leaf : Tree T).ptr = .null from rfl] at hw
      simp only [copy_path_loop, Option.some.injEq] at hw
      rw [← hw, copy_path_finish_length]
      simp [Tree.path_keys]
  | node l a v r ihl ihr =>
    intro fuel hc rc succ side hst hsucc w hw
    obtain ⟨h1, h2, h3⟩ := hst
    cases fuel with
    | zero => simp [copy_path_loop] at hw
    | succ n =>
      rw [show sp_get (Tree.node l a v r).ptr = .val a from rfl] at hw
      simp only [copy_path_loop, h1] at hw
      by_cases hv : v = key
      · simp only [hv, if_true, Option.some.injEq] at hw
        rw [← hw, copy_path_finish_length]
        simp [Tree.path_keys, hv]
      · have haddr : ∀ x ∈ (Tree.node l a v r).addrs, x < hc.length :=
          Stored.addr_lt (t := Tree.node l a v r) ⟨h1, h2, h3⟩
        have hold : ∀ x ∈ (Tree.node l a v r).addrs, ∀ q sd,
            (link (hc ++ [(⟨l.ptr, r.ptr, v⟩ : val_node_t T)]) rc succ q sd).1[x]? = hc[x]? := by
          intro x hx q sd
          rw [link_append_getElem? _ _ _ _ _ _ _ (haddr x hx), link_getElem?,
            if_neg (succ_ne_of_not_mem hsucc x hx)]
        have hlen2 : ∀ q sd,
            (link (hc ++ [(⟨l.ptr, r.ptr, v⟩ : val_node_t T)]) rc succ q sd).1.length =
              hc.length + 1 := by
          intro q sd
          rw [link_length]; simp
        have hrA : ∀ x ∈ r.addrs, x ∈ (Tree.node l a v r).addrs := by
          intro x hx; simp [Tree.addrs, hx]
        have hlA : ∀ x ∈ l.addrs, x ∈ (Tree.node l a v r).addrs := by
          intro x hx; simp [Tree.addrs, hx]
        rcases lt_or_gt_of_ne hv with hlt | hgt
        · simp only [hv, hlt, if_true, if_false, make_shared] at hw
          have := ihr n _ _ _ _ (h3.congr (fun x hx => hold x (hrA x hx) _ _))
            (Or.inr ⟨hc.length, rfl, by rw [hlen2]; omega,
              fun hx => absurd (haddr _ (hrA _ hx)) (lt_irrefl _)⟩) w hw
          rw [this, hlen2]
          simp only [Tree.path_keys, hv, hlt, if_true, if_false, List.length_cons]
          omega
        · have hnlt : ¬ v < key := not_lt.mpr (le_of_lt hgt)
          simp only [hv, hnlt, hgt, if_true, if_false, make_shared] at hw
          have := ihl n _ _ _ _ (h2.congr (fun x hx => hold x (hlA x hx) _ _))
            (Or.inr ⟨hc.length, rfl, by rw [hlen2]; omega,
              fun hx => absurd (haddr _ (hlA _ hx)) (lt_irrefl _)⟩) w hw
          rw [this, hlen2]
          simp only [Tree.path_keys, hv, hnlt, if_true, if_false, List.length_cons]
          omega

theorem Tree.off_trees_copy_path (t : Tree T) (key : T) (R : Tree T)
    (hR : R.off_trees key = []) :
    ∀ n, (t.copy_path key R n).off_trees key = t.off_trees key := by
  induction t with
  | leaf => intro n; simpa [Tree.copy_path, Tree.off_trees] using hR
  | node l a v r ihl ihr =>
    intro n
    by_cases hv : v = key
    · simpa [Tree.copy_path, Tree.off_trees, hv] using hR
    · by_cases hlt : v < key
      · simp [Tree.copy_path, Tree.off_trees, hv, hlt, ihr]
      · simp [Tree.copy_path, Tree.off_trees, hv, hlt, ihl]

theorem Stored.clone_keys {h : Heap T} (key : T) (R : Tree T) (t : Tree T) :
    ∀ n, Stored h (t.copy_path key R n) →
      ∀ j v, (t.path_keys key)[j]? = some v → ∃ l r, h[n + j]? = some ⟨l, r, v⟩ := by
  induction t with
  | leaf => intro n _ j v hj; simp [Tree.path_keys] at hj
  | node l a v r ihl ihr =>
    intro n hst j x hj
    by_cases hv : v = key
    · simp [Tree.path_keys, hv] at hj
    · by_cases hlt : v < key
      · simp only [Tree.copy_path, hv, hlt, if_true, if_false] at hst
        simp only [Tree.path_keys, hv, hlt, if_true, if_false] at hj
        obtain ⟨h1, _, h3⟩ := hst
        cases j with
        | zero =>
          simp only [List.getElem?_cons_zero, Option.some.injEq] at hj
          subst hj
          exact ⟨_, _, h1⟩
        | succ j =>
          simp only [List.getElem?_cons_succ] at hj
          obtain ⟨l1, r1, hc⟩ := ihr (n + 1) h3 j x hj
          exact ⟨l1, r1, by rw [← hc]; congr 1; omega⟩
      · simp only [Tree.copy_path, hv, hlt, if_true, if_false] at hst
        simp only [Tree.path_keys, hv, hlt, if_true, if_false] at hj
        obtain ⟨h1, h2, _⟩ := hst
        cases j with
        | zero =>
          simp only [List.getElem?_cons_zero, Option.some.injEq] at hj
          subst hj
          exact ⟨_, _, h1⟩
        | succ j =>
          simp only [List.getElem?_cons_succ] at hj
          obtain ⟨l1, r1, hc⟩ := ihl (n + 1) h2 j x hj
          exact ⟨l1, r1, by rw [← hc]; congr 1; omega⟩

theorem persistent_set.insert_length {h : Heap T} {s : persistent_set} {t : Tree T}
    (hh : Holds h s t) (key : T) (fuel : Nat) (h1 : Heap T) (s1 : persistent_set)
    (it : iterator) (hi : s.insert fuel h key = some (h1, s1, it, true)) :
    h1.length = h.length + 1 + (t.path_keys key).length := by
  have hst1 : Stored (h ++ [(⟨none, none, key⟩ : val_node_t T)]) t :=
    hh.stored.congr (fun a ha => List.getElem?_append_left (hh.stored.addr_lt a ha))
  simp only [persistent_set.insert] at hi
  rcases hfd : s.find fuel h key with _ | it0
  · simp [hfd] at hi
  · simp only [hfd] at hi
    split at hi
    · simp at hi
    · simp only [make_shared, persistent_set.copy_path] at hi
      rcases hl : copy_path_loop key (some h.length) none none fuel
          (h ++ [(⟨none, none, key⟩ : val_node_t T)]) s.root (sp_get s.root.left) .root false
        with _ | w
      · simp [hl] at hi
      · simp only [hl, Option.map] at hi
        rw [hh.left] at hl
        have := copy_path_loop_length key (some h.length) none none t fuel _ _ _ _ hst1
          (Or.inl rfl) w hl
        simp only [Option.some.injEq, Prod.mk.injEq] at hi
        rw [← hi.1, this]
        simp

theorem less_ill_formed (first second : tuple T) :
    ∀ (depth I : Nat), first.length - I < depth →
      less first second depth I = some .ill_formed := by
  intro depth
  induction depth with
  | zero =>
    intro I hI
    omega
  | succ d ih =>
    intro I hI
    rcases hf : first[I]? with _ | a
    · simp only [less, tuple_get, hf]
    · have hlt : I < first.length := by
        by_contra hc
        rw [List.getElem?_eq_none (by omega)] at hf
        cases hf
      rcases hs : second[I]? with _ | b
      · simp only [less, tuple_get, hf, hs]
      · simp only [less, tuple_get, hf, hs, ih (I + 1) (by omega)]

/-! ## The claims -/

/-- C1. Let `a` be built from a default-constructed set by inserts, `b` a copy of `a` (copy
constructed, or copy assigned over any set), and `x` a key not stored in `a`. Then `a.insert(x)`
returns, and afterwards `b.find(x) == b.end()`, `a.find(x) != a.end()`, and the traversal of `b`
yields the same keys as before the insert. -/
theorem insert_persistence (ks : List T) (x : T) (hx : x ∉ ks) (fuel : Nat)
    (hf : ks.length + 1 < fuel) :
    ∃ h a h1 a1 r, build fuel ks = some (h, a) ∧ a.insert fuel h x = some (h1, a1, r) ∧
      (∃ it, a1.find fuel h1 x = some it ∧ it.eq a1.end_ = false) ∧
      ∀ b : persistent_set,
        (b = a.copy_construct ∨ ∃ b0 : persistent_set, b = b0.copy_assign a) →
        (∃ it, b.find fuel h1 x = some it ∧ it.eq b.end_ = true) ∧
        (∃ L, b.traverse fuel h = some L ∧ b.traverse fuel h1 = some L) := by
  obtain ⟨h, a, t, hb, hh, _, hm, _, hl, _⟩ := build_spec fuel ks (by omega)
  have hht : t.height < fuel := by
    have := t.height_le_length_keys
    omega
  have hxt : x ∉ t.keys := fun hc => hx ((hm x).mp hc)
  obtain ⟨h1, a1, hins, hh1, _, _, _, hframe⟩ := persistent_set.insert_new hh hxt fuel hht
  have hht1 : (t.copy_path x (.node .leaf h.length x .leaf) (h.length + 1)).height < fuel := by
    have := Tree.height_copy_path_le t x (.node .leaf h.length x .leaf) (h.length + 1)
    simp only [Tree.height] at this
    have := t.height_le_length_keys
    omega
  refine ⟨h, a, h1, a1, _, hb, hins, ⟨_, persistent_set.find_spec hh1 x fuel hht1, ?_⟩, ?_⟩
  · rw [iterator_eq_end_false_iff, Tree.lookup_copy_path]
    simp [Tree.lookup]
  · intro b hbc
    have hroot := copy_root_eq hbc
    have hhb : Holds h b t := hh.of_root_eq hroot
    have hhb1 : Holds h1 b t := hhb.frame hframe
    refine ⟨⟨_, persistent_set.find_spec hhb1 x fuel hht, ?_⟩, t.keys, ?_, ?_⟩
    · rw [iterator_eq_end_iff, Tree.lookup_eq_root_iff hh.bst]; exact hxt
    · exact persistent_set.traverse_spec hhb fuel (by omega)
    · exact persistent_set.traverse_spec hhb1 fuel (by omega)

theorem insert_persistence_witness :
    (4 ∉ ([2, 1, 3] : List Nat)) ∧ ([2, 1, 3] : List Nat).length + 1 < 5 ∧
    ∃ h a h1 a1 r, build 5 ([2, 1, 3] : List Nat) = some (h, a) ∧
      a.insert 5 h 4 = some (h1, a1, r) ∧
      (∃ it, a1.find 5 h1 4 = some it ∧ it.eq a1.end_ = false) ∧
      ∀ b : persistent_set,
        (b = a.copy_construct ∨ ∃ b0 : persistent_set, b = b0.copy_assign a) →
        (∃ it, b.find 5 h1 4 = some it ∧ it.eq b.end_ = true) ∧
        (∃ L, b.traverse 5 h = some L ∧ b.traverse 5 h1 = some L) :=
  ⟨by decide, by decide, insert_persistence [2, 1, 3] 4 (by decide) 5 (by decide)⟩

/-- C2 fails on the code. Insert 1, 2, 3, copy the set, then erase 1 from the original: the node
of 1 has the single child 2, which `copy_path` links in place of 1 and whose children it
overwrites with null. That node is shared with the copy, whose traversal drops from 1, 2, 3
(before the erase) to 1, 2 (after it). -/
theorem erase_changes_copy :
    (build 5 ([1, 2, 3] : List Nat)).bind (fun w =>
      (w.2.erase_key 5 w.1 1).bind (fun w1 =>
        (w.2.copy_construct.traverse 5 w.1).bind (fun before =>
          (w.2.copy_construct.traverse 5 w1.1).map (fun after => (before, after)))))
      = some ([1, 2, 3], [1, 2]) := by
  decide

/-- C3. After inserting a sequence of distinct keys (fewer than `2 ^ 64` of them) into a
default-constructed set, stepping from `begin()` with `++` until `end()` returns a list that is
strictly increasing, is a permutation of the inserted keys, and has `size()` elements. -/
theorem sorted_traversal (ks : List T) (hnd : ks.Nodup) (fuel : Nat) (hf : ks.length < fuel)
    (hsz : ks.length < SIZE_MOD) :
    ∃ h s L, build fuel ks = some (h, s) ∧ s.traverse fuel h = some L ∧
      L.Sorted (· < ·) ∧ L.Perm ks ∧ L.length = s.size := by
  obtain ⟨h, s, t, hb, hh, _, hm, hs, hl, hn⟩ := build_spec fuel ks hf
  have hsorted := hh.bst.sorted_keys
  refine ⟨h, s, t.keys, hb, persistent_set.traverse_spec hh fuel (by omega), hsorted, ?_, ?_⟩
  · exact (List.perm_ext_iff_of_nodup hsorted.nodup hnd).mpr hm
  · rw [persistent_set.size, hs, hn hnd, Nat.mod_eq_of_lt hsz]

theorem sorted_traversal_witness :
    ([3, 1, 4, 2, 5] : List Nat).Nodup ∧ ([3, 1, 4, 2, 5] : List Nat).length < 6 ∧
    ([3, 1, 4, 2, 5] : List Nat).length < SIZE_MOD ∧
    ∃ h s L, build 6 ([3, 1, 4, 2, 5] : List Nat) = some (h, s) ∧ s.traverse 6 h = some L ∧
      L.Sorted (· < ·) ∧ L.Perm [3, 1, 4, 2, 5] ∧ L.length = s.size :=
  ⟨by decide, by decide, by decide,
    sorted_traversal [3, 1, 4, 2, 5] (by decide) 6 (by decide) (by decide)⟩

/-- C4. Let `s` be built from a default-constructed set by inserting the keys `ks` (fewer than
`2 ^ 64 - 1` of them), and let `k` be a key with `s.find(k) == s.end()`. Then `s.insert(k)`
returns `(it, true)` where `*it == k` and `it == s.find(k)` evaluated afterwards, `size()` has
grown by exactly one, and every key inserted before is still found. -/
theorem insert_new_key (ks : List T) (k : T) (fuel : Nat) (hf : ks.length + 1 < fuel)
    (hsz : ks.length + 1 < SIZE_MOD) (h : Heap T) (s : persistent_set)
    (hb : build fuel ks = some (h, s)) (it0 : iterator) (hfind : s.find fuel h k = some it0)
    (hend : it0.eq s.end_ = true) :
    ∃ h1 s1 it, s.insert fuel h k = some (h1, s1, it, true) ∧
      it.star h1 = some k ∧
      (∃ it1, s1.find fuel h1 k = some it1 ∧ it.eq it1 = true) ∧
      s1.size = s.size + 1 ∧
      ∀ q ∈ ks, ∃ itq, s1.find fuel h1 q = some itq ∧ itq.eq s1.end_ = false := by
  obtain ⟨h', s', t, hb', hh, _, hm, hs, hl, _⟩ := build_spec fuel ks (by omega)
  rw [hb] at hb'
  cases hb'
  have hht : t.height < fuel := by
    have := t.height_le_length_keys
    omega
  have hkt : k ∉ t.keys := by
    rw [persistent_set.find_spec hh k fuel hht] at hfind
    cases hfind
    rw [iterator_eq_end_iff] at hend
    exact (Tree.lookup_eq_root_iff hh.bst k).mp hend
  obtain ⟨h1, s1, hins, hh1, _, hs1, _, hframe⟩ := persistent_set.insert_new hh hkt fuel hht
  have hht1 : (t.copy_path k (.node .leaf h.length k .leaf) (h.length + 1)).height < fuel := by
    have := Tree.height_copy_path_le t k (.node .leaf h.length k .leaf) (h.length + 1)
    simp only [Tree.height] at this
    have := t.height_le_length_keys
    omega
  have hlook : (t.copy_path k (.node .leaf h.length k .leaf) (h.length + 1)).lookup k =
      .val h.length := by
    rw [Tree.lookup_copy_path]; simp [Tree.lookup]
  refine ⟨h1, s1, _, hins, ?_, ⟨_, persistent_set.find_spec hh1 k fuel hht1, ?_⟩, ?_, ?_⟩
  · have := hh1.find_star (q := k)
      (by rw [Tree.mem_keys_copy_path hkt]; simp [Tree.keys])
    rw [hlook] at this
    exact this
  · rw [hlook]; simp [iterator.eq]
  · rw [persistent_set.size, persistent_set.size, hs1, hs, size_inc_mod,
      Nat.mod_eq_of_lt (by omega), Nat.mod_eq_of_lt (by omega)]
  · intro q hq
    refine ⟨_, persistent_set.find_spec hh1 q fuel hht1, ?_⟩
    rw [iterator_eq_end_false_iff, Ne, Tree.lookup_eq_root_iff hh1.bst, not_not,
      Tree.mem_keys_copy_path hkt]
    exact Or.inr ((hm q).mpr hq)

theorem insert_new_key_witness :
    ∃ h s it0, build 5 ([2, 1, 3] : List Nat) = some (h, s) ∧ s.find 5 h 4 = some it0 ∧
      it0.eq s.end_ = true ∧
      ∃ h1 s1 it, s.insert 5 h 4 = some (h1, s1, it, true) ∧
        it.star h1 = some 4 ∧
        (∃ it1, s1.find 5 h1 4 = some it1 ∧ it.eq it1 = true) ∧
        s1.size = s.size + 1 ∧
        ∀ q ∈ ([2, 1, 3] : List Nat), ∃ itq, s1.find 5 h1 q = some itq ∧
          itq.eq s1.end_ = false :=
  ⟨_, _, _, rfl, rfl, rfl,
    insert_new_key [2, 1, 3] 4 5 (by decide) (by decide) _ _ rfl _ rfl rfl⟩

/-- C5. In a set built from a default-constructed set by inserting the keys `ks`, `find(q)`
returns; the result differs from `end()` exactly when `q` is one of the inserted keys, in which
case it dereferences to `q`; otherwise it is `end()`. -/
theorem find_is_membership (ks : List T) (q : T) (fuel : Nat) (hf : ks.length < fuel) :
    ∃ h s it, build fuel ks = some (h, s) ∧ s.find fuel h q = some it ∧
      (it.eq s.end_ = false ↔ q ∈ ks) ∧
      (q ∈ ks → it.star h = some q) ∧
      (q ∉ ks → it.eq s.end_ = true) := by
  obtain ⟨h, s, t, hb, hh, _, hm, _, hl, _⟩ := build_spec fuel ks hf
  have hht : t.height < fuel := by
    have := t.height_le_length_keys
    omega
  refine ⟨h, s, _, hb, persistent_set.find_spec hh q fuel hht, ?_, ?_, ?_⟩
  · rw [iterator_eq_end_false_iff, Ne, Tree.lookup_eq_root_iff hh.bst, not_not, hm]
  · intro hq
    exact hh.find_star ((hm q).mpr hq)
  · intro hq
    rw [iterator_eq_end_iff, Tree.lookup_eq_root_iff hh.bst, hm]
    exact hq

theorem find_is_membership_witness :
    (([3, 1, 2] : List Nat).length < 4) ∧
    ∃ h s it, build 4 ([3, 1, 2] : List Nat) = some (h, s) ∧ s.find 4 h 2 = some it ∧
      (it.eq s.end_ = false ↔ 2 ∈ ([3, 1, 2] : List Nat)) ∧
      (2 ∈ ([3, 1, 2] : List Nat) → it.star h = some 2) ∧
      (2 ∉ ([3, 1, 2] : List Nat) → it.eq s.end_ = true) :=
  ⟨by decide, find_is_membership [3, 1, 2] 2 4 (by decide)⟩

/-- C6. Let `s` be built from a default-constructed set by inserting the keys `ks` (fewer than
`2 ^ 64` of them), and let `k` be one of them. Then `find(k)` and `erase(find(k))` return, and
afterwards `find(k) == end()` and `size()` is exactly one less than before, whether the node of
`k` had at most one child or two. -/
theorem erase_then_find (ks : List T) (k : T) (hk : k ∈ ks) (fuel : Nat)
    (hf : 2 * ks.length + 3 ≤ fuel) (hsz : ks.length < SIZE_MOD) :
    ∃ h s it h1 s1 r, build fuel ks = some (h, s) ∧ s.find fuel h k = some it ∧
      s.erase fuel h it = some (h1, s1, r) ∧
      s1.find fuel h1 k = some s1.end_ ∧ s1.size + 1 = s.size := by
  obtain ⟨h, s, t, hb, hh, _, hm, hs, hl, _⟩ := build_spec fuel ks (by omega)
  have hht := t.height_le_length_keys
  have hkt : k ∈ t.keys := (hm k).mpr hk
  obtain ⟨l, a, r, hsub⟩ := Tree.subtree_at_of_mem hh.bst hkt
  have hfind : s.find fuel h k = some (make_iterator (.val a)) := by
    rw [persistent_set.find_spec hh k fuel (by omega), Tree.lookup_eq_subtree_at, hsub]
    rfl
  have hpos : 0 < t.keys.length := List.length_pos_of_mem hkt
  have hsize : s.size_ = t.keys.length := by
    rw [hs, Nat.mod_eq_of_lt (by omega)]
  by_cases hlr : l = .leaf ∨ r = .leaf
  · obtain ⟨h1, s1, res, he, hs1, hf1, _⟩ := erase_simple_spec hh hsub hlr (fuel - 1) (by omega)
    rw [show fuel - 1 + 1 = fuel by omega] at he
    refine ⟨h, s, _, h1, s1, res, hb, hfind, he, hf1 fuel (by omega), ?_⟩
    rw [persistent_set.size, persistent_set.size, hs1,
      size_dec_of_pos (by omega) (by omega)]
    omega
  · rw [not_or] at hlr
    obtain ⟨h3, s3, res, he, hs3, hf3⟩ := erase_two_spec hh hsub hlr.1 hlr.2 (fuel - 2) (by omega)
    rw [show fuel - 2 + 2 = fuel by omega] at he
    refine ⟨h, s, _, h3, s3, res, hb, hfind, he, hf3 fuel (by omega), ?_⟩
    rw [persistent_set.size, persistent_set.size, hs3,
      size_dec_of_pos (n := s.size_) (by omega) (by omega),
      size_inc_of_lt (by omega), show s.size_ - 1 + 1 = s.size_ by omega,
      size_dec_of_pos (by omega) (by omega)]
    omega

theorem erase_then_find_witness :
    (3 ∈ ([3, 1, 4, 2, 5] : List Nat)) ∧ 2 * ([3, 1, 4, 2, 5] : List Nat).length + 3 ≤ 13 ∧
    ([3, 1, 4, 2, 5] : List Nat).length < SIZE_MOD ∧
    ∃ h s it h1 s1 r, build 13 ([3, 1, 4, 2, 5] : List Nat) = some (h, s) ∧
      s.find 13 h 3 = some it ∧ s.erase 13 h it = some (h1, s1, r) ∧
      s1.find 13 h1 3 = some s1.end_ ∧ s1.size + 1 = s.size :=
  ⟨by decide, by decide, by decide,
    erase_then_find [3, 1, 4, 2, 5] 3 (by decide) 13 (by decide) (by decide)⟩

/-- C7 fails on the code. Insert 1, 2, 3 and erase 1, whose node has exactly one child:
afterwards `find(3)` is `end()` and the traversal is just 2, because the surviving child 2 has
lost its own right subtree. The result lists: whether the erased node had one child, whether
`find(3)` is `end()` afterwards, and the traversal afterwards. -/
theorem erase_one_child_drops_grandchild :
    (build 5 ([1, 2, 3] : List Nat)).bind (fun w =>
      (w.2.find 5 w.1 1).bind (fun it =>
        (deref w.1 w.2.root it.ptr).bind (fun nd =>
          (w.2.erase 5 w.1 it).bind (fun w1 =>
            (w1.2.1.find 5 w1.1 3).bind (fun it3 =>
              (w1.2.1.traverse 5 w1.1).map (fun after =>
                (has_one_child nd, it3.eq w1.2.1.end_, after)))))))
      = some (true, true, [2]) := by
  decide

/-- C8 fails on the code. Insert 2, 1, 6, 3, 5, 4 and erase 2, whose node has two children: the
returned iterator dereferences to 3, but the traversal afterwards is 1, 3, 5, 6 — the key 4 is
gone, because the inner erase of the successor 3 cut the subtrees of its child 5. The result
lists: whether the erased node was a leaf or had one child, the traversal before, the key
behind the returned iterator, and the traversal afterwards. -/
theorem erase_two_children_drops_key :
    (build 10 ([2, 1, 6, 3, 5, 4] : List Nat)).bind (fun w =>
      (w.2.find 10 w.1 2).bind (fun it =>
        (deref w.1 w.2.root it.ptr).bind (fun nd =>
          (w.2.traverse 10 w.1).bind (fun before =>
            (w.2.erase 10 w.1 it).bind (fun w1 =>
              (w1.2.2.star w1.1).bind (fun v =>
                (w1.2.1.traverse 10 w1.1).map (fun after =>
                  (is_leaf nd || has_one_child nd, before, v, after))))))))
      = some (false, [1, 2, 3, 4, 5, 6], 3, [1, 3, 5, 6]) := by
  decide

/-- C9 fails on the code. Insert 2, 1 and erase 1: the returned iterator designates the node
that held 2 before the erase, which `copy_path` has since replaced by a clone, so it differs
from `find(2)` evaluated on the set after the erase. The result lists the returned pointer, the
pointer of `find(2)` afterwards, and whether the two iterators compare equal. -/
theorem erase_returns_replaced_node :
    (build 5 ([2, 1] : List Nat)).bind (fun w =>
      (w.2.erase_key 5 w.1 1).bind (fun w1 =>
        (w1.2.1.find 5 w1.1 2).map (fun it => (w1.2.2.ptr, it.ptr, w1.2.2.eq it))))
      = some (.val 2, .val 3, false) := by
  decide

/-- C10 fails on the code. Insert 1 and copy the set: the copy traverses the same key, but
its `size()` is 0 where the original reports 1, for copy construction and for copy assignment
over a default-constructed set. The result lists size and traversal of the original, of the
copy-constructed set, and of the copy-assigned set. -/
theorem copy_loses_size :
    (build 5 ([1] : List Nat)).map (fun w =>
      ((w.2.size, w.2.traverse 5 w.1),
        (w.2.copy_construct.size, w.2.copy_construct.traverse 5 w.1),
        ((({} : persistent_set).copy_assign w.2).size,
          (({} : persistent_set).copy_assign w.2).traverse 5 w.1)))
      = some ((1, some [1]), (0, some [1]), (0, some [1])) := by
  decide

/-- C11. In a set built from a default-constructed set by inserting the keys `ks`,
`lower_bound(q)` returns; it is `end()` when every stored key is below `q`, and otherwise it is
the iterator of the smallest stored key `m` with `q <= m`: it dereferences to `m` and equals
`find(m)`. -/
theorem lower_bound_least (ks : List T) (q : T) (fuel : Nat) (hf : ks.length < fuel) :
    ∃ h s it, build fuel ks = some (h, s) ∧ s.lower_bound fuel h q = some it ∧
      ((∀ y ∈ ks, y < q) → it.eq s.end_ = true) ∧
      (∀ m ∈ ks, q ≤ m → (∀ y ∈ ks, q ≤ y → m ≤ y) →
        it.star h = some m ∧ s.find fuel h m = some it) := by
  obtain ⟨h, s, t, hb, hh, _, hm, _, hl, _⟩ := build_spec fuel ks hf
  have hht : t.height < fuel := by
    have := t.height_le_length_keys
    omega
  obtain ⟨h1, h2⟩ := bound_of_find? hh (fun y => decide (q ≤ y)) (t.lb q .root)
    (Tree.lb_eq hh.bst q .root)
  refine ⟨h, s, _, hb, persistent_set.lower_bound_spec hh q fuel hht, ?_, ?_⟩
  · intro hall
    rw [iterator_eq_end_iff]
    exact h1 (fun y hy => by simpa using hall y ((hm y).mp hy))
  · intro m hmk hqm hmin
    obtain ⟨h3, h4⟩ := h2 m ((hm m).mpr hmk) (by simpa using hqm)
      (fun y hy hqy => hmin y ((hm y).mp hy) (by simpa using hqy))
    exact ⟨h3, by rw [persistent_set.find_spec hh m fuel hht, h4]⟩

theorem lower_bound_least_witness :
    (([1, 3, 5, 7] : List Nat).length < 5) ∧
    (∃ h s it, build 5 ([1, 3, 5, 7] : List Nat) = some (h, s) ∧
      s.lower_bound 5 h 4 = some it ∧
      ((∀ y ∈ ([1, 3, 5, 7] : List Nat), y < 4) → it.eq s.end_ = true) ∧
      (∀ m ∈ ([1, 3, 5, 7] : List Nat), 4 ≤ m →
        (∀ y ∈ ([1, 3, 5, 7] : List Nat), 4 ≤ y → m ≤ y) →
          it.star h = some m ∧ s.find 5 h m = some it)) ∧
    (build 5 ([1, 3, 5, 7] : List Nat)).bind (fun w =>
      (w.2.lower_bound 5 w.1 4).bind (fun i4 =>
        (w.2.lower_bound 5 w.1 5).bind (fun i5 =>
          (w.2.lower_bound 5 w.1 8).map (fun i8 =>
            (i4.star w.1, i5.star w.1, i8.eq w.2.end_)))))
      = some (some 5, some 5, true) :=
  ⟨by decide, lower_bound_least [1, 3, 5, 7] 4 5 (by decide), by decide⟩

/-- C12. In a set built from a default-constructed set by inserting the keys `ks`,
`upper_bound(q)` returns; it is `end()` when no stored key is above `q`, and otherwise it is the
iterator of the smallest stored key `m` with `q < m`: it dereferences to `m` and equals
`find(m)`. -/
theorem upper_bound_least (ks : List T) (q : T) (fuel : Nat) (hf : ks.length < fuel) :
    ∃ h s it, build fuel ks = some (h, s) ∧ s.upper_bound fuel h q = some it ∧
      ((∀ y ∈ ks, y ≤ q) → it.eq s.end_ = true) ∧
      (∀ m ∈ ks, q < m → (∀ y ∈ ks, q < y → m ≤ y) →
        it.star h = some m ∧ s.find fuel h m = some it) := by
  obtain ⟨h, s, t, hb, hh, _, hm, _, hl, _⟩ := build_spec fuel ks hf
  have hht : t.height < fuel := by
    have := t.height_le_length_keys
    omega
  obtain ⟨h1, h2⟩ := bound_of_find? hh (fun y => decide (q < y)) (t.succ q .root)
    (Tree.succ_eq hh.bst q .root)
  refine ⟨h, s, _, hb, persistent_set.upper_bound_spec hh q fuel hht, ?_, ?_⟩
  · intro hall
    rw [iterator_eq_end_iff]
    exact h1 (fun y hy => by simpa using hall y ((hm y).mp hy))
  · intro m hmk hqm hmin
    obtain ⟨h3, h4⟩ := h2 m ((hm m).mpr hmk) (by simpa using hqm)
      (fun y hy hqy => hmin y ((hm y).mp hy) (by simpa using hqy))
    exact ⟨h3, by rw [persistent_set.find_spec hh m fuel hht, h4]⟩

theorem upper_bound_least_witness :
    (([1, 3, 5, 7] : List Nat).length < 5) ∧
    (∃ h s it, build 5 ([1, 3, 5, 7] : List Nat) = some (h, s) ∧
      s.upper_bound 5 h 5 = some it ∧
      ((∀ y ∈ ([1, 3, 5, 7] : List Nat), y ≤ 5) → it.eq s.end_ = true) ∧
      (∀ m ∈ ([1, 3, 5, 7] : List Nat), 5 < m →
        (∀ y ∈ ([1, 3, 5, 7] : List Nat), 5 < y → m ≤ y) →
          it.star h = some m ∧ s.find 5 h m = some it)) ∧
    (build 5 ([1, 3, 5, 7] : List Nat)).bind (fun w =>
      (w.2.upper_bound 5 w.1 5).bind (fun i5 =>
        (w.2.upper_bound 5 w.1 7).map (fun i7 => (i5.star w.1, i7.eq w.2.end_))))
      = some (some 7, true) :=
  ⟨by decide, upper_bound_least [1, 3, 5, 7] 5 5 (by decide), by decide⟩

/-- C13 fails on the code. Insert 1 and insert 1 again: `find(1)` is not `end()`, the second
insert reports false, but its iterator is `end()`, not `find(1)`. The result lists: whether
`find(1)` is `end()`, the reported bool, whether the returned iterator equals `find(1)`, and
whether it equals `end()`. -/
theorem insert_existing_not_find :
    (build 3 ([1] : List Nat)).bind (fun w =>
      (w.2.find 3 w.1 1).bind (fun f =>
        (w.2.insert 3 w.1 1).map (fun r =>
          (f.eq w.2.end_, r.2.2.2, r.2.2.1.eq f, r.2.2.1.eq w.2.end_))))
      = some (false, false, false, true) := by
  decide

/-- C13, amended. For every set `s` in every store and every key `k` for which `s.find(k)`
returns an iterator different from `s.end()`, `s.insert(k)` returns the pair of `s.end()` and
false, and leaves the store and the set as they were. -/
theorem insert_existing_returns_end (fuel : Nat) (h : Heap T) (s : persistent_set) (k : T)
    (it : iterator) (hfind : s.find fuel h k = some it) (hne : it.eq s.end_ = false) :
    s.insert fuel h k = some (h, s, s.end_, false) := by
  simp only [persistent_set.insert, hfind, hne, if_true]

theorem insert_existing_returns_end_witness :
    ∃ h s it, build 3 ([1] : List Nat) = some (h, s) ∧ s.find 3 h 1 = some it ∧
      it.eq s.end_ = false ∧ s.insert 3 h 1 = some (h, s, s.end_, false) :=
  ⟨_, _, _, rfl, rfl, rfl, insert_existing_returns_end 3 _ _ 1 _ rfl rfl⟩

/-- C14. Let `s` be built from a default-constructed set by inserting the keys `ks` (fewer than
`2 ^ 64 - 1` of them). If `k` is one of them, `insert(k)` reports false and leaves `size()` and
the traversal unchanged. If `k` is not, a first `insert(k)` reports true, a second one reports
false, and after the two calls `size()` has grown by exactly one. -/
theorem insert_idempotent (ks : List T) (k : T) (fuel : Nat) (hf : ks.length + 1 < fuel)
    (hsz : ks.length + 1 < SIZE_MOD) :
    ∃ h s L, build fuel ks = some (h, s) ∧ s.traverse fuel h = some L ∧
      (k ∈ ks → ∃ h1 s1 it, s.insert fuel h k = some (h1, s1, it, false) ∧
        s1.size = s.size ∧ s1.traverse fuel h1 = some L) ∧
      (k ∉ ks → ∃ h1 s1 it1 h2 s2 it2 L1, s.insert fuel h k = some (h1, s1, it1, true) ∧
        s1.traverse fuel h1 = some L1 ∧
        s1.insert fuel h1 k = some (h2, s2, it2, false) ∧
        s2.size = s1.size ∧ s2.traverse fuel h2 = some L1 ∧ s2.size = s.size + 1) := by
  obtain ⟨h, s, t, hb, hh, _, hm, hs, hl, _⟩ := build_spec fuel ks (by omega)
  have hht : t.height < fuel := by
    have := t.height_le_length_keys
    omega
  have htr := persistent_set.traverse_spec hh fuel (by omega)
  refine ⟨h, s, t.keys, hb, htr, ?_, ?_⟩
  · intro hk
    exact ⟨h, s, _, persistent_set.insert_dup hh ((hm k).mpr hk) fuel hht, rfl, htr⟩
  · intro hk
    have hkt : k ∉ t.keys := fun hc => hk ((hm k).mp hc)
    obtain ⟨h1, s1, hins, hh1, _, hs1, _, _⟩ := persistent_set.insert_new hh hkt fuel hht
    have hlen := Tree.length_keys_copy_path hkt (.node .leaf h.length k .leaf) (h.length + 1)
    simp only [Tree.keys, List.nil_append, List.length_singleton] at hlen
    have hht1 : (t.copy_path k (.node .leaf h.length k .leaf) (h.length + 1)).height < fuel := by
      have := (t.copy_path k (.node .leaf h.length k .leaf) (h.length + 1)).height_le_length_keys
      omega
    have hk1 : k ∈ (t.copy_path k (.node .leaf h.length k .leaf) (h.length + 1)).keys := by
      rw [Tree.mem_keys_copy_path hkt]; simp [Tree.keys]
    have htr1 := persistent_set.traverse_spec hh1 fuel (by omega)
    refine ⟨h1, s1, _, h1, s1, _, _, hins, htr1, persistent_set.insert_dup hh1 hk1 fuel hht1,
      rfl, htr1, ?_⟩
    rw [persistent_set.size, persistent_set.size, hs1, hs, size_inc_mod,
      Nat.mod_eq_of_lt (by omega), Nat.mod_eq_of_lt (by omega)]

theorem insert_idempotent_witness :
    (([2, 1, 3] : List Nat).length + 1 < 5) ∧ (([2, 1, 3] : List Nat).length + 1 < SIZE_MOD) ∧
    ∃ h s L, build 5 ([2, 1, 3] : List Nat) = some (h, s) ∧ s.traverse 5 h = some L ∧
      (1 ∈ ([2, 1, 3] : List Nat) → ∃ h1 s1 it, s.insert 5 h 1 = some (h1, s1, it, false) ∧
        s1.size = s.size ∧ s1.traverse 5 h1 = some L) ∧
      (1 ∉ ([2, 1, 3] : List Nat) → ∃ h1 s1 it1 h2 s2 it2 L1,
        s.insert 5 h 1 = some (h1, s1, it1, true) ∧
        s1.traverse 5 h1 = some L1 ∧
        s1.insert 5 h1 1 = some (h2, s2, it2, false) ∧
        s2.size = s1.size ∧ s2.traverse 5 h2 = some L1 ∧ s2.size = s.size + 1) :=
  ⟨by decide, by decide, insert_idempotent [2, 1, 3] 1 5 (by decide) (by decide)⟩

/-- C15. Let `s` be built from a default-constructed set by inserts, and let the construction
of nodes (allocation and key copy) succeed `b` times and then throw. Then `insert(k)` either
returns or propagates the exception; when it propagates, `size()` is what it was and, for every
key `q`, `find(q)` compares equal to `end()` exactly when it did before the call. With `b = 0`
and a key not stored, the call does propagate. -/
theorem insert_exception_safe (ks : List T) (k : T) (fuel b : Nat) (hf : ks.length < fuel) :
    ∃ h s out, build fuel ks = some (h, s) ∧ s.insert_throwing fuel b h k = some out ∧
      (b = 0 → k ∉ ks → out = .error (h, s)) ∧
      ∀ h1 s1, out = .error (h1, s1) →
        s1.size = s.size ∧
        ∀ q, ∃ it it1, s.find fuel h q = some it ∧ s1.find fuel h1 q = some it1 ∧
          it1.eq s1.end_ = it.eq s.end_ := by
  obtain ⟨h, s, t, hb, hh, _, hm, _, hl, _⟩ := build_spec fuel ks hf
  have hht : t.height < fuel := by
    have := t.height_le_length_keys
    omega
  have hsame : ∀ q, ∃ it it1, s.find fuel h q = some it ∧ s.find fuel h q = some it1 ∧
      it1.eq s.end_ = it.eq s.end_ :=
    fun q => ⟨_, _, persistent_set.find_spec hh q fuel hht,
      persistent_set.find_spec hh q fuel hht, rfl⟩
  by_cases hk : k ∈ t.keys
  · have hne : t.lookup k ≠ .root := by
      rw [Ne, Tree.lookup_eq_root_iff hh.bst]; exact not_not.mpr hk
    have hfalse : (make_iterator (t.lookup k)).eq s.end_ = false := by
      rw [iterator_eq_end_false_iff]; exact hne
    refine ⟨h, s, .ok (h, s, s.end_, false), hb, ?_, ?_, ?_⟩
    · simp only [persistent_set.insert_throwing, persistent_set.find_spec hh k fuel hht, hfalse,
        if_true]
    · intro _ hks
      exact absurd ((hm k).mp hk) hks
    · intro h1 s1 he
      cases he
  · have heq : t.lookup k = .root := (Tree.lookup_eq_root_iff hh.bst k).mpr hk
    have htrue : (make_iterator (t.lookup k)).eq s.end_ = false ↔ False := by
      rw [iterator_eq_end_false_iff, heq]; simp
    cases b with
    | zero =>
      refine ⟨h, s, .error (h, s), hb, ?_, fun _ _ => rfl, ?_⟩
      · simp only [persistent_set.insert_throwing, persistent_set.find_spec hh k fuel hht, htrue,
          if_false]
      · intro h1 s1 he
        cases he
        exact ⟨rfl, hsame⟩
    | succ b1 =>
      obtain ⟨out, hout, hspec⟩ :=
        persistent_set.copy_path_throwing_spec (hh.append (⟨none, none, k⟩ : val_node_t T)) k
          (some h.length) none none fuel b1 hht
      cases out with
      | ok w =>
        refine ⟨h, s, .ok (w.1.1, { w.1.2 with size_ := size_inc w.1.2.size_ },
          make_iterator (.val h.length), true), hb, ?_, ?_, ?_⟩
        · simp only [persistent_set.insert_throwing, persistent_set.find_spec hh k fuel hht,
            htrue, if_false, make_shared, hout]
        · intro hb0
          cases hb0
        · intro h1 s1 he
          cases he
      | error w =>
        refine ⟨h, s, .error w, hb, ?_, ?_, ?_⟩
        · simp only [persistent_set.insert_throwing, persistent_set.find_spec hh k fuel hht,
            htrue, if_false, make_shared, hout]
        · intro hb0
          cases hb0
        · intro h1 s1 he
          cases he
          obtain ⟨hh1, hsz⟩ := hspec _ rfl
          refine ⟨hsz, fun q => ?_⟩
          have hht1 : (t.copy_prefix k (h ++ [(⟨none, none, k⟩ : val_node_t T)]).length
              b1).height < fuel := by
            rw [Tree.height_copy_prefix]; exact hht
          refine ⟨_, _, persistent_set.find_spec hh q fuel hht,
            persistent_set.find_spec hh1 q fuel hht1, ?_⟩
          have h1 := iterator_eq_end_iff s (t.lookup q)
          have h2 := iterator_eq_end_iff s1
            ((t.copy_prefix k (h ++ [(⟨none, none, k⟩ : val_node_t T)]).length b1).lookup q)
          rw [Tree.lookup_eq_root_iff hh.bst] at h1
          rw [Tree.lookup_eq_root_iff hh1.bst, Tree.keys_copy_prefix] at h2
          rw [Bool.eq_iff_iff, h1, h2]

theorem insert_exception_safe_witness :
    (([2, 1, 3] : List Nat).length < 5) ∧
    (∃ h s out, build 5 ([2, 1, 3] : List Nat) = some (h, s) ∧
      s.insert_throwing 5 2 h 4 = some out ∧
      (2 = 0 → 4 ∉ ([2, 1, 3] : List Nat) → out = .error (h, s)) ∧
      ∀ h1 s1, out = .error (h1, s1) →
        s1.size = s.size ∧
        ∀ q, ∃ it it1, s.find 5 h q = some it ∧ s1.find 5 h1 q = some it1 ∧
          it1.eq s1.end_ = it.eq s.end_) ∧
    (build 5 ([2, 1, 3] : List Nat)).bind (fun w =>
      (w.2.insert_throwing 5 2 w.1 4).map (fun out =>
        match out with
        | .ok _ => none
        | .error w1 => some (w.2.root.left, w1.2.root.left, w1.2.size, w1.2.traverse 5 w1.1)))
      = some (some (some 4, some 6, 3, some [1, 2, 3])) :=
  ⟨by decide, insert_exception_safe [2, 1, 3] 4 5 2 (by decide), by decide⟩

/-- C16 fails on the code. Insert 1, 3, 2, 4 and erase 3, whose node has two children and hangs
below the node of 1. Let five constructions succeed and the sixth throw: the key copy, the
construction of `next_copy`, and the inner erase of the successor 4 (a key copy and two clones)
go through, and the first clone of the second `copy_path` throws. The exception leaves the set
without the key 4: `find(4)` was not `end()` before the call and is `end()` after it, while
`size()` still says 4 for the traversal 1, 2, 3. The result lists: whether `find(4)` is `end()`
before, whether it is after, `size()` before, `size()` after, and the traversal after. -/
theorem erase_exception_loses_successor :
    (build 10 ([1, 3, 2, 4] : List Nat)).bind (fun w =>
      (w.2.find 10 w.1 3).bind (fun it =>
        (w.2.find 10 w.1 4).bind (fun f4 =>
          (w.2.erase_throwing 10 5 w.1 it).bind (fun out =>
            match out with
            | .ok _ => none
            | .error w1 =>
              (w1.2.find 10 w1.1 4).map (fun g4 =>
                (f4.eq w.2.end_, g4.eq w1.2.end_, w.2.size, w1.2.size,
                  w1.2.traverse 10 w1.1))))))
      = some (false, true, 4, 4, some [1, 2, 3]) := by
  decide

/-- C17. In a set built from a default-constructed set by inserts, the traversal from `rbegin()`
to `rend()` returns, and yields exactly the reverse of the traversal from `begin()` to `end()`,
which is strictly decreasing. -/
theorem reverse_iteration (ks : List T) (fuel : Nat) (hf : ks.length < fuel) :
    ∃ h s L, build fuel ks = some (h, s) ∧ s.traverse fuel h = some L ∧
      s.rtraverse fuel h = some L.reverse ∧ L.reverse.Sorted (· > ·) ∧
      ∀ x, x ∈ L.reverse ↔ x ∈ ks := by
  obtain ⟨h, s, t, hb, hh, _, hm, _, hl, _⟩ := build_spec fuel ks hf
  refine ⟨h, s, t.keys, hb, persistent_set.traverse_spec hh fuel (by omega),
    persistent_set.rtraverse_spec hh fuel (by omega), ?_, ?_⟩
  · have := hh.bst.sorted_keys
    simp only [List.Sorted, List.pairwise_reverse]
    exact this
  · intro x
    rw [List.mem_reverse]
    exact hm x

theorem reverse_iteration_witness :
    (([2, 3, 1] : List Nat).length < 4) ∧
    (∃ h s L, build 4 ([2, 3, 1] : List Nat) = some (h, s) ∧ s.traverse 4 h = some L ∧
      s.rtraverse 4 h = some L.reverse ∧ L.reverse.Sorted (· > ·) ∧
      ∀ x, x ∈ L.reverse ↔ x ∈ ([2, 3, 1] : List Nat)) ∧
    (build 4 ([2, 3, 1] : List Nat)).bind (fun w => w.2.rtraverse 4 w.1) = some [3, 2, 1] :=
  ⟨by decide, reverse_iteration [2, 3, 1] 4 (by decide), by decide⟩

/-- C18. For every set `s` in every store, `s.erase(s.end())` returns an iterator equal to
`s.end()` and leaves the store and the set — `size_` and the sentinel with the tree below it —
exactly as they were, so the traversal is unchanged too. -/
theorem erase_end_noop (fuel : Nat) (h : Heap T) (s : persistent_set) :
    s.erase (fuel + 1) h s.end_ = some (h, s, s.end_) ∧ s.end_.eq s.end_ = true := by
  have : s.end_.eq s.end_ = true := by simp [iterator.eq]
  exact ⟨by simp only [persistent_set.erase, this, if_true], this⟩

/-- C19. Let `a` be built from a default-constructed set by inserts and `b` be a copy of `a`.
After `a.clear()`, `a.empty()` is true, `a.begin() == a.end()` and `a.find(q) == a.end()` for
every `q`, while the traversal of `b` still returns, with exactly the inserted keys. -/
theorem clear_releases_own_tree (ks : List T) (fuel : Nat) (hf : ks.length < fuel) :
    ∃ h a, build fuel ks = some (h, a) ∧
      a.clear.empty = true ∧
      (∃ it, a.clear.begin_ fuel h = some it ∧ it.eq a.clear.end_ = true) ∧
      (∀ q : T, ∃ it, a.clear.find fuel h q = some it ∧ it.eq a.clear.end_ = true) ∧
      ∀ b : persistent_set,
        (b = a.copy_construct ∨ ∃ b0 : persistent_set, b = b0.copy_assign a) →
        ∃ L, b.traverse fuel h = some L ∧ a.traverse fuel h = some L ∧ ∀ x, x ∈ L ↔ x ∈ ks := by
  obtain ⟨h, a, t, hb, hh, hr, hm, _, hl, _⟩ := build_spec fuel ks hf
  have hc : Holds h a.clear Tree.leaf := ⟨trivial, rfl, trivial⟩
  have hpos : 0 < fuel := by omega
  refine ⟨h, a, hb, ?_, ⟨_, persistent_set.begin_spec hc fuel hpos, ?_⟩, ?_, ?_⟩
  · simp [persistent_set.empty, persistent_set.clear, hr]
  · simp [Tree.nodes, first_ptr, iterator.eq, persistent_set.end_]
  · intro q
    exact ⟨_, persistent_set.find_spec hc q fuel hpos, by
      simp [Tree.lookup, iterator.eq, persistent_set.end_]⟩
  · intro b hbc
    have hhb : Holds h b t := hh.of_root_eq (copy_root_eq hbc)
    exact ⟨t.keys, persistent_set.traverse_spec hhb fuel (by omega),
      persistent_set.traverse_spec hh fuel (by omega), hm⟩

theorem clear_releases_own_tree_witness :
    (([2, 1, 3] : List Nat).length < 4) ∧
    ∃ h a, build 4 ([2, 1, 3] : List Nat) = some (h, a) ∧
      a.clear.empty = true ∧
      (∃ it, a.clear.begin_ 4 h = some it ∧ it.eq a.clear.end_ = true) ∧
      (∀ q : Nat, ∃ it, a.clear.find 4 h q = some it ∧ it.eq a.clear.end_ = true) ∧
      ∀ b : persistent_set,
        (b = a.copy_construct ∨ ∃ b0 : persistent_set, b = b0.copy_assign a) →
        ∃ L, b.traverse 4 h = some L ∧ a.traverse 4 h = some L ∧
          ∀ x, x ∈ L ↔ x ∈ ([2, 1, 3] : List Nat) :=
  ⟨by decide, clear_releases_own_tree [2, 1, 3] 4 (by decide)⟩

/-- C20 fails on the code. Insert 1 and clear the set: `empty()` is true but `size()` still
returns 1, because `clear` resets only `root.left`. The result lists `size()` and `empty()`
after the clear. -/
theorem clear_keeps_size :
    (build 3 ([1] : List Nat)).map (fun w => (w.2.clear.size, w.2.clear.empty))
      = some (1, true) := by
  decide

/-- C21 fails on the code. Insert 1 into `a` and move-construct `b` from `a`: `b` traverses the
key 1 and `a` is empty, but `b.size()` is 0 and `a.size()` is still 1. Move assignment over a
default-constructed set gives the same. The result lists, for construction and then for
assignment: the traversal and `size()` of `b`, and `empty()` and `size()` of `a`. -/
theorem move_keeps_sizes :
    (build 3 ([1] : List Nat)).map (fun w =>
      (((w.2.move_construct).1.traverse 3 w.1, (w.2.move_construct).1.size,
          (w.2.move_construct).2.empty, (w.2.move_construct).2.size),
        ((({} : persistent_set).move_assign w.2).1.traverse 3 w.1,
          (({} : persistent_set).move_assign w.2).1.size,
          (({} : persistent_set).move_assign w.2).2.empty,
          (({} : persistent_set).move_assign w.2).2.size)))
      = some ((some [1], 0, true, 1), (some [1], 0, true, 1)) := by
  decide

/-- C22 fails on the code. Insert 1 into `a`, insert 2 and 3 into `b`, and call `a.swap(b)`:
the traversals are exchanged, but `a.size()` is still 1 and `b.size()` still 2. The result
lists the traversal and `size()` of `a`, then of `b`, after the swap. -/
theorem swap_keeps_sizes :
    (build 4 ([1] : List Nat)).bind (fun wa =>
      (insert_all 4 (wa.1, {}) ([2, 3] : List Nat)).map (fun wb =>
        (((wa.2.swap wb.2).1.traverse 4 wb.1, (wa.2.swap wb.2).1.size),
          ((wa.2.swap wb.2).2.traverse 4 wb.1, (wa.2.swap wb.2).2.size))))
      = some ((some [2, 3], 1), (some [1], 2)) := by
  decide

/-- C23 fails on the code. Insert 3, 1, 4, 2, 5 and erase 3, whose node has two children. The
copy of the successor 4 takes the place of 3 with the children the node of 3 had before the
inner erase, so its right subtree still holds the node of 4: the reachable keys are
1, 2, 4, 4, 5, the ordering fails at the top node, and five value nodes are reachable while
`size()` is 4. The result lists the reachable keys, whether the ordering holds at every node,
and `size()`, after the erase. -/
theorem erase_breaks_ordering :
    (build 10 ([3, 1, 4, 2, 5] : List Nat)).bind (fun w =>
      (w.2.erase_key 10 w.1 3).map (fun w1 =>
        (inorder_keys w1.1 10 w1.2.1.root.left, ordered_below w1.1 10 w1.2.1.root.left,
          w1.2.1.size)))
      = some (some [1, 2, 4, 4, 5], some false, 4) := by
  decide

/-- C25. Let `s` be built from a default-constructed set by inserts and hold the tree `t`, and
let `k` be a key not inserted. Then `insert(k)` returns `true` and adds exactly one new node
and one clone for each of the `d` nodes on the search path for `k`; no node that existed
before is modified; the clone number `j` carries the key of the node number `j` of the search
path; and the subtrees hanging off the search path of the new tree are the very subtrees
(same nodes) hanging off the search path of the old one. -/
theorem insert_copies_only_path (ks : List T) (k : T) (hk : k ∉ ks) (fuel : Nat)
    (hf : ks.length < fuel) :
    ∃ h s t h1 s1 it, build fuel ks = some (h, s) ∧ Holds h s t ∧
      s.insert fuel h k = some (h1, s1, it, true) ∧
      h1.length = h.length + 1 + (t.path_keys k).length ∧
      (∀ i, i < h.length → h1[i]? = h[i]?) ∧
      (∀ j v, (t.path_keys k)[j]? = some v → ∃ l r, h1[h.length + 1 + j]? = some ⟨l, r, v⟩) ∧
      Holds h1 s1 (t.copy_path k (.node .leaf h.length k .leaf) (h.length + 1)) ∧
      (t.copy_path k (.node .leaf h.length k .leaf) (h.length + 1)).off_trees k
        = t.off_trees k := by
  obtain ⟨h, s, t, hb, hh, _, hm, _, hl, _⟩ := build_spec fuel ks hf
  have hht : t.height < fuel := by
    have := t.height_le_length_keys
    omega
  have hkt : k ∉ t.keys := fun hx => hk ((hm k).mp hx)
  obtain ⟨h1, s1, hi, hh1, _, _, _, hfr⟩ := persistent_set.insert_new hh hkt fuel hht
  refine ⟨h, s, t, h1, s1, _, hb, hh, hi, persistent_set.insert_length hh k fuel h1 s1 _ hi,
    hfr, ?_, hh1, ?_⟩
  · exact Stored.clone_keys k _ t (h.length + 1) hh1.stored
  · exact Tree.off_trees_copy_path t k _ (by simp [Tree.off_trees]) _

theorem insert_copies_only_path_witness :
    (4 ∉ ([2, 1, 3] : List Nat)) ∧ (([2, 1, 3] : List Nat).length < 5) ∧
    ∃ h s t h1 s1 it, build 5 ([2, 1, 3] : List Nat) = some (h, s) ∧ Holds h s t ∧
      s.insert 5 h 4 = some (h1, s1, it, true) ∧
      h1.length = h.length + 1 + (t.path_keys 4).length ∧
      (∀ i, i < h.length → h1[i]? = h[i]?) ∧
      (∀ j v, (t.path_keys 4)[j]? = some v → ∃ l r, h1[h.length + 1 + j]? = some ⟨l, r, v⟩) ∧
      Holds h1 s1 (t.copy_path 4 (.node .leaf h.length 4 .leaf) (h.length + 1)) ∧
      (t.copy_path 4 (.node .leaf h.length 4 .leaf) (h.length + 1)).off_trees 4
        = t.off_trees 4 :=
  ⟨by decide, by decide, insert_copies_only_path [2, 1, 3] 4 (by decide) 5 (by decide)⟩

/-- C26. Over a linear order, let the tree `t` be laid out in the store and hang below the
sentinel of `s`. Then the loop of `find` returns within `height + 1` iterations, and so does
the loop of `copy_path`, which makes at most `height` clones. -/
theorem search_loops_terminate (h : Heap T) (s : persistent_set) (t : Tree T)
    (hst : Stored h t) (hl : s.root.left = t.ptr) (key : T) (replace le re : node_ptr_t)
    (hrep : ∀ m, replace = some m → m < h.length) :
    (∃ it, s.find (t.height + 1) h key = some it) ∧
    ∃ w, s.copy_path (t.height + 1) h key replace le re = some w ∧
      w.1.length ≤ h.length + t.height := by
  refine ⟨⟨make_iterator (t.lookup key), ?_⟩, ?_⟩
  · simp only [persistent_set.find, hl, find_loop_stored key hst _ (Nat.lt_succ_self _),
      Option.map]
  · obtain ⟨w, hw, _⟩ :=
      copy_path_loop_spec key replace le re t (t.height + 1) h s.root .root false hst
        (Nat.lt_succ_self _) (Or.inl rfl) (fun m hm => ⟨hrep m hm, by simp⟩)
    have hlen := copy_path_loop_length key replace le re t _ _ _ _ _ hst (Or.inl rfl) w hw
    have hle := t.path_keys_length_le_height key
    refine ⟨(w.1, { s with root := w.2 }), ?_, ?_⟩
    · simp only [persistent_set.copy_path, hl, hw, Option.map]
    · show w.1.length ≤ _
      omega

theorem search_loops_terminate_witness :
    (∃ it, ({ root := ⟨some 1, none⟩, size_ := 2 } : persistent_set).find
        ((Tree.node (.node .leaf 0 1 .leaf) 1 2 .leaf : Tree Nat).height + 1)
        ([⟨none, none, 1⟩, ⟨some 0, none, 2⟩] : Heap Nat) 3 = some it) ∧
    ∃ w, ({ root := ⟨some 1, none⟩, size_ := 2 } : persistent_set).copy_path
        ((Tree.node (.node .leaf 0 1 .leaf) 1 2 .leaf : Tree Nat).height + 1)
        ([⟨none, none, 1⟩, ⟨some 0, none, 2⟩] : Heap Nat) 3 none none none = some w ∧
      w.1.length ≤ ([⟨none, none, 1⟩, ⟨some 0, none, 2⟩] : Heap Nat).length
        + (Tree.node (.node .leaf 0 1 .leaf) 1 2 .leaf : Tree Nat).height :=
  search_loops_terminate [⟨none, none, 1⟩, ⟨some 0, none, 2⟩]
    { root := ⟨some 1, none⟩, size_ := 2 } (.node (.node .leaf 0 1 .leaf) 1 2 .leaf)
    ⟨rfl, ⟨rfl, trivial, trivial⟩, trivial⟩ rfl 3 none none none
    (fun m hm => by cases hm)

/-- C27 fails on the code. In `less<I>` the `return` that calls `less<I + 1>` follows the
`if constexpr` statement without an `else`, so every `less<I>` instantiates `get<I>` and
`less<I + 1>`; the chain reaches `less<n>`, whose `get<n>` fails its `static_assert`. Hence
`first < second` is ill-formed for all tuples `first` and `second`, whatever their elements:
no comparison returns a value. -/
theorem tuple_less_ill_formed (first second : tuple T) (depth : Nat)
    (hd : first.length < depth) :
    tuple_lt depth first second = some .ill_formed := by
  simp only [tuple_lt]
  split
  · exact less_ill_formed first second depth 0 (by omega)
  · rfl

theorem tuple_less_ill_formed_witness :
    (([1, 2] : tuple Nat).length < 3) ∧
    tuple_lt 3 ([1, 2] : tuple Nat) [1, 3] = some .ill_formed ∧
    tuple_lt 2 ([1] : tuple Nat) [2] = some .ill_formed :=
  ⟨by decide, tuple_less_ill_formed [1, 2] [1, 3] 3 (by decide), by decide⟩

end PersistentSet
